import Mathlib

/-!
The codec tipsy: a byte codec for arrays of small values.

Shallow embedding of `encode.go` and `decode.go`.

Conventions of the embedding.

* A Go `[]byte` is a `List Nat`; a list is a byte sequence when every element
  is below 256 (`IsBytes`).  Conversions to a fixed width are written out as
  `% 2 ^ w` (`byte`, `uint16`, `uint32`, `uint64`); the signed 64-bit `int` is
  an `Int` wrapped by `toInt`.
* Go's `int` is taken to be 64 bits wide, so the length of a slice is below
  `2 ^ 63`; theorems quantifying over inputs of the encoder carry that bound.
* `append(dst, ...)` is list concatenation.  Capacity and aliasing of slices are
  not part of the model, and neither is failure of `make` for lack of memory.
* A call of `Decode` ends in an `Outcome`: a buffer with a nil error, the error
  `ErrCorrupt` with a nil buffer, or a run-time panic of the Go program
  (`fault`).  A call of `Encode` ends in `some` output or in `none` when the
  program panics.
* The functions of the Go standard library that the code calls
  (`binary.PutUvarint`, `binary.Uvarint`, `bits.LeadingZeros8`,
  `bits.TrailingZeros64`, `copy`) are embedded from their library source.
-/

namespace Tipsy

/-! ## Machine integers -/

/-- Conversion `byte(x)`, `uint8(x)`. -/
def byte (x : Nat) : Nat := x % 256

/-- Conversion `uint16(x)` and truncation of 16-bit arithmetic. -/
def uint16 (x : Nat) : Nat := x % 2 ^ 16

/-- Conversion `uint32(x)` and truncation of 32-bit arithmetic. -/
def uint32 (x : Nat) : Nat := x % 2 ^ 32

/-- Conversion `uint64(x)` and truncation of 64-bit arithmetic. -/
def uint64 (x : Nat) : Nat := x % 2 ^ 64

/-- Wrap-around of the signed 64-bit type `int`: both the conversion `int(v)` of a
`uint64` and the result of `int` arithmetic. -/
def toInt (x : Int) : Int := (x + 2 ^ 63) % 2 ^ 64 - 2 ^ 63

/-- A list is a byte sequence when each element is below 256. -/
def IsBytes (s : List Nat) : Prop := ∀ b ∈ s, b < 256

instance (s : List Nat) : Decidable (IsBytes s) := by
  unfold IsBytes; infer_instance

/-! ## Standard library -/

/-- The function `bits.LeadingZeros8`: number of leading zero bits of a byte, 8 for 0. -/
def LeadingZeros8 (x : Nat) : Nat :=
  if x ≥ 128 then 0
  else if x ≥ 64 then 1
  else if x ≥ 32 then 2
  else if x ≥ 16 then 3
  else if x ≥ 8 then 4
  else if x ≥ 4 then 5
  else if x ≥ 2 then 6
  else if x ≥ 1 then 7
  else 8

/-- Counting loop behind `bits.TrailingZeros64`: at most `n` low zero bits of `x`. -/
def trailingZeros : Nat → Nat → Nat
  | 0, _ => 0
  | n + 1, x => if x % 2 = 1 then 0 else 1 + trailingZeros n (x / 2)

/-- The function `bits.TrailingZeros64`: number of trailing zero bits of a `uint64`,
64 for 0. -/
def TrailingZeros64 (x : Nat) : Nat := trailingZeros 64 x

/-- Loop of `binary.PutUvarint`: while `x >= 0x80` emit `byte(x) | 0x80` and shift
right by 7, then emit `byte(x)`.  The first argument bounds the number of
continuation bytes; a `uint64` has at most nine. -/
def putUvarintLoop : Nat → Nat → List Nat
  | 0, x => [byte x]
  | n + 1, x =>
    if x ≥ 0x80 then (byte x ||| 0x80) :: putUvarintLoop n (x >>> 7)
    else [byte x]

/-- The bytes `buf[:n]` that `n := binary.PutUvarint(buf, x)` leaves in a buffer of
`binary.MaxVarintLen64` bytes, for a `uint64` value `x`. -/
def PutUvarint (x : Nat) : List Nat := putUvarintLoop 9 x

/-- Loop of `binary.Uvarint` over the bytes not yet read: `i` is the index of the next
byte, `x` the value accumulated so far and `s` the shift of the next group. -/
def uvarintLoop : List Nat → Nat → Nat → Nat → Nat × Int
  | [], _, _, _ => (0, 0)
  | b :: rest, i, x, s =>
    if i = 10 then (0, -((i : Int) + 1))
    else if b < 0x80 then
      if i = 9 ∧ b > 1 then (0, -((i : Int) + 1))
      else (x ||| uint64 (b <<< s), (i : Int) + 1)
    else uvarintLoop rest (i + 1) (x ||| uint64 ((b &&& 0x7f) <<< s)) (s + 7)

/-- The function `binary.Uvarint`: the decoded `uint64` and the number of bytes read;
the count is 0 when the buffer is too small and negative on overflow. -/
def Uvarint (buf : List Nat) : Nat × Int := uvarintLoop buf 0 0 0

/-! ## Encoder (`encode.go`) -/

/-- The value of the variable `prefix` of `appendPrefix`. -/
def prefixValue (size : Nat) : Nat :=
  if size ≥ 64 ∧ (size &&& (size - 1)) = 0 then
    uint64 (TrailingZeros64 (uint64 size) <<< 1) ||| 1
  else
    uint64 (uint64 size <<< 1)

/-- The function `appendPrefix`. -/
def appendPrefix (dst : List Nat) (size : Nat) : List Nat :=
  dst ++ PutUvarint (prefixValue size)

/-- The function `encodeEmptyBlocks`; `none` is `panic("n is zero")`. -/
def encodeEmptyBlocks (dst : List Nat) (n : Nat) : Option (List Nat) :=
  if n = 1 then some (dst ++ [1 <<< 7])
  else if n = 0 then none
  else some (dst ++ 0 :: PutUvarint (uint64 (n - 1)))

/-- The `switch bits.LeadingZeros8(sum)` of `encodeBlocks`: the frame of one block
`sb` that is not empty, appended to `dst`. -/
def encodeBlock (dst : List Nat) (sb0 sb1 sb2 sb3 sb4 sb5 sb6 : Nat) (sum : Nat) :
    List Nat :=
  match LeadingZeros8 sum with
  | 7 =>
    dst ++ [byte ((1 <<< 7) ||| sb0 ||| byte (sb1 <<< 1) ||| byte (sb2 <<< 2) |||
      byte (sb3 <<< 3) ||| byte (sb4 <<< 4) ||| byte (sb5 <<< 5) ||| byte (sb6 <<< 6))]
  | 6 =>
    let v := (1 <<< 14) ||| uint16 sb0 ||| uint16 (uint16 sb1 <<< 2) |||
      uint16 (uint16 sb2 <<< 4) ||| uint16 (uint16 sb3 <<< 6) |||
      uint16 (uint16 sb4 <<< 8) ||| uint16 (uint16 sb5 <<< 10) |||
      uint16 (uint16 sb6 <<< 12)
    dst ++ [byte (v >>> 8), byte v]
  | 5 =>
    let v := (1 <<< 21) ||| uint32 sb0 ||| uint32 (uint32 sb1 <<< 3) |||
      uint32 (uint32 sb2 <<< 6) ||| uint32 (uint32 sb3 <<< 9) |||
      uint32 (uint32 sb4 <<< 12) ||| uint32 (uint32 sb5 <<< 15) |||
      uint32 (uint32 sb6 <<< 18)
    dst ++ [byte (v >>> 16), byte (v >>> 8), byte v]
  | 4 =>
    let v := (1 <<< 28) ||| uint32 sb0 ||| uint32 (uint32 sb1 <<< 4) |||
      uint32 (uint32 sb2 <<< 8) ||| uint32 (uint32 sb3 <<< 12) |||
      uint32 (uint32 sb4 <<< 16) ||| uint32 (uint32 sb5 <<< 20) |||
      uint32 (uint32 sb6 <<< 24)
    dst ++ [byte (v >>> 24), byte (v >>> 16), byte (v >>> 8), byte v]
  | 3 =>
    let v := (1 <<< 35) ||| uint64 sb0 ||| uint64 (uint64 sb1 <<< 5) |||
      uint64 (uint64 sb2 <<< 10) ||| uint64 (uint64 sb3 <<< 15) |||
      uint64 (uint64 sb4 <<< 20) ||| uint64 (uint64 sb5 <<< 25) |||
      uint64 (uint64 sb6 <<< 30)
    dst ++ [byte (v >>> 32), byte (v >>> 24), byte (v >>> 16), byte (v >>> 8), byte v]
  | 2 =>
    let v := (1 <<< 42) ||| uint64 sb0 ||| uint64 (uint64 sb1 <<< 6) |||
      uint64 (uint64 sb2 <<< 12) ||| uint64 (uint64 sb3 <<< 18) |||
      uint64 (uint64 sb4 <<< 24) ||| uint64 (uint64 sb5 <<< 30) |||
      uint64 (uint64 sb6 <<< 36)
    dst ++ [byte (v >>> 40), byte (v >>> 32), byte (v >>> 24), byte (v >>> 16),
      byte (v >>> 8), byte v]
  | 1 =>
    let v := (1 <<< 49) ||| uint64 sb0 ||| uint64 (uint64 sb1 <<< 7) |||
      uint64 (uint64 sb2 <<< 14) ||| uint64 (uint64 sb3 <<< 21) |||
      uint64 (uint64 sb4 <<< 28) ||| uint64 (uint64 sb5 <<< 35) |||
      uint64 (uint64 sb6 <<< 42)
    dst ++ [byte (v >>> 48), byte (v >>> 40), byte (v >>> 32), byte (v >>> 24),
      byte (v >>> 16), byte (v >>> 8), byte v]
  | _ =>
    (dst ++ [1]) ++ [sb0, sb1, sb2, sb3, sb4, sb5, sb6]

/-- The statement `if empty > 0 { dst = encodeEmptyBlocks(dst, empty) }`. -/
def flushEmpty (dst : List Nat) (empty : Nat) : Option (List Nat) :=
  if empty > 0 then encodeEmptyBlocks dst empty else some dst

/-- The residual of `encodeBlocks` (`len(src) < 7`): at the first non-zero byte the
pending empty blocks are flushed and the residual is written as a fixed block. -/
def encodeResidual (dst : List Nat) (empty : Nat) (src : List Nat) : Option (List Nat) :=
  if src.any (fun b => b != 0) then
    (flushEmpty dst empty).map (fun d => (d ++ [1]) ++ src)
  else some dst

/-- The loop of `encodeBlocks` over the full blocks of `src`, followed by the
residual; `empty` is the counter of empty blocks (a `uint64`). -/
def encodeLoop : List Nat → Nat → List Nat → Option (List Nat)
  | dst, empty, sb0 :: sb1 :: sb2 :: sb3 :: sb4 :: sb5 :: sb6 :: rest =>
    let sum := byte (sb0 ||| sb1 ||| sb2 ||| sb3 ||| sb4 ||| sb5 ||| sb6)
    if sum = 0 then encodeLoop dst (uint64 (empty + 1)) rest
    else
      match flushEmpty dst empty with
      | none => none
      | some d => encodeLoop (encodeBlock d sb0 sb1 sb2 sb3 sb4 sb5 sb6 sum) 0 rest
  | dst, empty, src => encodeResidual dst empty src

/-- The function `encodeBlocks`. -/
def encodeBlocks (dst src : List Nat) : Option (List Nat) := encodeLoop dst 0 src

/-- The function `Encode`; `dst[:0]` drops the contents of `dst`. -/
def Encode (dst src : List Nat) : Option (List Nat) :=
  let dst := dst.take 0
  if src.length = 0 then some dst
  else encodeBlocks (appendPrefix dst src.length) src

/-! ## Decoder (`decode.go`) -/

/-- Result of a call of `Decode`. -/
inductive Outcome where
  /-- A decoded buffer and a nil error. -/
  | ok (out : List Nat)
  /-- A nil buffer and `ErrCorrupt`. -/
  | corrupt
  /-- A run-time panic (slice bounds out of range). -/
  | fault
  /-- The loop was cut off by the iteration bound of the model; `Decode` never
  ends so (`Decode_ne_stuck`). -/
  | stuck
  deriving DecidableEq, Repr

/-- Effect of one iteration of the decoding loop. -/
inductive Step where
  /-- The loop goes on with the buffer, the write index and the remaining input. -/
  | next (dst : List Nat) (dn : Int) (src : List Nat)
  /-- The function returns or panics. -/
  | halt (o : Outcome)
  deriving DecidableEq, Repr

/-- The statements `d := dst[dn : dn+7 : dn+7]; d[0] = ...; ...; d[6] = ...` followed by
`src = src[k:]; dn += 7`.  The slice expression panics unless
`0 <= dn <= dn+7 <= cap(dst)`. -/
def writeBlock (dst : List Nat) (dn : Int) (d : List Nat) (src : List Nat) (k : Nat) :
    Step :=
  if 0 ≤ dn ∧ dn ≤ toInt (dn + 7) ∧ toInt (dn + 7) ≤ dst.length then
    .next (dst.take dn.toNat ++ d ++ dst.drop (dn.toNat + 7)) (toInt (dn + 7)) (src.drop k)
  else .halt .fault

/-- The seven values `byte((v >> (i*w)) & mask)` for `i = 0..6`, `mask = 1<<w - 1`. -/
def unpack (v w mask : Nat) : List Nat :=
  [byte (v &&& mask), byte ((v >>> w) &&& mask), byte ((v >>> (2 * w)) &&& mask),
   byte ((v >>> (3 * w)) &&& mask), byte ((v >>> (4 * w)) &&& mask),
   byte ((v >>> (5 * w)) &&& mask), byte ((v >>> (6 * w)) &&& mask)]

/-- Element `src[i]` of the input; the code reads it after checking `len(src) > i`. -/
def at_ (src : List Nat) (i : Nat) : Nat := src.getD i 0

/-- One iteration of `for len(src) > 0 { switch bits.LeadingZeros8(src[0]) ... }` for a
non-empty `src`. -/
def decodeFrame (dst : List Nat) (dn : Int) (src : List Nat) : Step :=
  match LeadingZeros8 (at_ src 0) with
  | 0 =>
    if toInt (dn + 7) > dst.length then .halt .corrupt
    else
      let v := at_ src 0
      writeBlock dst dn (unpack v 1 1) src 1
  | 1 =>
    if src.length < 2 ∨ toInt (dn + 7) > dst.length then .halt .corrupt
    else
      let v := uint64 (at_ src 0 <<< 8) ||| at_ src 1
      writeBlock dst dn (unpack v 2 0b11) src 2
  | 2 =>
    if src.length < 3 ∨ toInt (dn + 7) > dst.length then .halt .corrupt
    else
      let v := uint64 (at_ src 0 <<< 16) ||| uint64 (at_ src 1 <<< 8) ||| at_ src 2
      writeBlock dst dn (unpack v 3 0b111) src 3
  | 3 =>
    if src.length < 4 ∨ toInt (dn + 7) > dst.length then .halt .corrupt
    else
      let v := uint64 (at_ src 0 <<< 24) ||| uint64 (at_ src 1 <<< 16) |||
        uint64 (at_ src 2 <<< 8) ||| at_ src 3
      writeBlock dst dn (unpack v 4 0b1111) src 4
  | 4 =>
    if src.length < 5 ∨ toInt (dn + 7) > dst.length then .halt .corrupt
    else
      let v := uint64 (at_ src 0 <<< 32) ||| uint64 (at_ src 1 <<< 24) |||
        uint64 (at_ src 2 <<< 16) ||| uint64 (at_ src 3 <<< 8) ||| at_ src 4
      writeBlock dst dn (unpack v 5 0b11111) src 5
  | 5 =>
    if src.length < 6 ∨ toInt (dn + 7) > dst.length then .halt .corrupt
    else
      let v := uint64 (at_ src 0 <<< 40) ||| uint64 (at_ src 1 <<< 32) |||
        uint64 (at_ src 2 <<< 24) ||| uint64 (at_ src 3 <<< 16) |||
        uint64 (at_ src 4 <<< 8) ||| at_ src 5
      writeBlock dst dn (unpack v 6 0b111111) src 6
  | 6 =>
    if src.length < 7 ∨ toInt (dn + 7) > dst.length then .halt .corrupt
    else
      let v := uint64 (at_ src 0 <<< 48) ||| uint64 (at_ src 1 <<< 40) |||
        uint64 (at_ src 2 <<< 32) ||| uint64 (at_ src 3 <<< 24) |||
        uint64 (at_ src 4 <<< 16) ||| uint64 (at_ src 5 <<< 8) ||| at_ src 6
      writeBlock dst dn (unpack v 7 0b1111111) src 7
  | 7 =>
    let n := if src.length < 8 then src.length else 8
    -- `dst[dn:]` panics unless `0 <= dn <= len(dst)`
    if 0 ≤ dn ∧ dn ≤ dst.length then
      let from_ := (src.take n).drop 1
      let k := min (dst.length - dn.toNat) from_.length
      .next (dst.take dn.toNat ++ from_.take k ++ dst.drop (dn.toNat + k))
        (toInt (dn + k)) (src.drop n)
    else .halt .fault
  | _ =>
    let (v, n) := Uvarint (src.drop 1)
    if n ≤ 0 then .halt .corrupt
    else
      let dn := toInt (dn + toInt (7 + toInt (toInt v * 7)))
      if dn > dst.length then .halt .corrupt
      else .next dst dn (src.drop (1 + n.toNat))

/-- The loop `for len(src) > 0 { ... }` followed by `return dst, nil`.  Every
iteration consumes at least one byte of `src`, so `len(src)` iterations suffice;
the first argument is that bound. -/
def decodeLoop : Nat → List Nat → Int → List Nat → Outcome
  | _, dst, _, [] => .ok dst
  | 0, _, _, _ :: _ => .stuck
  | fuel + 1, dst, dn, t :: rest =>
    match decodeFrame dst dn (t :: rest) with
    | .halt o => o
    | .next dst1 dn1 src1 => decodeLoop fuel dst1 dn1 src1

/-- The loop `for len(src) > 0 { ... }; return dst, nil` entered with buffer `dst`, write
index `dn` and remaining input `src`. -/
def decodeFrom (dst : List Nat) (dn : Int) (src : List Nat) : Outcome :=
  decodeLoop src.length dst dn src

/-- The size computed from the prefix: `size := prefix >> 1`, replaced by
`1 << size` (a 64-bit shift, 0 from 64 on) when `prefix&1 == 1`. -/
def prefixSize (pfx : Nat) : Nat :=
  let size := pfx >>> 1
  if pfx &&& 1 = 1 then (if size < 64 then uint64 (1 <<< size) else 0) else size

/-- The function `Decode`.  In the branch `len(dst) >= int(size)` the expression
`dst[:size]` panics when `size` exceeds the capacity, which in that branch happens
exactly when `int(size)` is negative, that is when `size` exceeds `len(dst)`. -/
def Decode (dst src : List Nat) : Outcome :=
  if src.length = 0 then .ok []
  else
    let (pfx, sn) := Uvarint src
    if sn ≤ 0 then .corrupt
    else
      let src := src.drop sn.toNat
      let size := prefixSize pfx
      if size = 0 then .ok []
      else if (dst.length : Int) ≥ toInt size then
        if size ≤ dst.length then
          decodeFrom ((dst.take size).map (fun _ => 0)) 0 src
        else .fault
      else decodeFrom (List.replicate size 0) 0 src

/-! ## Functions of the proofs -/

/-- The integer a packed frame of width `w` carries: the seven values of `w` bits each,
the first one lowest, below a marker bit. -/
def packValue (w b0 b1 b2 b3 b4 b5 b6 : Nat) : Nat :=
  b0 + b1 * 2 ^ w + b2 * 2 ^ (2 * w) + b3 * 2 ^ (3 * w) + b4 * 2 ^ (4 * w)
    + b5 * 2 ^ (5 * w) + b6 * 2 ^ (6 * w) + 2 ^ (7 * w)

/-- The step of the decoder at a frame that carries the block `blk` and is followed
by `tl`, when the block fits below the end of the buffer. -/
def blockStep (buf : List Nat) (dn : Nat) (blk tl : List Nat) : Step :=
  .next (buf.take dn ++ blk ++ buf.drop (dn + 7)) ((dn : Int) + 7) tl

/-- The bytes `encodeEmptyBlocks` writes for a pending run, none for an empty run. -/
def emptyFrame (e : Nat) : List Nat :=
  if e = 0 then [] else if e = 1 then [128] else 0 :: PutUvarint (e - 1)

/-- The bytes left over when the loop over full blocks ends: the last `len mod 7` bytes. -/
def residual : List Nat → List Nat
  | _ :: _ :: _ :: _ :: _ :: _ :: _ :: rest => residual rest
  | src => src

/-- The last full block of seven bytes, empty when there is none. -/
def lastBlock : List Nat → List Nat
  | b0 :: b1 :: b2 :: b3 :: b4 :: b5 :: b6 :: rest =>
    if rest.length < 7 then [b0, b1, b2, b3, b4, b5, b6] else lastBlock rest
  | _ => []

/-- The write index of the decoder after the frames that `encodeLoop` writes for `src` with
`e` empty blocks pending, when it stood at `dn` before the pending blocks. -/
def endCursor : Nat → Nat → List Nat → Nat
  | dn, e, b0 :: b1 :: b2 :: b3 :: b4 :: b5 :: b6 :: rest =>
    if byte (b0 ||| b1 ||| b2 ||| b3 ||| b4 ||| b5 ||| b6) = 0 then endCursor dn (e + 1) rest
    else endCursor (dn + 7 * e + 7) 0 rest
  | dn, e, src => if src.any (fun b => b != 0) then dn + 7 * e + src.length else dn

/-- The `n` low bytes of `v`, the most significant one first. -/
def bigEndian : Nat → Nat → List Nat
  | 0, _ => []
  | n + 1, v => byte (v >>> (8 * n)) :: bigEndian n v

/-! ## Bit operations as arithmetic -/

theorem lor_shl_add (a b s : Nat) (h : a < 2 ^ s) : a ||| b <<< s = a + b * 2 ^ s := by
  rw [Nat.or_comm, Nat.shiftLeft_eq, Nat.mul_comm b, ← Nat.mul_add_lt_is_or h, Nat.add_comm]

theorem lor_add_of_dvd (a b s : Nat) (ha : a % 2 ^ s = 0) (hb : b < 2 ^ s) :
    a ||| b = a + b := by
  obtain ⟨c, rfl⟩ := Nat.dvd_of_mod_eq_zero ha
  exact (Nat.mul_add_lt_is_or hb c).symm

theorem lor_right_comm (a b c : Nat) : a ||| b ||| c = a ||| c ||| b := by
  rw [Nat.or_assoc, Nat.or_comm b c, ← Nat.or_assoc]

theorem lt_of_lor_lt_left {x y n : Nat} (h : x ||| y < 2 ^ n) : x < 2 ^ n := by
  apply Nat.lt_pow_two_of_testBit
  intro i hi
  have hlt : x ||| y < 2 ^ i := lt_of_lt_of_le h (Nat.pow_le_pow_right (by decide) hi)
  have := Nat.testBit_lt_two_pow hlt
  rw [Nat.testBit_or] at this
  cases hx : x.testBit i
  · rfl
  · rw [hx] at this; simp at this

theorem lt_of_lor_lt_right {x y n : Nat} (h : x ||| y < 2 ^ n) : y < 2 ^ n := by
  rw [Nat.or_comm] at h; exact lt_of_lor_lt_left h

set_option maxRecDepth 100000 in
theorem byte_cont (b : Nat) (h : b < 256) : (b ||| 0x80) &&& 0x7f = b % 128 ∧ 0x80 ≤ (b ||| 0x80)
    ∧ (b ||| 0x80) < 256 := by
  revert b; decide

/-! ## LEB128 -/

theorem byte_of_lt {x : Nat} (h : x < 256) : byte x = x := Nat.mod_eq_of_lt h

theorem uint64_of_lt {x : Nat} (h : x < 2 ^ 64) : uint64 x = x := Nat.mod_eq_of_lt h

theorem putUvarintLoop_length_pos (n x : Nat) : 1 ≤ (putUvarintLoop n x).length := by
  cases n with
  | zero => simp [putUvarintLoop]
  | succ n =>
    unfold putUvarintLoop
    split <;> simp

theorem putUvarintLoop_length_le (n x : Nat) : (putUvarintLoop n x).length ≤ n + 1 := by
  induction n generalizing x with
  | zero => simp [putUvarintLoop]
  | succ n ih =>
    unfold putUvarintLoop
    split
    · simp only [List.length_cons]; have := ih (x >>> 7); omega
    · simp

theorem uvarintLoop_put (tl : List Nat) (n : Nat) :
    ∀ (i acc y : Nat), i + n = 9 → acc < 2 ^ (7 * i) → y * 2 ^ (7 * i) < 2 ^ 64 →
      uvarintLoop (putUvarintLoop n y ++ tl) i acc (7 * i) =
        (acc + y * 2 ^ (7 * i), (i : Int) + (putUvarintLoop n y).length) := by
  induction n with
  | zero =>
    intro i acc y hi hacc hy
    have hi9 : i = 9 := by omega
    subst hi9
    have hy2 : y < 2 := by
      norm_num at hy; omega
    have hsh : y <<< (7 * 9) < 2 ^ 64 := by rw [Nat.shiftLeft_eq]; exact hy
    simp only [putUvarintLoop, byte_of_lt (show y < 256 by omega), List.singleton_append,
      uvarintLoop, List.length_singleton]
    rw [if_neg (by decide), if_pos (by omega), if_neg (by omega), uint64_of_lt hsh,
      lor_shl_add _ _ _ hacc]
    rfl
  | succ n ih =>
    intro i acc y hi hacc hy
    have hi8 : i ≤ 8 := by omega
    have hP : 0 < 2 ^ (7 * i) := Nat.two_pow_pos _
    have hpow : 2 ^ (7 * (i + 1)) = 128 * 2 ^ (7 * i) := by
      rw [show 7 * (i + 1) = 7 + 7 * i by ring, pow_add]; norm_num
    unfold putUvarintLoop
    by_cases hge : y ≥ 0x80
    · rw [if_pos hge]
      obtain ⟨h1, h2, h3⟩ := byte_cont (byte y) (Nat.mod_lt _ (by decide))
      have hbm : byte y % 128 = y % 128 := by unfold byte; omega
      have hm : (y % 128) * 2 ^ (7 * i) ≤ y * 2 ^ (7 * i) :=
        Nat.mul_le_mul_right _ (Nat.mod_le _ _)
      have hsh : (y % 128) <<< (7 * i) < 2 ^ 64 := by
        rw [Nat.shiftLeft_eq]; omega
      have hacc1 : acc + (y % 128) * 2 ^ (7 * i) < 2 ^ (7 * (i + 1)) := by
        rw [hpow]
        have : (y % 128 + 1) * 2 ^ (7 * i) ≤ 128 * 2 ^ (7 * i) :=
          Nat.mul_le_mul_right _ (by omega)
        nlinarith
      have hdiv : (y >>> 7) * 2 ^ (7 * (i + 1)) ≤ y * 2 ^ (7 * i) := by
        rw [hpow, Nat.shiftRight_eq_div_pow, ← Nat.mul_assoc]
        exact Nat.mul_le_mul_right _ (Nat.div_mul_le_self y 128)
      simp only [List.cons_append, uvarintLoop, List.length_cons]
      rw [if_neg (by omega), if_neg (by omega), h1, hbm, uint64_of_lt hsh,
        lor_shl_add _ _ _ hacc, show 7 * i + 7 = 7 * (i + 1) by ring]
      show uvarintLoop (putUvarintLoop n (y >>> 7) ++ tl) _ _ _ = _
      rw [ih (i + 1) _ (y >>> 7) (by omega) hacc1 (by omega)]
      have hsum : acc + y % 128 * 2 ^ (7 * i) + y >>> 7 * 2 ^ (7 * (i + 1)) =
          acc + y * 2 ^ (7 * i) := by
        rw [hpow, Nat.shiftRight_eq_div_pow]
        have := Nat.div_add_mod y 128
        norm_num
        nlinarith
      rw [hsum]
      congr 1
      push_cast; ring
    · rw [if_neg hge]
      have hsh : y <<< (7 * i) < 2 ^ 64 := by rw [Nat.shiftLeft_eq]; exact hy
      simp only [byte_of_lt (show y < 256 by omega), List.singleton_append,
        uvarintLoop, List.length_singleton]
      rw [if_neg (by omega), if_pos (by omega), if_neg (by omega), uint64_of_lt hsh,
        lor_shl_add _ _ _ hacc]
      rfl

theorem Uvarint_PutUvarint (x : Nat) (hx : x < 2 ^ 64) (tl : List Nat) :
    Uvarint (PutUvarint x ++ tl) = (x, ((PutUvarint x).length : Int)) := by
  have := uvarintLoop_put tl 9 0 0 x (by decide) (by decide) (by simpa using hx)
  simpa [Uvarint, PutUvarint] using this

theorem PutUvarint_length_pos (x : Nat) : 1 ≤ (PutUvarint x).length :=
  putUvarintLoop_length_pos 9 x

theorem PutUvarint_length_le (x : Nat) : (PutUvarint x).length ≤ 10 :=
  putUvarintLoop_length_le 9 x

/-! ## Size prefix -/

theorem land_one (x : Nat) : x &&& 1 = x % 2 := Nat.and_pow_two_sub_one_eq_mod x 1

theorem pow_trailingZeros (fuel : Nat) :
    ∀ x, 0 < x → x < 2 ^ fuel → x &&& (x - 1) = 0 → x = 2 ^ trailingZeros fuel x := by
  induction fuel with
  | zero => intro x h0 h1 _; simp at h1; omega
  | succ n ih =>
    intro x h0 h1 h
    have hd : x / 2 &&& (x - 1) / 2 = 0 := by
      rw [← Nat.and_div_two, h]
    unfold trailingZeros
    by_cases hodd : x % 2 = 1
    · rw [if_pos hodd]
      have e : (x - 1) / 2 = x / 2 := by omega
      rw [e, Nat.and_self] at hd
      simp; omega
    · rw [if_neg hodd]
      have e : (x - 1) / 2 = x / 2 - 1 := by omega
      rw [e] at hd
      have := ih (x / 2) (by omega) (by rw [pow_succ] at h1; omega) hd
      rw [Nat.add_comm, pow_succ, ← this]; omega

theorem trailingZeros_pow (k : Nat) : ∀ fuel, k < fuel → trailingZeros fuel (2 ^ k) = k := by
  induction k with
  | zero => intro fuel h; cases fuel with
    | zero => omega
    | succ n => simp [trailingZeros]
  | succ k ih =>
    intro fuel h
    cases fuel with
    | zero => omega
    | succ n =>
      unfold trailingZeros
      have h2 : 2 ^ (k + 1) % 2 = 0 := by rw [pow_succ]; omega
      have h3 : 2 ^ (k + 1) / 2 = 2 ^ k := by rw [pow_succ]; omega
      rw [if_neg (by omega), h3, ih n (by omega)]; omega

theorem pow_land_pred (k : Nat) : 2 ^ k &&& (2 ^ k - 1) = 0 := by
  rw [Nat.and_pow_two_sub_one_eq_mod, Nat.mod_self]

/-- The prefix of a power of two from 64 on is in exponent form. -/
theorem prefixValue_pow (k : Nat) (h6 : 6 ≤ k) (h : k < 64) :
    prefixValue (2 ^ k) = 2 * k + 1 := by
  have hge : 2 ^ k ≥ 64 := by
    have : 2 ^ 6 ≤ 2 ^ k := Nat.pow_le_pow_right (by decide) h6
    simpa using this
  have hlt : 2 ^ k < 2 ^ 64 := Nat.pow_lt_pow_right (by decide) h
  unfold prefixValue
  rw [if_pos ⟨hge, pow_land_pred k⟩, uint64_of_lt hlt]
  unfold TrailingZeros64
  rw [trailingZeros_pow k 64 h, Nat.shiftLeft_eq, uint64_of_lt (by omega),
    lor_add_of_dvd _ 1 1 (by omega) (by decide)]
  omega

/-- The prefix of a size that is not a power of two, or is below 64, is in absolute form. -/
theorem prefixValue_lit (n : Nat) (hn : n < 2 ^ 63) (h : n < 64 ∨ ¬ ∃ k, n = 2 ^ k) :
    prefixValue n = 2 * n := by
  have hlt : n < 2 ^ 64 := by omega
  unfold prefixValue
  rw [if_neg, uint64_of_lt hlt, Nat.shiftLeft_eq, uint64_of_lt (by omega)]
  · omega
  · rintro ⟨h64, hz⟩
    rcases h with h | h
    · omega
    · exact h ⟨_, pow_trailingZeros 64 n (by omega) hlt hz⟩

theorem prefixSize_lit (n : Nat) : prefixSize (2 * n) = n := by
  unfold prefixSize
  simp only [land_one, Nat.shiftRight_eq_div_pow]
  rw [if_neg (by omega)]; omega

theorem prefixSize_pow (k : Nat) (h : k < 64) : prefixSize (2 * k + 1) = 2 ^ k := by
  have hlt : 2 ^ k < 2 ^ 64 := Nat.pow_lt_pow_right (by decide) h
  unfold prefixSize
  simp only [land_one, Nat.shiftRight_eq_div_pow]
  rw [if_pos (by omega), show (2 * k + 1) / 2 ^ 1 = k by omega, if_pos h, Nat.shiftLeft_eq,
    Nat.one_mul, uint64_of_lt hlt]

/-- For a length in the range of `int`, the prefix is a non-zero `uint64` from which the
decoder computes the length again. -/
theorem prefixValue_spec (n : Nat) (h1 : 1 ≤ n) (hn : n < 2 ^ 63) :
    0 < prefixValue n ∧ prefixValue n < 2 ^ 64 ∧ prefixSize (prefixValue n) = n := by
  by_cases h : n < 64 ∨ ¬ ∃ k, n = 2 ^ k
  · rw [prefixValue_lit n hn h, prefixSize_lit]; omega
  · push_neg at h
    obtain ⟨h64, k, rfl⟩ := h
    have hk : k < 63 := (Nat.pow_lt_pow_iff_right (by decide)).mp hn
    have h6 : 6 ≤ k := by
      by_contra hc
      have : 2 ^ k < 2 ^ 6 := Nat.pow_lt_pow_right (by decide) (by omega)
      omega
    rw [prefixValue_pow k h6 (by omega), prefixSize_pow k (by omega)]
    omega

/-! ## Packed blocks -/

theorem pack_eq (w : Nat) (b0 b1 b2 b3 b4 b5 b6 : Nat)
    (h0 : b0 < 2 ^ w) (h1 : b1 < 2 ^ w) (h2 : b2 < 2 ^ w) (h3 : b3 < 2 ^ w)
    (h4 : b4 < 2 ^ w) (h5 : b5 < 2 ^ w) (h6 : b6 < 2 ^ w) :
    (1 <<< (7 * w)) ||| b0 ||| (b1 <<< w) ||| (b2 <<< (2 * w)) ||| (b3 <<< (3 * w)) |||
      (b4 <<< (4 * w)) ||| (b5 <<< (5 * w)) ||| (b6 <<< (6 * w))
    = packValue w b0 b1 b2 b3 b4 b5 b6 := by
  have e : ∀ k, 2 ^ ((k + 1) * w) = 2 ^ (k * w) * 2 ^ w := by
    intro k; rw [← pow_add]; ring_nf
  have step : ∀ (k a b : Nat), a < 2 ^ (k * w) → b < 2 ^ w →
      a + b * 2 ^ (k * w) < 2 ^ ((k + 1) * w) := by
    intro k a b ha hb
    rw [e]
    have : (b + 1) * 2 ^ (k * w) ≤ 2 ^ w * 2 ^ (k * w) := Nat.mul_le_mul_right _ hb
    nlinarith
  have l1 : b0 + b1 * 2 ^ w < 2 ^ (2 * w) := by
    have := step 1 b0 b1 (by simpa using h0) h1
    simpa using this
  have l2 := step 2 _ b2 l1 h2
  have l3 := step 3 _ b3 l2 h3
  have l4 := step 4 _ b4 l3 h4
  have l5 := step 5 _ b5 l4 h5
  have l6 := step 6 _ b6 l5 h6
  rw [Nat.or_comm _ b0, lor_right_comm b0, lor_right_comm _ (1 <<< (7 * w)),
    lor_right_comm _ (1 <<< (7 * w)), lor_right_comm _ (1 <<< (7 * w)),
    lor_right_comm _ (1 <<< (7 * w)), lor_right_comm _ (1 <<< (7 * w))]
  rw [lor_shl_add b0 b1 w h0, lor_shl_add _ b2 _ l1, lor_shl_add _ b3 _ l2,
    lor_shl_add _ b4 _ l3, lor_shl_add _ b5 _ l4, lor_shl_add _ b6 _ l5,
    lor_shl_add _ 1 _ l6, Nat.one_mul]
  rfl

theorem trunc_shl (n w x s : Nat) (hx : x < 2 ^ w) (hs : s + w ≤ n) :
    ((x % 2 ^ n) <<< s) % 2 ^ n = x <<< s := by
  have h1 : 2 ^ w ≤ 2 ^ n := Nat.pow_le_pow_right (by decide) (by omega)
  have h2 : x * 2 ^ s < 2 ^ w * 2 ^ s := Nat.mul_lt_mul_of_pos_right hx (Nat.two_pow_pos _)
  have h3 : 2 ^ w * 2 ^ s ≤ 2 ^ n := by
    rw [← pow_add]; exact Nat.pow_le_pow_right (by decide) (by omega)
  have hx1 : x % 2 ^ n = x := Nat.mod_eq_of_lt (by omega)
  rw [hx1, Nat.shiftLeft_eq, Nat.mod_eq_of_lt (by omega)]

theorem trunc_shl0 (n w x s : Nat) (hx : x < 2 ^ w) (hs : s + w ≤ n) :
    (x <<< s) % 2 ^ n = x <<< s := by
  have h2 : x * 2 ^ s < 2 ^ w * 2 ^ s := Nat.mul_lt_mul_of_pos_right hx (Nat.two_pow_pos _)
  have h3 : 2 ^ w * 2 ^ s ≤ 2 ^ n := by
    rw [← pow_add]; exact Nat.pow_le_pow_right (by decide) (by omega)
  rw [Nat.shiftLeft_eq, Nat.mod_eq_of_lt (by omega)]

theorem toInt_of_lt (x : Int) (h0 : 0 ≤ x) (h : x < 2 ^ 63) : toInt x = x := by
  unfold toInt; omega

theorem writeBlock_ok (buf : List Nat) (dn : Nat) (blk src : List Nat) (k : Nat)
    (hdn : dn + 7 ≤ buf.length) (hlen : buf.length < 2 ^ 63) :
    writeBlock buf dn blk src k = blockStep buf dn blk (src.drop k) := by
  unfold writeBlock blockStep
  rw [toInt_of_lt _ (by omega) (by omega), if_pos (by omega)]
  simp

/-! ## The cases of the two `switch` statements -/

theorem encodeBlock_7 (dst : List Nat) (b0 b1 b2 b3 b4 b5 b6 sum : Nat)
    (hs : LeadingZeros8 sum = 7) :
    encodeBlock dst b0 b1 b2 b3 b4 b5 b6 sum =
      dst ++ [byte ((1 <<< 7) ||| b0 ||| byte (b1 <<< 1) ||| byte (b2 <<< 2) ||| byte (b3 <<< 3) ||| byte (b4 <<< 4) ||| byte (b5 <<< 5) ||| byte (b6 <<< 6))] := by
  unfold encodeBlock
  rw [hs]

theorem encodeBlock_6 (dst : List Nat) (b0 b1 b2 b3 b4 b5 b6 sum : Nat)
    (hs : LeadingZeros8 sum = 6) :
    encodeBlock dst b0 b1 b2 b3 b4 b5 b6 sum =
      dst ++ [byte (((1 <<< 14) ||| uint16 b0 ||| uint16 (uint16 b1 <<< 2) ||| uint16 (uint16 b2 <<< 4) ||| uint16 (uint16 b3 <<< 6) ||| uint16 (uint16 b4 <<< 8) ||| uint16 (uint16 b5 <<< 10) ||| uint16 (uint16 b6 <<< 12)) >>> 8),
        byte ((1 <<< 14) ||| uint16 b0 ||| uint16 (uint16 b1 <<< 2) ||| uint16 (uint16 b2 <<< 4) ||| uint16 (uint16 b3 <<< 6) ||| uint16 (uint16 b4 <<< 8) ||| uint16 (uint16 b5 <<< 10) ||| uint16 (uint16 b6 <<< 12))] := by
  unfold encodeBlock
  rw [hs]

theorem encodeBlock_5 (dst : List Nat) (b0 b1 b2 b3 b4 b5 b6 sum : Nat)
    (hs : LeadingZeros8 sum = 5) :
    encodeBlock dst b0 b1 b2 b3 b4 b5 b6 sum =
      dst ++ [byte (((1 <<< 21) ||| uint32 b0 ||| uint32 (uint32 b1 <<< 3) ||| uint32 (uint32 b2 <<< 6) ||| uint32 (uint32 b3 <<< 9) ||| uint32 (uint32 b4 <<< 12) ||| uint32 (uint32 b5 <<< 15) ||| uint32 (uint32 b6 <<< 18)) >>> 16),
        byte (((1 <<< 21) ||| uint32 b0 ||| uint32 (uint32 b1 <<< 3) ||| uint32 (uint32 b2 <<< 6) ||| uint32 (uint32 b3 <<< 9) ||| uint32 (uint32 b4 <<< 12) ||| uint32 (uint32 b5 <<< 15) ||| uint32 (uint32 b6 <<< 18)) >>> 8),
        byte ((1 <<< 21) ||| uint32 b0 ||| uint32 (uint32 b1 <<< 3) ||| uint32 (uint32 b2 <<< 6) ||| uint32 (uint32 b3 <<< 9) ||| uint32 (uint32 b4 <<< 12) ||| uint32 (uint32 b5 <<< 15) ||| uint32 (uint32 b6 <<< 18))] := by
  unfold encodeBlock
  rw [hs]

theorem encodeBlock_4 (dst : List Nat) (b0 b1 b2 b3 b4 b5 b6 sum : Nat)
    (hs : LeadingZeros8 sum = 4) :
    encodeBlock dst b0 b1 b2 b3 b4 b5 b6 sum =
      dst ++ [byte (((1 <<< 28) ||| uint32 b0 ||| uint32 (uint32 b1 <<< 4) ||| uint32 (uint32 b2 <<< 8) ||| uint32 (uint32 b3 <<< 12) ||| uint32 (uint32 b4 <<< 16) ||| uint32 (uint32 b5 <<< 20) ||| uint32 (uint32 b6 <<< 24)) >>> 24),
        byte (((1 <<< 28) ||| uint32 b0 ||| uint32 (uint32 b1 <<< 4) ||| uint32 (uint32 b2 <<< 8) ||| uint32 (uint32 b3 <<< 12) ||| uint32 (uint32 b4 <<< 16) ||| uint32 (uint32 b5 <<< 20) ||| uint32 (uint32 b6 <<< 24)) >>> 16),
        byte (((1 <<< 28) ||| uint32 b0 ||| uint32 (uint32 b1 <<< 4) ||| uint32 (uint32 b2 <<< 8) ||| uint32 (uint32 b3 <<< 12) ||| uint32 (uint32 b4 <<< 16) ||| uint32 (uint32 b5 <<< 20) ||| uint32 (uint32 b6 <<< 24)) >>> 8),
        byte ((1 <<< 28) ||| uint32 b0 ||| uint32 (uint32 b1 <<< 4) ||| uint32 (uint32 b2 <<< 8) ||| uint32 (uint32 b3 <<< 12) ||| uint32 (uint32 b4 <<< 16) ||| uint32 (uint32 b5 <<< 20) ||| uint32 (uint32 b6 <<< 24))] := by
  unfold encodeBlock
  rw [hs]

theorem encodeBlock_3 (dst : List Nat) (b0 b1 b2 b3 b4 b5 b6 sum : Nat)
    (hs : LeadingZeros8 sum = 3) :
    encodeBlock dst b0 b1 b2 b3 b4 b5 b6 sum =
      dst ++ [byte (((1 <<< 35) ||| uint64 b0 ||| uint64 (uint64 b1 <<< 5) ||| uint64 (uint64 b2 <<< 10) ||| uint64 (uint64 b3 <<< 15) ||| uint64 (uint64 b4 <<< 20) ||| uint64 (uint64 b5 <<< 25) ||| uint64 (uint64 b6 <<< 30)) >>> 32),
        byte (((1 <<< 35) ||| uint64 b0 ||| uint64 (uint64 b1 <<< 5) ||| uint64 (uint64 b2 <<< 10) ||| uint64 (uint64 b3 <<< 15) ||| uint64 (uint64 b4 <<< 20) ||| uint64 (uint64 b5 <<< 25) ||| uint64 (uint64 b6 <<< 30)) >>> 24),
        byte (((1 <<< 35) ||| uint64 b0 ||| uint64 (uint64 b1 <<< 5) ||| uint64 (uint64 b2 <<< 10) ||| uint64 (uint64 b3 <<< 15) ||| uint64 (uint64 b4 <<< 20) ||| uint64 (uint64 b5 <<< 25) ||| uint64 (uint64 b6 <<< 30)) >>> 16),
        byte (((1 <<< 35) ||| uint64 b0 ||| uint64 (uint64 b1 <<< 5) ||| uint64 (uint64 b2 <<< 10) ||| uint64 (uint64 b3 <<< 15) ||| uint64 (uint64 b4 <<< 20) ||| uint64 (uint64 b5 <<< 25) ||| uint64 (uint64 b6 <<< 30)) >>> 8),
        byte ((1 <<< 35) ||| uint64 b0 ||| uint64 (uint64 b1 <<< 5) ||| uint64 (uint64 b2 <<< 10) ||| uint64 (uint64 b3 <<< 15) ||| uint64 (uint64 b4 <<< 20) ||| uint64 (uint64 b5 <<< 25) ||| uint64 (uint64 b6 <<< 30))] := by
  unfold encodeBlock
  rw [hs]

theorem encodeBlock_2 (dst : List Nat) (b0 b1 b2 b3 b4 b5 b6 sum : Nat)
    (hs : LeadingZeros8 sum = 2) :
    encodeBlock dst b0 b1 b2 b3 b4 b5 b6 sum =
      dst ++ [byte (((1 <<< 42) ||| uint64 b0 ||| uint64 (uint64 b1 <<< 6) ||| uint64 (uint64 b2 <<< 12) ||| uint64 (uint64 b3 <<< 18) ||| uint64 (uint64 b4 <<< 24) ||| uint64 (uint64 b5 <<< 30) ||| uint64 (uint64 b6 <<< 36)) >>> 40),
        byte (((1 <<< 42) ||| uint64 b0 ||| uint64 (uint64 b1 <<< 6) ||| uint64 (uint64 b2 <<< 12) ||| uint64 (uint64 b3 <<< 18) ||| uint64 (uint64 b4 <<< 24) ||| uint64 (uint64 b5 <<< 30) ||| uint64 (uint64 b6 <<< 36)) >>> 32),
        byte (((1 <<< 42) ||| uint64 b0 ||| uint64 (uint64 b1 <<< 6) ||| uint64 (uint64 b2 <<< 12) ||| uint64 (uint64 b3 <<< 18) ||| uint64 (uint64 b4 <<< 24) ||| uint64 (uint64 b5 <<< 30) ||| uint64 (uint64 b6 <<< 36)) >>> 24),
        byte (((1 <<< 42) ||| uint64 b0 ||| uint64 (uint64 b1 <<< 6) ||| uint64 (uint64 b2 <<< 12) ||| uint64 (uint64 b3 <<< 18) ||| uint64 (uint64 b4 <<< 24) ||| uint64 (uint64 b5 <<< 30) ||| uint64 (uint64 b6 <<< 36)) >>> 16),
        byte (((1 <<< 42) ||| uint64 b0 ||| uint64 (uint64 b1 <<< 6) ||| uint64 (uint64 b2 <<< 12) ||| uint64 (uint64 b3 <<< 18) ||| uint64 (uint64 b4 <<< 24) ||| uint64 (uint64 b5 <<< 30) ||| uint64 (uint64 b6 <<< 36)) >>> 8),
        byte ((1 <<< 42) ||| uint64 b0 ||| uint64 (uint64 b1 <<< 6) ||| uint64 (uint64 b2 <<< 12) ||| uint64 (uint64 b3 <<< 18) ||| uint64 (uint64 b4 <<< 24) ||| uint64 (uint64 b5 <<< 30) ||| uint64 (uint64 b6 <<< 36))] := by
  unfold encodeBlock
  rw [hs]

theorem encodeBlock_1 (dst : List Nat) (b0 b1 b2 b3 b4 b5 b6 sum : Nat)
    (hs : LeadingZeros8 sum = 1) :
    encodeBlock dst b0 b1 b2 b3 b4 b5 b6 sum =
      dst ++ [byte (((1 <<< 49) ||| uint64 b0 ||| uint64 (uint64 b1 <<< 7) ||| uint64 (uint64 b2 <<< 14) ||| uint64 (uint64 b3 <<< 21) ||| uint64 (uint64 b4 <<< 28) ||| uint64 (uint64 b5 <<< 35) ||| uint64 (uint64 b6 <<< 42)) >>> 48),
        byte (((1 <<< 49) ||| uint64 b0 ||| uint64 (uint64 b1 <<< 7) ||| uint64 (uint64 b2 <<< 14) ||| uint64 (uint64 b3 <<< 21) ||| uint64 (uint64 b4 <<< 28) ||| uint64 (uint64 b5 <<< 35) ||| uint64 (uint64 b6 <<< 42)) >>> 40),
        byte (((1 <<< 49) ||| uint64 b0 ||| uint64 (uint64 b1 <<< 7) ||| uint64 (uint64 b2 <<< 14) ||| uint64 (uint64 b3 <<< 21) ||| uint64 (uint64 b4 <<< 28) ||| uint64 (uint64 b5 <<< 35) ||| uint64 (uint64 b6 <<< 42)) >>> 32),
        byte (((1 <<< 49) ||| uint64 b0 ||| uint64 (uint64 b1 <<< 7) ||| uint64 (uint64 b2 <<< 14) ||| uint64 (uint64 b3 <<< 21) ||| uint64 (uint64 b4 <<< 28) ||| uint64 (uint64 b5 <<< 35) ||| uint64 (uint64 b6 <<< 42)) >>> 24),
        byte (((1 <<< 49) ||| uint64 b0 ||| uint64 (uint64 b1 <<< 7) ||| uint64 (uint64 b2 <<< 14) ||| uint64 (uint64 b3 <<< 21) ||| uint64 (uint64 b4 <<< 28) ||| uint64 (uint64 b5 <<< 35) ||| uint64 (uint64 b6 <<< 42)) >>> 16),
        byte (((1 <<< 49) ||| uint64 b0 ||| uint64 (uint64 b1 <<< 7) ||| uint64 (uint64 b2 <<< 14) ||| uint64 (uint64 b3 <<< 21) ||| uint64 (uint64 b4 <<< 28) ||| uint64 (uint64 b5 <<< 35) ||| uint64 (uint64 b6 <<< 42)) >>> 8),
        byte ((1 <<< 49) ||| uint64 b0 ||| uint64 (uint64 b1 <<< 7) ||| uint64 (uint64 b2 <<< 14) ||| uint64 (uint64 b3 <<< 21) ||| uint64 (uint64 b4 <<< 28) ||| uint64 (uint64 b5 <<< 35) ||| uint64 (uint64 b6 <<< 42))] := by
  unfold encodeBlock
  rw [hs]

theorem encodeBlock_0 (dst : List Nat) (b0 b1 b2 b3 b4 b5 b6 sum : Nat)
    (hs : LeadingZeros8 sum = 0) :
    encodeBlock dst b0 b1 b2 b3 b4 b5 b6 sum = (dst ++ [1]) ++ [b0, b1, b2, b3, b4, b5, b6] := by
  unfold encodeBlock
  rw [hs]

theorem decodeFrame_0 (dst : List Nat) (dn : Int) (src : List Nat)
    (h : LeadingZeros8 (at_ src 0) = 0) :
    decodeFrame dst dn src =
      if toInt (dn + 7) > dst.length then .halt .corrupt
      else writeBlock dst dn (unpack (at_ src 0) 1 1) src 1 := by
  unfold decodeFrame
  rw [h]

theorem decodeFrame_1 (dst : List Nat) (dn : Int) (src : List Nat)
    (h : LeadingZeros8 (at_ src 0) = 1) :
    decodeFrame dst dn src =
      if src.length < 2 ∨ toInt (dn + 7) > dst.length then .halt .corrupt
      else writeBlock dst dn (unpack (uint64 (at_ src 0 <<< 8) ||| at_ src 1) 2 3) src 2 := by
  unfold decodeFrame
  rw [h]

theorem decodeFrame_2 (dst : List Nat) (dn : Int) (src : List Nat)
    (h : LeadingZeros8 (at_ src 0) = 2) :
    decodeFrame dst dn src =
      if src.length < 3 ∨ toInt (dn + 7) > dst.length then .halt .corrupt
      else writeBlock dst dn (unpack (uint64 (at_ src 0 <<< 16) ||| uint64 (at_ src 1 <<< 8) ||| at_ src 2) 3 7) src 3 := by
  unfold decodeFrame
  rw [h]

theorem decodeFrame_3 (dst : List Nat) (dn : Int) (src : List Nat)
    (h : LeadingZeros8 (at_ src 0) = 3) :
    decodeFrame dst dn src =
      if src.length < 4 ∨ toInt (dn + 7) > dst.length then .halt .corrupt
      else writeBlock dst dn (unpack (uint64 (at_ src 0 <<< 24) ||| uint64 (at_ src 1 <<< 16) ||| uint64 (at_ src 2 <<< 8) ||| at_ src 3) 4 15) src 4 := by
  unfold decodeFrame
  rw [h]

theorem decodeFrame_4 (dst : List Nat) (dn : Int) (src : List Nat)
    (h : LeadingZeros8 (at_ src 0) = 4) :
    decodeFrame dst dn src =
      if src.length < 5 ∨ toInt (dn + 7) > dst.length then .halt .corrupt
      else writeBlock dst dn (unpack (uint64 (at_ src 0 <<< 32) ||| uint64 (at_ src 1 <<< 24) ||| uint64 (at_ src 2 <<< 16) ||| uint64 (at_ src 3 <<< 8) ||| at_ src 4) 5 31) src 5 := by
  unfold decodeFrame
  rw [h]

theorem decodeFrame_5 (dst : List Nat) (dn : Int) (src : List Nat)
    (h : LeadingZeros8 (at_ src 0) = 5) :
    decodeFrame dst dn src =
      if src.length < 6 ∨ toInt (dn + 7) > dst.length then .halt .corrupt
      else writeBlock dst dn (unpack (uint64 (at_ src 0 <<< 40) ||| uint64 (at_ src 1 <<< 32) ||| uint64 (at_ src 2 <<< 24) ||| uint64 (at_ src 3 <<< 16) ||| uint64 (at_ src 4 <<< 8) ||| at_ src 5) 6 63) src 6 := by
  unfold decodeFrame
  rw [h]

theorem decodeFrame_6 (dst : List Nat) (dn : Int) (src : List Nat)
    (h : LeadingZeros8 (at_ src 0) = 6) :
    decodeFrame dst dn src =
      if src.length < 7 ∨ toInt (dn + 7) > dst.length then .halt .corrupt
      else writeBlock dst dn (unpack (uint64 (at_ src 0 <<< 48) ||| uint64 (at_ src 1 <<< 40) ||| uint64 (at_ src 2 <<< 32) ||| uint64 (at_ src 3 <<< 24) ||| uint64 (at_ src 4 <<< 16) ||| uint64 (at_ src 5 <<< 8) ||| at_ src 6) 7 127) src 7 := by
  unfold decodeFrame
  rw [h]

theorem decodeFrame_7 (dst : List Nat) (dn : Int) (src : List Nat)
    (h : LeadingZeros8 (at_ src 0) = 7) :
    decodeFrame dst dn src =
      if 0 ≤ dn ∧ dn ≤ dst.length then
        .next (dst.take dn.toNat ++
            ((src.take (if src.length < 8 then src.length else 8)).drop 1).take
              (min (dst.length - dn.toNat)
                ((src.take (if src.length < 8 then src.length else 8)).drop 1).length) ++
            dst.drop (dn.toNat + min (dst.length - dn.toNat)
                ((src.take (if src.length < 8 then src.length else 8)).drop 1).length))
          (toInt (dn + (min (dst.length - dn.toNat)
                ((src.take (if src.length < 8 then src.length else 8)).drop 1).length : Nat)))
          (src.drop (if src.length < 8 then src.length else 8))
      else .halt .fault := by
  unfold decodeFrame
  rw [h]

theorem decodeFrame_8 (dst : List Nat) (dn : Int) (src : List Nat)
    (h : LeadingZeros8 (at_ src 0) = 8) :
    decodeFrame dst dn src =
      if (Uvarint (src.drop 1)).2 ≤ 0 then .halt .corrupt
      else if toInt (dn + toInt (7 + toInt (toInt (Uvarint (src.drop 1)).1 * 7))) > dst.length
        then .halt .corrupt
      else .next dst (toInt (dn + toInt (7 + toInt (toInt (Uvarint (src.drop 1)).1 * 7))))
        (src.drop (1 + (Uvarint (src.drop 1)).2.toNat)) := by
  unfold decodeFrame
  rw [h]

/-! ## A packed frame decodes to its block -/

theorem byte_lt (x : Nat) : byte x < 256 := Nat.mod_lt _ (by decide)

theorem land_mask1 (x : Nat) : x &&& 1 = x % 2 := Nat.and_pow_two_sub_one_eq_mod x 1

theorem land_mask2 (x : Nat) : x &&& 3 = x % 4 := Nat.and_pow_two_sub_one_eq_mod x 2

theorem land_mask3 (x : Nat) : x &&& 7 = x % 8 := Nat.and_pow_two_sub_one_eq_mod x 3

theorem land_mask4 (x : Nat) : x &&& 15 = x % 16 := Nat.and_pow_two_sub_one_eq_mod x 4

theorem land_mask5 (x : Nat) : x &&& 31 = x % 32 := Nat.and_pow_two_sub_one_eq_mod x 5

theorem land_mask6 (x : Nat) : x &&& 63 = x % 64 := Nat.and_pow_two_sub_one_eq_mod x 6

theorem land_mask7 (x : Nat) : x &&& 127 = x % 128 := Nat.and_pow_two_sub_one_eq_mod x 7

theorem join2 (f0 f1 : Nat) (h0 : f0 < 256) (h1 : f1 < 256) :
    uint64 (f0 <<< 8) ||| f1 = f0 * 256 + f1 := by
  have e0 : uint64 (f0 <<< 8) = f0 * 256 := by
    simp only [uint64, Nat.shiftLeft_eq]; omega
  rw [e0]
  rw [lor_add_of_dvd (f0 * 256) (f1) 8 (by omega) (by omega)]

theorem join3 (f0 f1 f2 : Nat) (h0 : f0 < 256) (h1 : f1 < 256) (h2 : f2 < 256) :
    uint64 (f0 <<< 16) ||| uint64 (f1 <<< 8) ||| f2 = f0 * 65536 + f1 * 256 + f2 := by
  have e0 : uint64 (f0 <<< 16) = f0 * 65536 := by
    simp only [uint64, Nat.shiftLeft_eq]; omega
  have e1 : uint64 (f1 <<< 8) = f1 * 256 := by
    simp only [uint64, Nat.shiftLeft_eq]; omega
  rw [e0, e1]
  rw [lor_add_of_dvd (f0 * 65536) (f1 * 256) 16 (by omega) (by omega),
    lor_add_of_dvd (f0 * 65536 + f1 * 256) (f2) 8 (by omega) (by omega)]

theorem join4 (f0 f1 f2 f3 : Nat) (h0 : f0 < 256) (h1 : f1 < 256) (h2 : f2 < 256) (h3 : f3 < 256) :
    uint64 (f0 <<< 24) ||| uint64 (f1 <<< 16) ||| uint64 (f2 <<< 8) ||| f3 = f0 * 16777216 + f1 * 65536 + f2 * 256 + f3 := by
  have e0 : uint64 (f0 <<< 24) = f0 * 16777216 := by
    simp only [uint64, Nat.shiftLeft_eq]; omega
  have e1 : uint64 (f1 <<< 16) = f1 * 65536 := by
    simp only [uint64, Nat.shiftLeft_eq]; omega
  have e2 : uint64 (f2 <<< 8) = f2 * 256 := by
    simp only [uint64, Nat.shiftLeft_eq]; omega
  rw [e0, e1, e2]
  rw [lor_add_of_dvd (f0 * 16777216) (f1 * 65536) 24 (by omega) (by omega),
    lor_add_of_dvd (f0 * 16777216 + f1 * 65536) (f2 * 256) 16 (by omega) (by omega),
    lor_add_of_dvd (f0 * 16777216 + f1 * 65536 + f2 * 256) (f3) 8 (by omega) (by omega)]

theorem join5 (f0 f1 f2 f3 f4 : Nat) (h0 : f0 < 256) (h1 : f1 < 256) (h2 : f2 < 256) (h3 : f3 < 256) (h4 : f4 < 256) :
    uint64 (f0 <<< 32) ||| uint64 (f1 <<< 24) ||| uint64 (f2 <<< 16) ||| uint64 (f3 <<< 8) ||| f4 = f0 * 4294967296 + f1 * 16777216 + f2 * 65536 + f3 * 256 + f4 := by
  have e0 : uint64 (f0 <<< 32) = f0 * 4294967296 := by
    simp only [uint64, Nat.shiftLeft_eq]; omega
  have e1 : uint64 (f1 <<< 24) = f1 * 16777216 := by
    simp only [uint64, Nat.shiftLeft_eq]; omega
  have e2 : uint64 (f2 <<< 16) = f2 * 65536 := by
    simp only [uint64, Nat.shiftLeft_eq]; omega
  have e3 : uint64 (f3 <<< 8) = f3 * 256 := by
    simp only [uint64, Nat.shiftLeft_eq]; omega
  rw [e0, e1, e2, e3]
  rw [lor_add_of_dvd (f0 * 4294967296) (f1 * 16777216) 32 (by omega) (by omega),
    lor_add_of_dvd (f0 * 4294967296 + f1 * 16777216) (f2 * 65536) 24 (by omega) (by omega),
    lor_add_of_dvd (f0 * 4294967296 + f1 * 16777216 + f2 * 65536) (f3 * 256) 16 (by omega) (by omega),
    lor_add_of_dvd (f0 * 4294967296 + f1 * 16777216 + f2 * 65536 + f3 * 256) (f4) 8 (by omega) (by omega)]

theorem join6 (f0 f1 f2 f3 f4 f5 : Nat) (h0 : f0 < 256) (h1 : f1 < 256) (h2 : f2 < 256) (h3 : f3 < 256) (h4 : f4 < 256) (h5 : f5 < 256) :
    uint64 (f0 <<< 40) ||| uint64 (f1 <<< 32) ||| uint64 (f2 <<< 24) ||| uint64 (f3 <<< 16) ||| uint64 (f4 <<< 8) ||| f5 = f0 * 1099511627776 + f1 * 4294967296 + f2 * 16777216 + f3 * 65536 + f4 * 256 + f5 := by
  have e0 : uint64 (f0 <<< 40) = f0 * 1099511627776 := by
    simp only [uint64, Nat.shiftLeft_eq]; omega
  have e1 : uint64 (f1 <<< 32) = f1 * 4294967296 := by
    simp only [uint64, Nat.shiftLeft_eq]; omega
  have e2 : uint64 (f2 <<< 24) = f2 * 16777216 := by
    simp only [uint64, Nat.shiftLeft_eq]; omega
  have e3 : uint64 (f3 <<< 16) = f3 * 65536 := by
    simp only [uint64, Nat.shiftLeft_eq]; omega
  have e4 : uint64 (f4 <<< 8) = f4 * 256 := by
    simp only [uint64, Nat.shiftLeft_eq]; omega
  rw [e0, e1, e2, e3, e4]
  rw [lor_add_of_dvd (f0 * 1099511627776) (f1 * 4294967296) 40 (by omega) (by omega),
    lor_add_of_dvd (f0 * 1099511627776 + f1 * 4294967296) (f2 * 16777216) 32 (by omega) (by omega),
    lor_add_of_dvd (f0 * 1099511627776 + f1 * 4294967296 + f2 * 16777216) (f3 * 65536) 24 (by omega) (by omega),
    lor_add_of_dvd (f0 * 1099511627776 + f1 * 4294967296 + f2 * 16777216 + f3 * 65536) (f4 * 256) 16 (by omega) (by omega),
    lor_add_of_dvd (f0 * 1099511627776 + f1 * 4294967296 + f2 * 16777216 + f3 * 65536 + f4 * 256) (f5) 8 (by omega) (by omega)]

theorem join7 (f0 f1 f2 f3 f4 f5 f6 : Nat) (h0 : f0 < 256) (h1 : f1 < 256) (h2 : f2 < 256) (h3 : f3 < 256) (h4 : f4 < 256) (h5 : f5 < 256) (h6 : f6 < 256) :
    uint64 (f0 <<< 48) ||| uint64 (f1 <<< 40) ||| uint64 (f2 <<< 32) ||| uint64 (f3 <<< 24) ||| uint64 (f4 <<< 16) ||| uint64 (f5 <<< 8) ||| f6 = f0 * 281474976710656 + f1 * 1099511627776 + f2 * 4294967296 + f3 * 16777216 + f4 * 65536 + f5 * 256 + f6 := by
  have e0 : uint64 (f0 <<< 48) = f0 * 281474976710656 := by
    simp only [uint64, Nat.shiftLeft_eq]; omega
  have e1 : uint64 (f1 <<< 40) = f1 * 1099511627776 := by
    simp only [uint64, Nat.shiftLeft_eq]; omega
  have e2 : uint64 (f2 <<< 32) = f2 * 4294967296 := by
    simp only [uint64, Nat.shiftLeft_eq]; omega
  have e3 : uint64 (f3 <<< 24) = f3 * 16777216 := by
    simp only [uint64, Nat.shiftLeft_eq]; omega
  have e4 : uint64 (f4 <<< 16) = f4 * 65536 := by
    simp only [uint64, Nat.shiftLeft_eq]; omega
  have e5 : uint64 (f5 <<< 8) = f5 * 256 := by
    simp only [uint64, Nat.shiftLeft_eq]; omega
  rw [e0, e1, e2, e3, e4, e5]
  rw [lor_add_of_dvd (f0 * 281474976710656) (f1 * 1099511627776) 48 (by omega) (by omega),
    lor_add_of_dvd (f0 * 281474976710656 + f1 * 1099511627776) (f2 * 4294967296) 40 (by omega) (by omega),
    lor_add_of_dvd (f0 * 281474976710656 + f1 * 1099511627776 + f2 * 4294967296) (f3 * 16777216) 32 (by omega) (by omega),
    lor_add_of_dvd (f0 * 281474976710656 + f1 * 1099511627776 + f2 * 4294967296 + f3 * 16777216) (f4 * 65536) 24 (by omega) (by omega),
    lor_add_of_dvd (f0 * 281474976710656 + f1 * 1099511627776 + f2 * 4294967296 + f3 * 16777216 + f4 * 65536) (f5 * 256) 16 (by omega) (by omega),
    lor_add_of_dvd (f0 * 281474976710656 + f1 * 1099511627776 + f2 * 4294967296 + f3 * 16777216 + f4 * 65536 + f5 * 256) (f6) 8 (by omega) (by omega)]

set_option maxHeartbeats 1000000 in
theorem frame_w1 (b0 b1 b2 b3 b4 b5 b6 sum : Nat)
    (h0 : b0 < 2) (h1 : b1 < 2) (h2 : b2 < 2) (h3 : b3 < 2)
    (h4 : b4 < 2) (h5 : b5 < 2) (h6 : b6 < 2) (hs : LeadingZeros8 sum = 7)
    (buf : List Nat) (dn : Nat) (tl : List Nat) (hdn : dn + 7 ≤ buf.length)
    (hlen : buf.length < 2 ^ 63) :
    decodeFrame buf dn (encodeBlock [] b0 b1 b2 b3 b4 b5 b6 sum ++ tl)
      = blockStep buf dn [b0, b1, b2, b3, b4, b5, b6] tl := by
  have hv := pack_eq 1 b0 b1 b2 b3 b4 b5 b6 h0 h1 h2 h3 h4 h5 h6
  have hV : packValue 1 b0 b1 b2 b3 b4 b5 b6 =
      b0 + b1 * 2 + b2 * 4 + b3 * 8 + b4 * 16 + b5 * 32 + b6 * 64 + 128 := by
    simp [packValue]
  rw [encodeBlock_7 _ _ _ _ _ _ _ _ _ hs]
  rw [show byte (b1 <<< 1) = b1 <<< 1 from trunc_shl0 8 1 b1 1 h1 (by decide),
    show byte (b2 <<< 2) = b2 <<< 2 from trunc_shl0 8 1 b2 2 h2 (by decide),
    show byte (b3 <<< 3) = b3 <<< 3 from trunc_shl0 8 1 b3 3 h3 (by decide),
    show byte (b4 <<< 4) = b4 <<< 4 from trunc_shl0 8 1 b4 4 h4 (by decide),
    show byte (b5 <<< 5) = b5 <<< 5 from trunc_shl0 8 1 b5 5 h5 (by decide),
    show byte (b6 <<< 6) = b6 <<< 6 from trunc_shl0 8 1 b6 6 h6 (by decide)]
  rw [hv, hV]
  obtain ⟨V, hX⟩ : ∃ V, b0 + b1 * 2 + b2 * 4 + b3 * 8 + b4 * 16 + b5 * 32 + b6 * 64 + 128 = V := ⟨_, rfl⟩
  rw [hX]
  have hb : byte V = V := Nat.mod_eq_of_lt (by omega)
  rw [hb]
  have hlz1 : LeadingZeros8 V = 0 := by
    simp only [LeadingZeros8]
    split_ifs <;> omega
  simp only [List.nil_append, List.cons_append]
  have hat : at_ (V :: tl) 0 = V := by simp only [at_, List.getD_cons_zero]
  have hu : unpack V 1 1 = [b0, b1, b2, b3, b4, b5, b6] := by
    simp only [unpack, byte, land_mask1, Nat.shiftRight_eq_div_pow, Nat.reduceMul,
      Nat.reducePow, List.cons.injEq, and_true]
    subst hX
    refine ⟨?_, ?_, ?_, ?_, ?_, ?_, ?_⟩ <;> omega
  rw [decodeFrame_0 _ _ _ (by rw [hat]; exact hlz1), if_neg, writeBlock_ok _ _ _ _ _ hdn hlen, hat, hu]
  · simp only [List.drop_succ_cons, List.drop_zero]
  · rw [toInt_of_lt _ (by omega) (by omega)]; omega

set_option maxHeartbeats 1000000 in
theorem frame_w2 (b0 b1 b2 b3 b4 b5 b6 sum : Nat)
    (h0 : b0 < 4) (h1 : b1 < 4) (h2 : b2 < 4) (h3 : b3 < 4)
    (h4 : b4 < 4) (h5 : b5 < 4) (h6 : b6 < 4) (hs : LeadingZeros8 sum = 6)
    (buf : List Nat) (dn : Nat) (tl : List Nat) (hdn : dn + 7 ≤ buf.length)
    (hlen : buf.length < 2 ^ 63) :
    decodeFrame buf dn (encodeBlock [] b0 b1 b2 b3 b4 b5 b6 sum ++ tl)
      = blockStep buf dn [b0, b1, b2, b3, b4, b5, b6] tl := by
  have hv := pack_eq 2 b0 b1 b2 b3 b4 b5 b6 h0 h1 h2 h3 h4 h5 h6
  have hV : packValue 2 b0 b1 b2 b3 b4 b5 b6 =
      b0 + b1 * 4 + b2 * 16 + b3 * 64 + b4 * 256 + b5 * 1024 + b6 * 4096 + 16384 := by
    simp [packValue]
  rw [encodeBlock_6 _ _ _ _ _ _ _ _ _ hs]
  rw [show uint16 b0 = b0 from Nat.mod_eq_of_lt (by omega),
    show uint16 (uint16 b1 <<< 2) = b1 <<< 2 from trunc_shl 16 2 b1 2 h1 (by decide),
    show uint16 (uint16 b2 <<< 4) = b2 <<< 4 from trunc_shl 16 2 b2 4 h2 (by decide),
    show uint16 (uint16 b3 <<< 6) = b3 <<< 6 from trunc_shl 16 2 b3 6 h3 (by decide),
    show uint16 (uint16 b4 <<< 8) = b4 <<< 8 from trunc_shl 16 2 b4 8 h4 (by decide),
    show uint16 (uint16 b5 <<< 10) = b5 <<< 10 from trunc_shl 16 2 b5 10 h5 (by decide),
    show uint16 (uint16 b6 <<< 12) = b6 <<< 12 from trunc_shl 16 2 b6 12 h6 (by decide)]
  rw [hv, hV]
  obtain ⟨V, hX⟩ : ∃ V, b0 + b1 * 4 + b2 * 16 + b3 * 64 + b4 * 256 + b5 * 1024 + b6 * 4096 + 16384 = V := ⟨_, rfl⟩
  rw [hX]
  have hlz : LeadingZeros8 (byte (V >>> 8)) = 1 := by
    simp only [LeadingZeros8, byte, Nat.shiftRight_eq_div_pow, Nat.reducePow]
    split_ifs <;> omega
  have hj : uint64 ((byte (V >>> 8)) <<< 8) ||| (byte V) = V := by
    rw [join2 _  _ (byte_lt _) (byte_lt _)]
    simp only [byte, Nat.shiftRight_eq_div_pow, Nat.reducePow]
    omega
  have hu : unpack V 2 3 = [b0, b1, b2, b3, b4, b5, b6] := by
    simp only [unpack, byte, land_mask2, Nat.shiftRight_eq_div_pow, Nat.reduceMul,
      Nat.reducePow, List.cons.injEq, and_true]
    subst hX
    refine ⟨?_, ?_, ?_, ?_, ?_, ?_, ?_⟩ <;> omega
  simp only [List.nil_append, List.cons_append]
  have hh : LeadingZeros8 (at_ (byte (V >>> 8) :: byte V :: tl) 0) = 1 := by
    simp only [at_, List.getD_cons_zero]; exact hlz
  rw [decodeFrame_1 _ _ _ hh, if_neg, writeBlock_ok _ _ _ _ _ hdn hlen]
  · simp only [at_, List.getD_cons_zero, List.getD_cons_succ, List.drop_succ_cons, List.drop_zero]
    rw [hj, hu]
  · rw [toInt_of_lt _ (by omega) (by omega)]
    simp only [List.length_cons]
    omega

set_option maxHeartbeats 1000000 in
theorem frame_w3 (b0 b1 b2 b3 b4 b5 b6 sum : Nat)
    (h0 : b0 < 8) (h1 : b1 < 8) (h2 : b2 < 8) (h3 : b3 < 8)
    (h4 : b4 < 8) (h5 : b5 < 8) (h6 : b6 < 8) (hs : LeadingZeros8 sum = 5)
    (buf : List Nat) (dn : Nat) (tl : List Nat) (hdn : dn + 7 ≤ buf.length)
    (hlen : buf.length < 2 ^ 63) :
    decodeFrame buf dn (encodeBlock [] b0 b1 b2 b3 b4 b5 b6 sum ++ tl)
      = blockStep buf dn [b0, b1, b2, b3, b4, b5, b6] tl := by
  have hv := pack_eq 3 b0 b1 b2 b3 b4 b5 b6 h0 h1 h2 h3 h4 h5 h6
  have hV : packValue 3 b0 b1 b2 b3 b4 b5 b6 =
      b0 + b1 * 8 + b2 * 64 + b3 * 512 + b4 * 4096 + b5 * 32768 + b6 * 262144 + 2097152 := by
    simp [packValue]
  rw [encodeBlock_5 _ _ _ _ _ _ _ _ _ hs]
  rw [show uint32 b0 = b0 from Nat.mod_eq_of_lt (by omega),
    show uint32 (uint32 b1 <<< 3) = b1 <<< 3 from trunc_shl 32 3 b1 3 h1 (by decide),
    show uint32 (uint32 b2 <<< 6) = b2 <<< 6 from trunc_shl 32 3 b2 6 h2 (by decide),
    show uint32 (uint32 b3 <<< 9) = b3 <<< 9 from trunc_shl 32 3 b3 9 h3 (by decide),
    show uint32 (uint32 b4 <<< 12) = b4 <<< 12 from trunc_shl 32 3 b4 12 h4 (by decide),
    show uint32 (uint32 b5 <<< 15) = b5 <<< 15 from trunc_shl 32 3 b5 15 h5 (by decide),
    show uint32 (uint32 b6 <<< 18) = b6 <<< 18 from trunc_shl 32 3 b6 18 h6 (by decide)]
  rw [hv, hV]
  obtain ⟨V, hX⟩ : ∃ V, b0 + b1 * 8 + b2 * 64 + b3 * 512 + b4 * 4096 + b5 * 32768 + b6 * 262144 + 2097152 = V := ⟨_, rfl⟩
  rw [hX]
  have hlz : LeadingZeros8 (byte (V >>> 16)) = 2 := by
    simp only [LeadingZeros8, byte, Nat.shiftRight_eq_div_pow, Nat.reducePow]
    split_ifs <;> omega
  have hj : uint64 ((byte (V >>> 16)) <<< 16) ||| uint64 ((byte (V >>> 8)) <<< 8) ||| (byte V) = V := by
    rw [join3 _  _ _ (byte_lt _) (byte_lt _) (byte_lt _)]
    simp only [byte, Nat.shiftRight_eq_div_pow, Nat.reducePow]
    omega
  have hu : unpack V 3 7 = [b0, b1, b2, b3, b4, b5, b6] := by
    simp only [unpack, byte, land_mask3, Nat.shiftRight_eq_div_pow, Nat.reduceMul,
      Nat.reducePow, List.cons.injEq, and_true]
    subst hX
    refine ⟨?_, ?_, ?_, ?_, ?_, ?_, ?_⟩ <;> omega
  simp only [List.nil_append, List.cons_append]
  have hh : LeadingZeros8 (at_ (byte (V >>> 16) :: byte (V >>> 8) :: byte V :: tl) 0) = 2 := by
    simp only [at_, List.getD_cons_zero]; exact hlz
  rw [decodeFrame_2 _ _ _ hh, if_neg, writeBlock_ok _ _ _ _ _ hdn hlen]
  · simp only [at_, List.getD_cons_zero, List.getD_cons_succ, List.drop_succ_cons, List.drop_zero]
    rw [hj, hu]
  · rw [toInt_of_lt _ (by omega) (by omega)]
    simp only [List.length_cons]
    omega

set_option maxHeartbeats 1000000 in
theorem frame_w4 (b0 b1 b2 b3 b4 b5 b6 sum : Nat)
    (h0 : b0 < 16) (h1 : b1 < 16) (h2 : b2 < 16) (h3 : b3 < 16)
    (h4 : b4 < 16) (h5 : b5 < 16) (h6 : b6 < 16) (hs : LeadingZeros8 sum = 4)
    (buf : List Nat) (dn : Nat) (tl : List Nat) (hdn : dn + 7 ≤ buf.length)
    (hlen : buf.length < 2 ^ 63) :
    decodeFrame buf dn (encodeBlock [] b0 b1 b2 b3 b4 b5 b6 sum ++ tl)
      = blockStep buf dn [b0, b1, b2, b3, b4, b5, b6] tl := by
  have hv := pack_eq 4 b0 b1 b2 b3 b4 b5 b6 h0 h1 h2 h3 h4 h5 h6
  have hV : packValue 4 b0 b1 b2 b3 b4 b5 b6 =
      b0 + b1 * 16 + b2 * 256 + b3 * 4096 + b4 * 65536 + b5 * 1048576 + b6 * 16777216 + 268435456 := by
    simp [packValue]
  rw [encodeBlock_4 _ _ _ _ _ _ _ _ _ hs]
  rw [show uint32 b0 = b0 from Nat.mod_eq_of_lt (by omega),
    show uint32 (uint32 b1 <<< 4) = b1 <<< 4 from trunc_shl 32 4 b1 4 h1 (by decide),
    show uint32 (uint32 b2 <<< 8) = b2 <<< 8 from trunc_shl 32 4 b2 8 h2 (by decide),
    show uint32 (uint32 b3 <<< 12) = b3 <<< 12 from trunc_shl 32 4 b3 12 h3 (by decide),
    show uint32 (uint32 b4 <<< 16) = b4 <<< 16 from trunc_shl 32 4 b4 16 h4 (by decide),
    show uint32 (uint32 b5 <<< 20) = b5 <<< 20 from trunc_shl 32 4 b5 20 h5 (by decide),
    show uint32 (uint32 b6 <<< 24) = b6 <<< 24 from trunc_shl 32 4 b6 24 h6 (by decide)]
  rw [hv, hV]
  obtain ⟨V, hX⟩ : ∃ V, b0 + b1 * 16 + b2 * 256 + b3 * 4096 + b4 * 65536 + b5 * 1048576 + b6 * 16777216 + 268435456 = V := ⟨_, rfl⟩
  rw [hX]
  have hlz : LeadingZeros8 (byte (V >>> 24)) = 3 := by
    simp only [LeadingZeros8, byte, Nat.shiftRight_eq_div_pow, Nat.reducePow]
    split_ifs <;> omega
  have hj : uint64 ((byte (V >>> 24)) <<< 24) ||| uint64 ((byte (V >>> 16)) <<< 16) ||| uint64 ((byte (V >>> 8)) <<< 8) ||| (byte V) = V := by
    rw [join4 _  _ _ _ (byte_lt _) (byte_lt _) (byte_lt _) (byte_lt _)]
    simp only [byte, Nat.shiftRight_eq_div_pow, Nat.reducePow]
    omega
  have hu : unpack V 4 15 = [b0, b1, b2, b3, b4, b5, b6] := by
    simp only [unpack, byte, land_mask4, Nat.shiftRight_eq_div_pow, Nat.reduceMul,
      Nat.reducePow, List.cons.injEq, and_true]
    subst hX
    refine ⟨?_, ?_, ?_, ?_, ?_, ?_, ?_⟩ <;> omega
  simp only [List.nil_append, List.cons_append]
  have hh : LeadingZeros8 (at_ (byte (V >>> 24) :: byte (V >>> 16) :: byte (V >>> 8) :: byte V :: tl) 0) = 3 := by
    simp only [at_, List.getD_cons_zero]; exact hlz
  rw [decodeFrame_3 _ _ _ hh, if_neg, writeBlock_ok _ _ _ _ _ hdn hlen]
  · simp only [at_, List.getD_cons_zero, List.getD_cons_succ, List.drop_succ_cons, List.drop_zero]
    rw [hj, hu]
  · rw [toInt_of_lt _ (by omega) (by omega)]
    simp only [List.length_cons]
    omega

set_option maxHeartbeats 1000000 in
theorem frame_w5 (b0 b1 b2 b3 b4 b5 b6 sum : Nat)
    (h0 : b0 < 32) (h1 : b1 < 32) (h2 : b2 < 32) (h3 : b3 < 32)
    (h4 : b4 < 32) (h5 : b5 < 32) (h6 : b6 < 32) (hs : LeadingZeros8 sum = 3)
    (buf : List Nat) (dn : Nat) (tl : List Nat) (hdn : dn + 7 ≤ buf.length)
    (hlen : buf.length < 2 ^ 63) :
    decodeFrame buf dn (encodeBlock [] b0 b1 b2 b3 b4 b5 b6 sum ++ tl)
      = blockStep buf dn [b0, b1, b2, b3, b4, b5, b6] tl := by
  have hv := pack_eq 5 b0 b1 b2 b3 b4 b5 b6 h0 h1 h2 h3 h4 h5 h6
  have hV : packValue 5 b0 b1 b2 b3 b4 b5 b6 =
      b0 + b1 * 32 + b2 * 1024 + b3 * 32768 + b4 * 1048576 + b5 * 33554432 + b6 * 1073741824 + 34359738368 := by
    simp [packValue]
  rw [encodeBlock_3 _ _ _ _ _ _ _ _ _ hs]
  rw [show uint64 b0 = b0 from Nat.mod_eq_of_lt (by omega),
    show uint64 (uint64 b1 <<< 5) = b1 <<< 5 from trunc_shl 64 5 b1 5 h1 (by decide),
    show uint64 (uint64 b2 <<< 10) = b2 <<< 10 from trunc_shl 64 5 b2 10 h2 (by decide),
    show uint64 (uint64 b3 <<< 15) = b3 <<< 15 from trunc_shl 64 5 b3 15 h3 (by decide),
    show uint64 (uint64 b4 <<< 20) = b4 <<< 20 from trunc_shl 64 5 b4 20 h4 (by decide),
    show uint64 (uint64 b5 <<< 25) = b5 <<< 25 from trunc_shl 64 5 b5 25 h5 (by decide),
    show uint64 (uint64 b6 <<< 30) = b6 <<< 30 from trunc_shl 64 5 b6 30 h6 (by decide)]
  rw [hv, hV]
  obtain ⟨V, hX⟩ : ∃ V, b0 + b1 * 32 + b2 * 1024 + b3 * 32768 + b4 * 1048576 + b5 * 33554432 + b6 * 1073741824 + 34359738368 = V := ⟨_, rfl⟩
  rw [hX]
  have hlz : LeadingZeros8 (byte (V >>> 32)) = 4 := by
    simp only [LeadingZeros8, byte, Nat.shiftRight_eq_div_pow, Nat.reducePow]
    split_ifs <;> omega
  have hj : uint64 ((byte (V >>> 32)) <<< 32) ||| uint64 ((byte (V >>> 24)) <<< 24) ||| uint64 ((byte (V >>> 16)) <<< 16) ||| uint64 ((byte (V >>> 8)) <<< 8) ||| (byte V) = V := by
    rw [join5 _  _ _ _ _ (byte_lt _) (byte_lt _) (byte_lt _) (byte_lt _) (byte_lt _)]
    simp only [byte, Nat.shiftRight_eq_div_pow, Nat.reducePow]
    omega
  have hu : unpack V 5 31 = [b0, b1, b2, b3, b4, b5, b6] := by
    simp only [unpack, byte, land_mask5, Nat.shiftRight_eq_div_pow, Nat.reduceMul,
      Nat.reducePow, List.cons.injEq, and_true]
    subst hX
    refine ⟨?_, ?_, ?_, ?_, ?_, ?_, ?_⟩ <;> omega
  simp only [List.nil_append, List.cons_append]
  have hh : LeadingZeros8 (at_ (byte (V >>> 32) :: byte (V >>> 24) :: byte (V >>> 16) :: byte (V >>> 8) :: byte V :: tl) 0) = 4 := by
    simp only [at_, List.getD_cons_zero]; exact hlz
  rw [decodeFrame_4 _ _ _ hh, if_neg, writeBlock_ok _ _ _ _ _ hdn hlen]
  · simp only [at_, List.getD_cons_zero, List.getD_cons_succ, List.drop_succ_cons, List.drop_zero]
    rw [hj, hu]
  · rw [toInt_of_lt _ (by omega) (by omega)]
    simp only [List.length_cons]
    omega

set_option maxHeartbeats 1000000 in
theorem frame_w6 (b0 b1 b2 b3 b4 b5 b6 sum : Nat)
    (h0 : b0 < 64) (h1 : b1 < 64) (h2 : b2 < 64) (h3 : b3 < 64)
    (h4 : b4 < 64) (h5 : b5 < 64) (h6 : b6 < 64) (hs : LeadingZeros8 sum = 2)
    (buf : List Nat) (dn : Nat) (tl : List Nat) (hdn : dn + 7 ≤ buf.length)
    (hlen : buf.length < 2 ^ 63) :
    decodeFrame buf dn (encodeBlock [] b0 b1 b2 b3 b4 b5 b6 sum ++ tl)
      = blockStep buf dn [b0, b1, b2, b3, b4, b5, b6] tl := by
  have hv := pack_eq 6 b0 b1 b2 b3 b4 b5 b6 h0 h1 h2 h3 h4 h5 h6
  have hV : packValue 6 b0 b1 b2 b3 b4 b5 b6 =
      b0 + b1 * 64 + b2 * 4096 + b3 * 262144 + b4 * 16777216 + b5 * 1073741824 + b6 * 68719476736 + 4398046511104 := by
    simp [packValue]
  rw [encodeBlock_2 _ _ _ _ _ _ _ _ _ hs]
  rw [show uint64 b0 = b0 from Nat.mod_eq_of_lt (by omega),
    show uint64 (uint64 b1 <<< 6) = b1 <<< 6 from trunc_shl 64 6 b1 6 h1 (by decide),
    show uint64 (uint64 b2 <<< 12) = b2 <<< 12 from trunc_shl 64 6 b2 12 h2 (by decide),
    show uint64 (uint64 b3 <<< 18) = b3 <<< 18 from trunc_shl 64 6 b3 18 h3 (by decide),
    show uint64 (uint64 b4 <<< 24) = b4 <<< 24 from trunc_shl 64 6 b4 24 h4 (by decide),
    show uint64 (uint64 b5 <<< 30) = b5 <<< 30 from trunc_shl 64 6 b5 30 h5 (by decide),
    show uint64 (uint64 b6 <<< 36) = b6 <<< 36 from trunc_shl 64 6 b6 36 h6 (by decide)]
  rw [hv, hV]
  obtain ⟨V, hX⟩ : ∃ V, b0 + b1 * 64 + b2 * 4096 + b3 * 262144 + b4 * 16777216 + b5 * 1073741824 + b6 * 68719476736 + 4398046511104 = V := ⟨_, rfl⟩
  rw [hX]
  have hlz : LeadingZeros8 (byte (V >>> 40)) = 5 := by
    simp only [LeadingZeros8, byte, Nat.shiftRight_eq_div_pow, Nat.reducePow]
    split_ifs <;> omega
  have hj : uint64 ((byte (V >>> 40)) <<< 40) ||| uint64 ((byte (V >>> 32)) <<< 32) ||| uint64 ((byte (V >>> 24)) <<< 24) ||| uint64 ((byte (V >>> 16)) <<< 16) ||| uint64 ((byte (V >>> 8)) <<< 8) ||| (byte V) = V := by
    rw [join6 _  _ _ _ _ _ (byte_lt _) (byte_lt _) (byte_lt _) (byte_lt _) (byte_lt _) (byte_lt _)]
    simp only [byte, Nat.shiftRight_eq_div_pow, Nat.reducePow]
    omega
  have hu : unpack V 6 63 = [b0, b1, b2, b3, b4, b5, b6] := by
    simp only [unpack, byte, land_mask6, Nat.shiftRight_eq_div_pow, Nat.reduceMul,
      Nat.reducePow, List.cons.injEq, and_true]
    subst hX
    refine ⟨?_, ?_, ?_, ?_, ?_, ?_, ?_⟩ <;> omega
  simp only [List.nil_append, List.cons_append]
  have hh : LeadingZeros8 (at_ (byte (V >>> 40) :: byte (V >>> 32) :: byte (V >>> 24) :: byte (V >>> 16) :: byte (V >>> 8) :: byte V :: tl) 0) = 5 := by
    simp only [at_, List.getD_cons_zero]; exact hlz
  rw [decodeFrame_5 _ _ _ hh, if_neg, writeBlock_ok _ _ _ _ _ hdn hlen]
  · simp only [at_, List.getD_cons_zero, List.getD_cons_succ, List.drop_succ_cons, List.drop_zero]
    rw [hj, hu]
  · rw [toInt_of_lt _ (by omega) (by omega)]
    simp only [List.length_cons]
    omega

set_option maxHeartbeats 1000000 in
theorem frame_w7 (b0 b1 b2 b3 b4 b5 b6 sum : Nat)
    (h0 : b0 < 128) (h1 : b1 < 128) (h2 : b2 < 128) (h3 : b3 < 128)
    (h4 : b4 < 128) (h5 : b5 < 128) (h6 : b6 < 128) (hs : LeadingZeros8 sum = 1)
    (buf : List Nat) (dn : Nat) (tl : List Nat) (hdn : dn + 7 ≤ buf.length)
    (hlen : buf.length < 2 ^ 63) :
    decodeFrame buf dn (encodeBlock [] b0 b1 b2 b3 b4 b5 b6 sum ++ tl)
      = blockStep buf dn [b0, b1, b2, b3, b4, b5, b6] tl := by
  have hv := pack_eq 7 b0 b1 b2 b3 b4 b5 b6 h0 h1 h2 h3 h4 h5 h6
  have hV : packValue 7 b0 b1 b2 b3 b4 b5 b6 =
      b0 + b1 * 128 + b2 * 16384 + b3 * 2097152 + b4 * 268435456 + b5 * 34359738368 + b6 * 4398046511104 + 562949953421312 := by
    simp [packValue]
  rw [encodeBlock_1 _ _ _ _ _ _ _ _ _ hs]
  rw [show uint64 b0 = b0 from Nat.mod_eq_of_lt (by omega),
    show uint64 (uint64 b1 <<< 7) = b1 <<< 7 from trunc_shl 64 7 b1 7 h1 (by decide),
    show uint64 (uint64 b2 <<< 14) = b2 <<< 14 from trunc_shl 64 7 b2 14 h2 (by decide),
    show uint64 (uint64 b3 <<< 21) = b3 <<< 21 from trunc_shl 64 7 b3 21 h3 (by decide),
    show uint64 (uint64 b4 <<< 28) = b4 <<< 28 from trunc_shl 64 7 b4 28 h4 (by decide),
    show uint64 (uint64 b5 <<< 35) = b5 <<< 35 from trunc_shl 64 7 b5 35 h5 (by decide),
    show uint64 (uint64 b6 <<< 42) = b6 <<< 42 from trunc_shl 64 7 b6 42 h6 (by decide)]
  rw [hv, hV]
  obtain ⟨V, hX⟩ : ∃ V, b0 + b1 * 128 + b2 * 16384 + b3 * 2097152 + b4 * 268435456 + b5 * 34359738368 + b6 * 4398046511104 + 562949953421312 = V := ⟨_, rfl⟩
  rw [hX]
  have hlz : LeadingZeros8 (byte (V >>> 48)) = 6 := by
    simp only [LeadingZeros8, byte, Nat.shiftRight_eq_div_pow, Nat.reducePow]
    split_ifs <;> omega
  have hj : uint64 ((byte (V >>> 48)) <<< 48) ||| uint64 ((byte (V >>> 40)) <<< 40) ||| uint64 ((byte (V >>> 32)) <<< 32) ||| uint64 ((byte (V >>> 24)) <<< 24) ||| uint64 ((byte (V >>> 16)) <<< 16) ||| uint64 ((byte (V >>> 8)) <<< 8) ||| (byte V) = V := by
    rw [join7 _  _ _ _ _ _ _ (byte_lt _) (byte_lt _) (byte_lt _) (byte_lt _) (byte_lt _) (byte_lt _) (byte_lt _)]
    simp only [byte, Nat.shiftRight_eq_div_pow, Nat.reducePow]
    omega
  have hu : unpack V 7 127 = [b0, b1, b2, b3, b4, b5, b6] := by
    simp only [unpack, byte, land_mask7, Nat.shiftRight_eq_div_pow, Nat.reduceMul,
      Nat.reducePow, List.cons.injEq, and_true]
    subst hX
    refine ⟨?_, ?_, ?_, ?_, ?_, ?_, ?_⟩ <;> omega
  simp only [List.nil_append, List.cons_append]
  have hh : LeadingZeros8 (at_ (byte (V >>> 48) :: byte (V >>> 40) :: byte (V >>> 32) :: byte (V >>> 24) :: byte (V >>> 16) :: byte (V >>> 8) :: byte V :: tl) 0) = 6 := by
    simp only [at_, List.getD_cons_zero]; exact hlz
  rw [decodeFrame_6 _ _ _ hh, if_neg, writeBlock_ok _ _ _ _ _ hdn hlen]
  · simp only [at_, List.getD_cons_zero, List.getD_cons_succ, List.drop_succ_cons, List.drop_zero]
    rw [hj, hu]
  · rw [toInt_of_lt _ (by omega) (by omega)]
    simp only [List.length_cons]
    omega

/-! ## The decoding loop -/

theorem lz_cases (x : Nat) :
    LeadingZeros8 x = 0 ∨ LeadingZeros8 x = 1 ∨ LeadingZeros8 x = 2 ∨ LeadingZeros8 x = 3 ∨
    LeadingZeros8 x = 4 ∨ LeadingZeros8 x = 5 ∨ LeadingZeros8 x = 6 ∨ LeadingZeros8 x = 7 ∨
    LeadingZeros8 x = 8 := by
  unfold LeadingZeros8
  split_ifs <;> simp

theorem writeBlock_cases (dst : List Nat) (dn : Int) (d src : List Nat) (k : Nat) :
    writeBlock dst dn d src k = .halt .fault ∨
    (0 ≤ dn ∧ dn + 7 ≤ dst.length ∧
      writeBlock dst dn d src k =
        .next (dst.take dn.toNat ++ d ++ dst.drop (dn.toNat + 7)) (dn + 7) (src.drop k)) := by
  unfold writeBlock
  split_ifs with h
  · right
    have e : toInt (dn + 7) = dn + 7 := by
      obtain ⟨h1, h2, h3⟩ := h
      unfold toInt at h2 ⊢
      omega
    rw [e] at h ⊢
    exact ⟨h.1, h.2.2, rfl⟩
  · left; rfl

theorem unpack_length (v w m : Nat) : (unpack v w m).length = 7 := rfl

/-- A step of the loop either ends the call with `ErrCorrupt` or a panic, or goes on
with a buffer of the same length and a shorter input. -/
theorem decodeFrame_cases (dst : List Nat) (dn : Int) (src : List Nat) (hne : src ≠ []) :
    decodeFrame dst dn src = .halt .corrupt ∨ decodeFrame dst dn src = .halt .fault ∨
    ∃ d n s, decodeFrame dst dn src = .next d n s ∧ d.length = dst.length ∧
      s.length < src.length := by
  have hlen : 0 < src.length := List.length_pos.mpr hne
  have wb : ∀ (d : List Nat) (k : Nat), d.length = 7 → 0 < k →
      writeBlock dst dn d src k = .halt .corrupt ∨ writeBlock dst dn d src k = .halt .fault ∨
      ∃ d1 n s, writeBlock dst dn d src k = .next d1 n s ∧ d1.length = dst.length ∧
        s.length < src.length := by
    intro d k hd hk
    rcases writeBlock_cases dst dn d src k with h | ⟨h0, h1, h⟩
    · exact Or.inr (Or.inl h)
    · refine Or.inr (Or.inr ⟨_, _, _, h, ?_, ?_⟩)
      · simp only [List.length_append, List.length_take, List.length_drop, hd]
        omega
      · simp only [List.length_drop]; omega
  rcases lz_cases (at_ src 0) with h | h | h | h | h | h | h | h | h
  · rw [decodeFrame_0 _ _ _ h]
    split_ifs
    · exact Or.inl rfl
    · exact wb _ 1 (unpack_length _ _ _) (by decide)
  · rw [decodeFrame_1 _ _ _ h]
    split_ifs
    · exact Or.inl rfl
    · exact wb _ 2 (unpack_length _ _ _) (by decide)
  · rw [decodeFrame_2 _ _ _ h]
    split_ifs
    · exact Or.inl rfl
    · exact wb _ 3 (unpack_length _ _ _) (by decide)
  · rw [decodeFrame_3 _ _ _ h]
    split_ifs
    · exact Or.inl rfl
    · exact wb _ 4 (unpack_length _ _ _) (by decide)
  · rw [decodeFrame_4 _ _ _ h]
    split_ifs
    · exact Or.inl rfl
    · exact wb _ 5 (unpack_length _ _ _) (by decide)
  · rw [decodeFrame_5 _ _ _ h]
    split_ifs
    · exact Or.inl rfl
    · exact wb _ 6 (unpack_length _ _ _) (by decide)
  · rw [decodeFrame_6 _ _ _ h]
    split_ifs
    · exact Or.inl rfl
    · exact wb _ 7 (unpack_length _ _ _) (by decide)
  · rw [decodeFrame_7 _ _ _ h]
    split_ifs <;>
      first
      | exact Or.inr (Or.inl rfl)
      | (refine Or.inr (Or.inr ⟨_, _, _, rfl, ?_, ?_⟩)
         · simp only [List.length_append, List.length_take, List.length_drop]
           omega
         · simp only [List.length_drop]; omega)
  · rw [decodeFrame_8 _ _ _ h]
    split_ifs with h1 h2
    · exact Or.inl rfl
    · exact Or.inl rfl
    · refine Or.inr (Or.inr ⟨_, _, _, rfl, rfl, ?_⟩)
      simp only [List.length_drop]; omega

theorem decodeLoop_fuel (fuel : Nat) :
    ∀ (dst : List Nat) (dn : Int) (src : List Nat), src.length ≤ fuel →
      decodeLoop fuel dst dn src = decodeLoop src.length dst dn src := by
  induction fuel using Nat.strong_induction_on with
  | _ fuel ih =>
    intro dst dn src hle
    cases src with
    | nil => cases fuel <;> rfl
    | cons t rest =>
      cases fuel with
      | zero => simp at hle
      | succ f =>
        simp only [List.length_cons, decodeLoop]
        rcases decodeFrame_cases dst dn (t :: rest) (by simp) with h | h | ⟨d, n, s, h, _, hs⟩
        · rw [h]
        · rw [h]
        · rw [h]
          simp only [List.length_cons] at hs hle
          show decodeLoop f d n s = decodeLoop rest.length d n s
          rw [ih f (by omega) d n s (by omega), ih rest.length (by omega) d n s (by omega)]

theorem decodeFrom_nil (dst : List Nat) (dn : Int) : decodeFrom dst dn [] = .ok dst := rfl

theorem decodeFrom_step (dst : List Nat) (dn : Int) (src : List Nat) (hne : src ≠ []) :
    decodeFrom dst dn src =
      match decodeFrame dst dn src with
      | .halt o => o
      | .next d n s => decodeFrom d n s := by
  cases src with
  | nil => exact absurd rfl hne
  | cons t rest =>
    unfold decodeFrom
    simp only [List.length_cons, decodeLoop]
    rcases decodeFrame_cases dst dn (t :: rest) (by simp) with h | h | ⟨d, n, s, h, _, hs⟩
    · rw [h]
    · rw [h]
    · rw [h]
      simp only [List.length_cons] at hs
      show decodeLoop rest.length d n s = decodeLoop s.length d n s
      exact decodeLoop_fuel _ d n s (by omega)

theorem decodeFrom_next (dst : List Nat) (dn : Int) (src : List Nat) (hne : src ≠ [])
    (d : List Nat) (n : Int) (s : List Nat) (h : decodeFrame dst dn src = .next d n s) :
    decodeFrom dst dn src = decodeFrom d n s := by
  rw [decodeFrom_step dst dn src hne, h]

theorem decodeFrom_halt (dst : List Nat) (dn : Int) (src : List Nat) (hne : src ≠ [])
    (o : Outcome) (h : decodeFrame dst dn src = .halt o) :
    decodeFrom dst dn src = o := by
  rw [decodeFrom_step dst dn src hne, h]

/-- The loop ends with a buffer of the length it started with, with `ErrCorrupt` or with a
panic; the iteration bound of the model is never reached. -/
theorem decodeFrom_cases (n : Nat) :
    ∀ (dst : List Nat) (dn : Int) (src : List Nat), src.length ≤ n →
      decodeFrom dst dn src = .corrupt ∨ decodeFrom dst dn src = .fault ∨
      ∃ out, decodeFrom dst dn src = .ok out ∧ out.length = dst.length := by
  induction n with
  | zero =>
    intro dst dn src h
    have : src = [] := List.length_eq_zero.mp (by omega)
    subst this
    exact Or.inr (Or.inr ⟨dst, rfl, rfl⟩)
  | succ n ih =>
    intro dst dn src h
    by_cases hne : src = []
    · subst hne; exact Or.inr (Or.inr ⟨dst, rfl, rfl⟩)
    · rcases decodeFrame_cases dst dn src hne with h1 | h1 | ⟨d, m, s, h1, hd, hs⟩
      · exact Or.inl (decodeFrom_halt _ _ _ hne _ h1)
      · exact Or.inr (Or.inl (decodeFrom_halt _ _ _ hne _ h1))
      · rw [decodeFrom_next _ _ _ hne _ _ _ h1, ← hd]
        exact ih d m s (by omega)

/-! ## Frames of the encoder under the decoder -/

theorem lor7_lt (n b0 b1 b2 b3 b4 b5 b6 : Nat)
    (h : b0 ||| b1 ||| b2 ||| b3 ||| b4 ||| b5 ||| b6 < 2 ^ n) :
    b0 < 2 ^ n ∧ b1 < 2 ^ n ∧ b2 < 2 ^ n ∧ b3 < 2 ^ n ∧ b4 < 2 ^ n ∧ b5 < 2 ^ n ∧
      b6 < 2 ^ n := by
  have h5 := lt_of_lor_lt_left h
  have h4 := lt_of_lor_lt_left h5
  have h3 := lt_of_lor_lt_left h4
  have h2 := lt_of_lor_lt_left h3
  have h1 := lt_of_lor_lt_left h2
  exact ⟨lt_of_lor_lt_left h1, lt_of_lor_lt_right h1, lt_of_lor_lt_right h2,
    lt_of_lor_lt_right h3, lt_of_lor_lt_right h4, lt_of_lor_lt_right h5,
    lt_of_lor_lt_right h⟩

theorem lor7_lt_256 (b0 b1 b2 b3 b4 b5 b6 : Nat)
    (h0 : b0 < 256) (h1 : b1 < 256) (h2 : b2 < 256) (h3 : b3 < 256)
    (h4 : b4 < 256) (h5 : b5 < 256) (h6 : b6 < 256) :
    b0 ||| b1 ||| b2 ||| b3 ||| b4 ||| b5 ||| b6 < 256 := by
  have e : (256 : Nat) = 2 ^ 8 := by decide
  rw [e] at *
  exact Nat.or_lt_two_pow (Nat.or_lt_two_pow (Nat.or_lt_two_pow (Nat.or_lt_two_pow
    (Nat.or_lt_two_pow (Nat.or_lt_two_pow h0 h1) h2) h3) h4) h5) h6

theorem lz_bound (x : Nat) (h : LeadingZeros8 x ≠ 0) : x < 2 ^ (8 - LeadingZeros8 x) := by
  unfold LeadingZeros8 at h ⊢
  split_ifs at h ⊢ <;> simp at h ⊢ <;> omega

theorem encodeBlock_append (dst : List Nat) (b0 b1 b2 b3 b4 b5 b6 sum : Nat) :
    encodeBlock dst b0 b1 b2 b3 b4 b5 b6 sum = dst ++ encodeBlock [] b0 b1 b2 b3 b4 b5 b6 sum := by
  unfold encodeBlock
  split <;> simp

theorem encodeBlock_ne_nil (b0 b1 b2 b3 b4 b5 b6 sum : Nat) (tl : List Nat) :
    encodeBlock [] b0 b1 b2 b3 b4 b5 b6 sum ++ tl ≠ [] := by
  unfold encodeBlock
  split <;> simp

theorem frame_w8 (b0 b1 b2 b3 b4 b5 b6 sum : Nat) (hs : LeadingZeros8 sum = 0)
    (buf : List Nat) (dn : Nat) (tl : List Nat) (hdn : dn + 7 ≤ buf.length)
    (hlen : buf.length < 2 ^ 63) :
    decodeFrame buf dn (encodeBlock [] b0 b1 b2 b3 b4 b5 b6 sum ++ tl)
      = blockStep buf dn [b0, b1, b2, b3, b4, b5, b6] tl := by
  rw [encodeBlock_0 _ _ _ _ _ _ _ _ _ hs]
  simp only [List.nil_append, List.cons_append]
  have hh : LeadingZeros8 (at_ (1 :: b0 :: b1 :: b2 :: b3 :: b4 :: b5 :: b6 :: tl) 0) = 7 := by
    simp only [at_, List.getD_cons_zero]; decide
  have hl : (if (1 :: b0 :: b1 :: b2 :: b3 :: b4 :: b5 :: b6 :: tl).length < 8
      then (1 :: b0 :: b1 :: b2 :: b3 :: b4 :: b5 :: b6 :: tl).length else 8) = 8 :=
    if_neg (by simp only [List.length_cons]; omega)
  rw [decodeFrame_7 _ _ _ hh, if_pos (by omega), hl]
  simp only [List.take_succ_cons, List.take_zero, List.drop_succ_cons,
    List.drop_zero, List.length_cons, List.length_nil, Int.toNat_ofNat]
  have hm : min (buf.length - dn) (0 + 1 + 1 + 1 + 1 + 1 + 1 + 1) = 7 := by omega
  rw [hm, toInt_of_lt _ (by omega) (by omega)]
  rfl

/-- A block that is not empty: the frame the encoder writes for it makes the decoder
store the block at the write index and move on by seven. -/
theorem frame_block (b0 b1 b2 b3 b4 b5 b6 : Nat)
    (h0 : b0 < 256) (h1 : b1 < 256) (h2 : b2 < 256) (h3 : b3 < 256)
    (h4 : b4 < 256) (h5 : b5 < 256) (h6 : b6 < 256)
    (hsum : byte (b0 ||| b1 ||| b2 ||| b3 ||| b4 ||| b5 ||| b6) ≠ 0)
    (buf : List Nat) (dn : Nat) (tl : List Nat) (hdn : dn + 7 ≤ buf.length)
    (hlen : buf.length < 2 ^ 63) :
    decodeFrame buf dn
        (encodeBlock [] b0 b1 b2 b3 b4 b5 b6
          (byte (b0 ||| b1 ||| b2 ||| b3 ||| b4 ||| b5 ||| b6)) ++ tl)
      = blockStep buf dn [b0, b1, b2, b3, b4, b5, b6] tl := by
  have hS := lor7_lt_256 b0 b1 b2 b3 b4 b5 b6 h0 h1 h2 h3 h4 h5 h6
  rw [byte_of_lt hS] at hsum ⊢
  obtain ⟨S, hSe⟩ : ∃ S, b0 ||| b1 ||| b2 ||| b3 ||| b4 ||| b5 ||| b6 = S := ⟨_, rfl⟩
  rw [hSe] at hsum hS ⊢
  rcases lz_cases S with h | h | h | h | h | h | h | h | h
  · exact frame_w8 _ _ _ _ _ _ _ _ h _ _ _ hdn hlen
  · have hb : S < 2 ^ 7 := by
      have := lz_bound S (by rw [h]; decide)
      rw [h] at this
      exact this
    rw [← hSe] at hb
    obtain ⟨a0, a1, a2, a3, a4, a5, a6⟩ := lor7_lt 7 _ _ _ _ _ _ _ hb
    exact frame_w7 _ _ _ _ _ _ _ _ a0 a1 a2 a3 a4 a5 a6 h _ _ _ hdn hlen
  · have hb : S < 2 ^ 6 := by
      have := lz_bound S (by rw [h]; decide)
      rw [h] at this
      exact this
    rw [← hSe] at hb
    obtain ⟨a0, a1, a2, a3, a4, a5, a6⟩ := lor7_lt 6 _ _ _ _ _ _ _ hb
    exact frame_w6 _ _ _ _ _ _ _ _ a0 a1 a2 a3 a4 a5 a6 h _ _ _ hdn hlen
  · have hb : S < 2 ^ 5 := by
      have := lz_bound S (by rw [h]; decide)
      rw [h] at this
      exact this
    rw [← hSe] at hb
    obtain ⟨a0, a1, a2, a3, a4, a5, a6⟩ := lor7_lt 5 _ _ _ _ _ _ _ hb
    exact frame_w5 _ _ _ _ _ _ _ _ a0 a1 a2 a3 a4 a5 a6 h _ _ _ hdn hlen
  · have hb : S < 2 ^ 4 := by
      have := lz_bound S (by rw [h]; decide)
      rw [h] at this
      exact this
    rw [← hSe] at hb
    obtain ⟨a0, a1, a2, a3, a4, a5, a6⟩ := lor7_lt 4 _ _ _ _ _ _ _ hb
    exact frame_w4 _ _ _ _ _ _ _ _ a0 a1 a2 a3 a4 a5 a6 h _ _ _ hdn hlen
  · have hb : S < 2 ^ 3 := by
      have := lz_bound S (by rw [h]; decide)
      rw [h] at this
      exact this
    rw [← hSe] at hb
    obtain ⟨a0, a1, a2, a3, a4, a5, a6⟩ := lor7_lt 3 _ _ _ _ _ _ _ hb
    exact frame_w3 _ _ _ _ _ _ _ _ a0 a1 a2 a3 a4 a5 a6 h _ _ _ hdn hlen
  · have hb : S < 2 ^ 2 := by
      have := lz_bound S (by rw [h]; decide)
      rw [h] at this
      exact this
    rw [← hSe] at hb
    obtain ⟨a0, a1, a2, a3, a4, a5, a6⟩ := lor7_lt 2 _ _ _ _ _ _ _ hb
    exact frame_w2 _ _ _ _ _ _ _ _ a0 a1 a2 a3 a4 a5 a6 h _ _ _ hdn hlen
  · have hb : S < 2 ^ 1 := by
      have := lz_bound S (by rw [h]; decide)
      rw [h] at this
      exact this
    rw [← hSe] at hb
    obtain ⟨a0, a1, a2, a3, a4, a5, a6⟩ := lor7_lt 1 _ _ _ _ _ _ _ hb
    exact frame_w1 _ _ _ _ _ _ _ _ a0 a1 a2 a3 a4 a5 a6 h _ _ _ hdn hlen
  · exfalso
    have := lz_bound S (by rw [h]; decide)
    rw [h] at this
    simp at this
    exact hsum this

theorem decodeFrom_block (b0 b1 b2 b3 b4 b5 b6 : Nat)
    (h0 : b0 < 256) (h1 : b1 < 256) (h2 : b2 < 256) (h3 : b3 < 256)
    (h4 : b4 < 256) (h5 : b5 < 256) (h6 : b6 < 256)
    (hsum : byte (b0 ||| b1 ||| b2 ||| b3 ||| b4 ||| b5 ||| b6) ≠ 0)
    (buf : List Nat) (dn : Nat) (tl : List Nat) (hdn : dn + 7 ≤ buf.length)
    (hlen : buf.length < 2 ^ 63) :
    decodeFrom buf dn
        (encodeBlock [] b0 b1 b2 b3 b4 b5 b6
          (byte (b0 ||| b1 ||| b2 ||| b3 ||| b4 ||| b5 ||| b6)) ++ tl)
      = decodeFrom (buf.take dn ++ [b0, b1, b2, b3, b4, b5, b6] ++ buf.drop (dn + 7))
          ((dn : Int) + 7) tl :=
  decodeFrom_next _ _ _ (encodeBlock_ne_nil _ _ _ _ _ _ _ _ _) _ _ _
    (frame_block b0 b1 b2 b3 b4 b5 b6 h0 h1 h2 h3 h4 h5 h6 hsum buf dn tl hdn hlen)

/-! ## Runs of empty blocks -/

theorem flushEmpty_zero (acc : List Nat) : flushEmpty acc 0 = some acc := rfl

theorem flushEmpty_one (acc : List Nat) : flushEmpty acc 1 = some (acc ++ [128]) := rfl

theorem flushEmpty_many (acc : List Nat) (e : Nat) (h2 : 2 ≤ e) (he : e < 2 ^ 64) :
    flushEmpty acc e = some (acc ++ 0 :: PutUvarint (e - 1)) := by
  unfold flushEmpty encodeEmptyBlocks
  rw [if_pos (by omega), if_neg (by omega), if_neg (by omega), uint64_of_lt (by omega)]

theorem flushEmpty_eq (acc : List Nat) (e : Nat) (he : e < 2 ^ 64) :
    flushEmpty acc e = some (acc ++ emptyFrame e) := by
  unfold emptyFrame
  by_cases h0 : e = 0
  · subst h0; simp [flushEmpty_zero]
  · by_cases h1 : e = 1
    · subst h1; simp [flushEmpty_one]
    · rw [if_neg h0, if_neg h1]
      exact flushEmpty_many acc e (by omega) he

theorem toInt_run (p e : Nat) (h2 : 2 ≤ e) (hlen : p + 7 * e < 2 ^ 63) :
    toInt ((p : Int) + toInt (7 + toInt (toInt ((e - 1 : Nat) : Int) * 7)))
      = (p : Int) + 7 * e := by
  unfold toInt; omega

theorem unpack_128 : unpack 128 1 1 = [0, 0, 0, 0, 0, 0, 0] := by decide

/-- A flushed run of `e` empty blocks moves the write index of the decoder over `7e`
bytes of the buffer, which were zero and stay so. -/
theorem decodeFrom_flush (e : Nat) (pre post tl : List Nat)
    (hlen : pre.length + 7 * e + post.length < 2 ^ 63) :
    decodeFrom (pre ++ List.replicate (7 * e) 0 ++ post) pre.length (emptyFrame e ++ tl)
      = decodeFrom (pre ++ List.replicate (7 * e) 0 ++ post) ((pre.length : Int) + 7 * e) tl := by
  have hbl : (pre ++ List.replicate (7 * e) 0 ++ post).length
      = pre.length + 7 * e + post.length := by
    simp only [List.length_append, List.length_replicate]
  unfold emptyFrame
  by_cases h0 : e = 0
  · subst h0; simp
  · rw [if_neg h0]
    by_cases h1 : e = 1
    · subst h1
      rw [if_pos rfl]
      have hat : at_ ([128] ++ tl) 0 = 128 := by
        simp only [List.cons_append, List.nil_append, at_, List.getD_cons_zero]
      have hh : LeadingZeros8 (at_ ([128] ++ tl) 0) = 0 := by rw [hat]; decide
      have hstep : decodeFrame (pre ++ List.replicate (7 * 1) 0 ++ post) pre.length
          ([128] ++ tl) = .next (pre ++ List.replicate (7 * 1) 0 ++ post)
            ((pre.length : Int) + 7 * (1 : Nat)) tl := by
        rw [decodeFrame_0 _ _ _ hh, if_neg, writeBlock_ok _ _ _ _ _ (by rw [hbl]; omega)
          (by rw [hbl]; omega)]
        · rw [hat, unpack_128]
          unfold blockStep
          have e1 : List.take pre.length (pre ++ List.replicate (7 * 1) 0 ++ post) = pre := by
            rw [List.append_assoc, List.take_left']
            rfl
          have e2 : List.drop (pre.length + 7) (pre ++ List.replicate (7 * 1) 0 ++ post)
              = post := by
            rw [List.drop_append_eq_append_drop]
            simp
          rw [e1, e2]
          rfl
        · rw [toInt_of_lt _ (by omega) (by omega), hbl]; omega
      exact decodeFrom_next _ _ _ (by simp) _ _ _ hstep
    · rw [if_neg h1]
      have he : e - 1 < 2 ^ 64 := by omega
      have hh : LeadingZeros8 (at_ (0 :: PutUvarint (e - 1) ++ tl) 0) = 8 := by
        simp only [List.cons_append, at_, List.getD_cons_zero]; decide
      have hU : Uvarint (List.drop 1 (0 :: PutUvarint (e - 1) ++ tl))
          = (e - 1, ((PutUvarint (e - 1)).length : Int)) := by
        rw [List.cons_append, List.drop_succ_cons, List.drop_zero]
        exact Uvarint_PutUvarint _ he tl
      have hpos := PutUvarint_length_pos (e - 1)
      have hdn := toInt_run pre.length e (by omega) (by omega)
      have hstep : decodeFrame (pre ++ List.replicate (7 * e) 0 ++ post) pre.length
          (0 :: PutUvarint (e - 1) ++ tl) = .next (pre ++ List.replicate (7 * e) 0 ++ post)
            ((pre.length : Int) + 7 * e) tl := by
        rw [decodeFrame_8 _ _ _ hh, hU]
        simp only []
        rw [if_neg (by omega), hdn, if_neg (by rw [hbl]; omega)]
        simp only [Int.toNat_ofNat, List.cons_append]
        rw [Nat.add_comm 1, List.drop_succ_cons, List.drop_left]
      exact decodeFrom_next _ _ _ (by simp) _ _ _ hstep

/-! ## The loop of the encoder -/

theorem exists_cons7 (src : List Nat) (h : 7 ≤ src.length) :
    ∃ b0 b1 b2 b3 b4 b5 b6 rest, src = b0 :: b1 :: b2 :: b3 :: b4 :: b5 :: b6 :: rest := by
  rcases src with _ | ⟨b0, _ | ⟨b1, _ | ⟨b2, _ | ⟨b3, _ | ⟨b4, _ | ⟨b5, _ | ⟨b6, rest⟩⟩⟩⟩⟩⟩⟩
  all_goals first
    | exact ⟨_, _, _, _, _, _, _, _, rfl⟩
    | (simp only [List.length_cons, List.length_nil] at h; omega)

theorem encodeLoop_short (acc : List Nat) (e : Nat) (src : List Nat) (h : src.length < 7) :
    encodeLoop acc e src = encodeResidual acc e src := by
  rcases src with _ | ⟨b0, _ | ⟨b1, _ | ⟨b2, _ | ⟨b3, _ | ⟨b4, _ | ⟨b5, _ | ⟨b6, rest⟩⟩⟩⟩⟩⟩⟩
  all_goals first
    | rfl
    | (simp only [List.length_cons, List.length_nil] at h; omega)

theorem residual_short (src : List Nat) (h : src.length < 7) : residual src = src := by
  rcases src with _ | ⟨b0, _ | ⟨b1, _ | ⟨b2, _ | ⟨b3, _ | ⟨b4, _ | ⟨b5, _ | ⟨b6, rest⟩⟩⟩⟩⟩⟩⟩
  all_goals first
    | rfl
    | (simp only [List.length_cons, List.length_nil] at h; omega)

theorem lastBlock_short (src : List Nat) (h : src.length < 7) : lastBlock src = [] := by
  rcases src with _ | ⟨b0, _ | ⟨b1, _ | ⟨b2, _ | ⟨b3, _ | ⟨b4, _ | ⟨b5, _ | ⟨b6, rest⟩⟩⟩⟩⟩⟩⟩
  all_goals first
    | rfl
    | (simp only [List.length_cons, List.length_nil] at h; omega)

theorem endCursor_short (dn e : Nat) (src : List Nat) (h : src.length < 7) :
    endCursor dn e src = if src.any (fun b => b != 0) then dn + 7 * e + src.length else dn := by
  rcases src with _ | ⟨b0, _ | ⟨b1, _ | ⟨b2, _ | ⟨b3, _ | ⟨b4, _ | ⟨b5, _ | ⟨b6, rest⟩⟩⟩⟩⟩⟩⟩
  all_goals first
    | rfl
    | (simp only [List.length_cons, List.length_nil] at h; omega)

theorem encodeLoop_empty (acc : List Nat) (e b0 b1 b2 b3 b4 b5 b6 : Nat) (rest : List Nat)
    (h : byte (b0 ||| b1 ||| b2 ||| b3 ||| b4 ||| b5 ||| b6) = 0) :
    encodeLoop acc e (b0 :: b1 :: b2 :: b3 :: b4 :: b5 :: b6 :: rest)
      = encodeLoop acc (uint64 (e + 1)) rest := by
  rw [encodeLoop]
  simp only [h, if_true]

theorem encodeLoop_block (acc : List Nat) (e b0 b1 b2 b3 b4 b5 b6 : Nat) (rest : List Nat)
    (h : byte (b0 ||| b1 ||| b2 ||| b3 ||| b4 ||| b5 ||| b6) ≠ 0) :
    encodeLoop acc e (b0 :: b1 :: b2 :: b3 :: b4 :: b5 :: b6 :: rest)
      = match flushEmpty acc e with
        | none => none
        | some d => encodeLoop (encodeBlock d b0 b1 b2 b3 b4 b5 b6
            (byte (b0 ||| b1 ||| b2 ||| b3 ||| b4 ||| b5 ||| b6))) 0 rest := by
  rw [encodeLoop]
  simp only [h, if_false]

theorem endCursor_empty (dn e b0 b1 b2 b3 b4 b5 b6 : Nat) (rest : List Nat)
    (h : byte (b0 ||| b1 ||| b2 ||| b3 ||| b4 ||| b5 ||| b6) = 0) :
    endCursor dn e (b0 :: b1 :: b2 :: b3 :: b4 :: b5 :: b6 :: rest)
      = endCursor dn (e + 1) rest := by
  rw [endCursor]
  simp only [h, if_true]

theorem endCursor_block (dn e b0 b1 b2 b3 b4 b5 b6 : Nat) (rest : List Nat)
    (h : byte (b0 ||| b1 ||| b2 ||| b3 ||| b4 ||| b5 ||| b6) ≠ 0) :
    endCursor dn e (b0 :: b1 :: b2 :: b3 :: b4 :: b5 :: b6 :: rest)
      = endCursor (dn + 7 * e + 7) 0 rest := by
  rw [endCursor]
  simp only [h, if_false]

theorem residual_cons7 (b0 b1 b2 b3 b4 b5 b6 : Nat) (rest : List Nat) :
    residual (b0 :: b1 :: b2 :: b3 :: b4 :: b5 :: b6 :: rest) = residual rest := by
  rw [residual]

/-- An empty block of bytes consists of zeros. -/
theorem block_zero (b0 b1 b2 b3 b4 b5 b6 : Nat)
    (h0 : b0 < 256) (h1 : b1 < 256) (h2 : b2 < 256) (h3 : b3 < 256)
    (h4 : b4 < 256) (h5 : b5 < 256) (h6 : b6 < 256)
    (h : byte (b0 ||| b1 ||| b2 ||| b3 ||| b4 ||| b5 ||| b6) = 0) :
    b0 = 0 ∧ b1 = 0 ∧ b2 = 0 ∧ b3 = 0 ∧ b4 = 0 ∧ b5 = 0 ∧ b6 = 0 := by
  rw [byte_of_lt (lor7_lt_256 b0 b1 b2 b3 b4 b5 b6 h0 h1 h2 h3 h4 h5 h6)] at h
  have hlt : b0 ||| b1 ||| b2 ||| b3 ||| b4 ||| b5 ||| b6 < 2 ^ 0 := by rw [h]; decide
  obtain ⟨a0, a1, a2, a3, a4, a5, a6⟩ := lor7_lt 0 _ _ _ _ _ _ _ hlt
  simp only [pow_zero, Nat.lt_one_iff] at a0 a1 a2 a3 a4 a5 a6
  exact ⟨a0, a1, a2, a3, a4, a5, a6⟩

theorem all_zero_eq_replicate (src : List Nat) (h : ∀ b ∈ src, b = 0) :
    src = List.replicate src.length 0 := by
  induction src with
  | nil => rfl
  | cons a t ih =>
    have ha : a = 0 := h a (List.mem_cons_self _ _)
    have ht := ih (fun b hb => h b (List.mem_cons_of_mem _ hb))
    rw [List.length_cons, List.replicate_succ, ← ht, ha]

theorem any_ne_zero_false (src : List Nat) (h : ¬ src.any (fun b => b != 0) = true) :
    ∀ b ∈ src, b = 0 := by
  intro b hb
  by_contra hne
  apply h
  rw [List.any_eq_true]
  exact ⟨b, hb, by simpa using hne⟩

/-- The residual, written as a fixed block at the end of the input, fills the end of the
buffer. -/
theorem decodeFrom_residual (pre src : List Nat) (h6 : src.length < 7)
    (hlen : pre.length + src.length < 2 ^ 63) :
    decodeFrom (pre ++ List.replicate src.length 0) pre.length (1 :: src) = .ok (pre ++ src) := by
  have hh : LeadingZeros8 (at_ (1 :: src) 0) = 7 := by
    simp only [at_, List.getD_cons_zero]; decide
  have hn : (if (1 :: src).length < 8 then (1 :: src).length else 8) = src.length + 1 := by
    rw [if_pos (by simp only [List.length_cons]; omega), List.length_cons]
  have hstep : decodeFrame (pre ++ List.replicate src.length 0) pre.length (1 :: src)
      = .next (pre ++ src) ((pre.length : Int) + src.length) [] := by
    rw [decodeFrame_7 _ _ _ hh, hn, if_pos]
    · have e1 : List.drop 1 (List.take (src.length + 1) (1 :: src)) = src := by
        rw [List.take_succ_cons, List.drop_succ_cons, List.drop_zero, List.take_length]
      have e2 : min ((pre ++ List.replicate src.length 0).length - (pre.length : Int).toNat)
          src.length = src.length := by
        simp only [List.length_append, List.length_replicate, Int.toNat_ofNat]
        omega
      have e3 : List.drop (src.length + 1) (1 :: src) = [] := by
        rw [List.drop_succ_cons, List.drop_length]
      rw [e1, e2, e3, List.take_length, Int.toNat_ofNat, List.take_left' rfl,
        toInt_of_lt _ (by omega) (by omega)]
      have e4 : List.drop (pre.length + src.length) (pre ++ List.replicate src.length 0) = [] := by
        apply List.drop_of_length_le
        simp only [List.length_append, List.length_replicate]; omega
      rw [e4, List.append_nil]
    · simp only [List.length_append, List.length_replicate]
      omega
  rw [decodeFrom_next _ _ _ (by simp) _ _ _ hstep, decodeFrom_nil]

/-! ## Decoding what the loop of the encoder wrote -/

theorem replicate_block (e : Nat) (X : List Nat) :
    List.replicate (7 * (e + 1)) 0 ++ X
      = List.replicate (7 * e) 0 ++ (0 :: 0 :: 0 :: 0 :: 0 :: 0 :: 0 :: X) := by
  have h : 7 * (e + 1) = 7 * e + 7 := by ring
  rw [h, List.replicate_add, List.append_assoc]
  rfl

theorem replicate_seven (n : Nat) :
    List.replicate (n + 7) 0 = 0 :: 0 :: 0 :: 0 :: 0 :: 0 :: 0 :: List.replicate n 0 := rfl

theorem encodeLoop_decode_short (src acc : List Nat) (e : Nat) (pre tl : List Nat)
    (h7 : src.length < 7) (hlen : pre.length + 7 * e + src.length < 2 ^ 63)
    (htl : tl = [] ∨ ∀ b ∈ residual src, b = 0) :
    ∃ F, encodeLoop acc e src = some (acc ++ F) ∧
      decodeFrom (pre ++ List.replicate (7 * e) 0 ++ List.replicate src.length 0)
          pre.length (F ++ tl)
        = decodeFrom (pre ++ List.replicate (7 * e) 0 ++ src)
            ((endCursor pre.length e src : Nat) : Int) tl := by
  rw [encodeLoop_short _ _ _ h7, endCursor_short _ _ _ h7]
  unfold encodeResidual
  by_cases hany : src.any (fun b => b != 0) = true
  · rw [if_pos hany, if_pos hany, flushEmpty_eq _ _ (by omega)]
    have htl0 : tl = [] := by
      rcases htl with h | h
      · exact h
      · rw [residual_short _ h7] at h
        exfalso
        rw [List.any_eq_true] at hany
        obtain ⟨b, hb, hne⟩ := hany
        simp [h b hb] at hne
    subst htl0
    refine ⟨emptyFrame e ++ 1 :: src, ?_, ?_⟩
    · simp only [Option.map_some', List.append_assoc, List.singleton_append]
    · have hc : ((pre ++ List.replicate (7 * e) 0).length : Int) = (pre.length : Int) + 7 * e := by
        simp only [List.length_append, List.length_replicate]
        push_cast
        rfl
      have hr := decodeFrom_residual (pre ++ List.replicate (7 * e) 0) src h7
        (by simp only [List.length_append, List.length_replicate]; omega)
      rw [hc] at hr
      rw [List.append_nil, decodeFrom_flush e pre _ (1 :: src)
        (by simp only [List.length_replicate]; omega), hr, decodeFrom_nil]
  · rw [if_neg hany, if_neg hany]
    refine ⟨[], by rw [List.append_nil], ?_⟩
    have hz := all_zero_eq_replicate src (any_ne_zero_false src hany)
    rw [← hz, List.nil_append]

/-- The frames `encodeLoop` writes for `src`, with `e` empty blocks pending, are decoded
into the buffer as the pending zeros followed by `src`. The bytes that follow the frames
are left for the next step of the decoder, unless a residual was written. -/
theorem encodeLoop_decode (n : Nat) :
    ∀ (src acc : List Nat) (e : Nat) (pre tl : List Nat), src.length ≤ n → IsBytes src →
      pre.length + 7 * e + src.length < 2 ^ 63 →
      (tl = [] ∨ ∀ b ∈ residual src, b = 0) →
      ∃ F, encodeLoop acc e src = some (acc ++ F) ∧
        decodeFrom (pre ++ List.replicate (7 * e) 0 ++ List.replicate src.length 0)
            pre.length (F ++ tl)
          = decodeFrom (pre ++ List.replicate (7 * e) 0 ++ src)
              ((endCursor pre.length e src : Nat) : Int) tl := by
  induction n with
  | zero =>
    intro src acc e pre tl hn _ hlen htl
    exact encodeLoop_decode_short src acc e pre tl (by omega) hlen htl
  | succ n ih =>
    intro src acc e pre tl hn hb hlen htl
    by_cases h7 : src.length < 7
    · exact encodeLoop_decode_short src acc e pre tl h7 hlen htl
    · obtain ⟨b0, b1, b2, b3, b4, b5, b6, rest, rfl⟩ := exists_cons7 src (by omega)
      have hb0 : b0 < 256 := hb b0 (by simp)
      have hb1 : b1 < 256 := hb b1 (by simp)
      have hb2 : b2 < 256 := hb b2 (by simp)
      have hb3 : b3 < 256 := hb b3 (by simp)
      have hb4 : b4 < 256 := hb b4 (by simp)
      have hb5 : b5 < 256 := hb b5 (by simp)
      have hb6 : b6 < 256 := hb b6 (by simp)
      have hbr : IsBytes rest := fun b hm => hb b (by simp [hm])
      simp only [List.length_cons] at hn hlen
      rw [residual_cons7] at htl
      by_cases h : byte (b0 ||| b1 ||| b2 ||| b3 ||| b4 ||| b5 ||| b6) = 0
      · obtain ⟨rfl, rfl, rfl, rfl, rfl, rfl, rfl⟩ :=
          block_zero b0 b1 b2 b3 b4 b5 b6 hb0 hb1 hb2 hb3 hb4 hb5 hb6 h
        rw [encodeLoop_empty _ _ _ _ _ _ _ _ _ _ h, endCursor_empty _ _ _ _ _ _ _ _ _ _ h,
          uint64_of_lt (by omega)]
        obtain ⟨F, hF, hD⟩ := ih rest acc (e + 1) pre tl (by omega) hbr (by omega) htl
        refine ⟨F, hF, ?_⟩
        rw [List.append_assoc, replicate_block, List.append_assoc pre, replicate_block,
          ← List.append_assoc, ← List.append_assoc pre] at hD
        exact hD
      · rw [encodeLoop_block _ _ _ _ _ _ _ _ _ _ h, flushEmpty_eq acc e (by omega),
          endCursor_block _ _ _ _ _ _ _ _ _ _ h]
        simp only []
        rw [encodeBlock_append]
        obtain ⟨F, hF, hD⟩ := ih rest
          (acc ++ emptyFrame e ++ encodeBlock [] b0 b1 b2 b3 b4 b5 b6
            (byte (b0 ||| b1 ||| b2 ||| b3 ||| b4 ||| b5 ||| b6))) 0
          (pre ++ List.replicate (7 * e) 0 ++ [b0, b1, b2, b3, b4, b5, b6]) tl (by omega) hbr
          (by simp only [List.length_append, List.length_replicate, List.length_cons,
                List.length_nil]; omega) htl
        refine ⟨emptyFrame e ++ encodeBlock [] b0 b1 b2 b3 b4 b5 b6
            (byte (b0 ||| b1 ||| b2 ||| b3 ||| b4 ||| b5 ||| b6)) ++ F, ?_, ?_⟩
        · rw [hF]
          simp only [List.append_assoc]
        · have hl : (pre ++ List.replicate (7 * e) 0 ++ [b0, b1, b2, b3, b4, b5, b6]).length
              = pre.length + 7 * e + 7 := by
            simp only [List.length_append, List.length_replicate, List.length_cons,
              List.length_nil]
          rw [hl] at hD
          simp only [Nat.mul_zero, List.replicate_zero, List.append_nil] at hD
          have hbuf : (pre ++ List.replicate (7 * e) 0
              ++ List.replicate (rest.length + 7) 0).length
              = pre.length + 7 * e + (rest.length + 7) := by
            simp only [List.length_append, List.length_replicate]
          have hpl : (pre ++ List.replicate (7 * e) 0).length = pre.length + 7 * e := by
            simp only [List.length_append, List.length_replicate]
          have e1 : List.take (pre.length + 7 * e)
              (pre ++ List.replicate (7 * e) 0 ++ List.replicate (rest.length + 7) 0)
              = pre ++ List.replicate (7 * e) 0 := List.take_left' hpl
          have e2 : List.drop (pre.length + 7 * e + 7)
              (pre ++ List.replicate (7 * e) 0 ++ List.replicate (rest.length + 7) 0)
              = List.replicate rest.length 0 := by
            rw [replicate_seven]
            have : pre ++ List.replicate (7 * e) 0
                ++ 0 :: 0 :: 0 :: 0 :: 0 :: 0 :: 0 :: List.replicate rest.length 0
                = (pre ++ List.replicate (7 * e) 0 ++ [0, 0, 0, 0, 0, 0, 0])
                  ++ List.replicate rest.length 0 := by
              simp only [List.append_assoc, List.cons_append, List.nil_append]
            rw [this]
            exact List.drop_left' (by
              simp only [List.length_append, List.length_replicate, List.length_cons,
                List.length_nil])
          have hcast : (((pre.length + 7 * e : Nat) : Int) + 7)
              = ((pre.length + 7 * e + 7 : Nat) : Int) := by push_cast; rfl
          have hcast2 : (pre.length : Int) + 7 * (e : Int)
              = ((pre.length + 7 * e : Nat) : Int) := by push_cast; rfl
          have hB := decodeFrom_block b0 b1 b2 b3 b4 b5 b6 hb0 hb1 hb2 hb3 hb4 hb5 hb6 h
            (pre ++ List.replicate (7 * e) 0 ++ List.replicate (rest.length + 7) 0)
            (pre.length + 7 * e) (F ++ tl) (by rw [hbuf]; omega) (by rw [hbuf]; omega)
          rw [e1, e2, hcast] at hB
          have hl7 : (b0 :: b1 :: b2 :: b3 :: b4 :: b5 :: b6 :: rest).length
              = rest.length + 7 := rfl
          rw [hl7, List.append_assoc (emptyFrame e), List.append_assoc (emptyFrame e),
            List.append_assoc (encodeBlock [] _ _ _ _ _ _ _ _),
            decodeFrom_flush e pre _ _ (by simp only [List.length_replicate]; omega),
            hcast2, hB, hD]
          simp only [List.append_assoc, List.cons_append, List.nil_append]

/-! ## The frames the encoder writes -/

theorem flushEmpty_frames (e : Nat) :
    ∃ F : List Nat, (∀ acc, flushEmpty acc e = some (acc ++ F)) ∧ F.length ≤ 7 * e := by
  by_cases h0 : e = 0
  · subst h0
    exact ⟨[], fun acc => by rw [flushEmpty_zero, List.append_nil], by simp⟩
  · by_cases h1 : e = 1
    · subst h1
      exact ⟨[128], fun acc => flushEmpty_one acc, by simp⟩
    · refine ⟨0 :: PutUvarint (uint64 (e - 1)), fun acc => ?_, ?_⟩
      · unfold flushEmpty encodeEmptyBlocks
        rw [if_pos (by omega), if_neg h1, if_neg h0]
      · have := PutUvarint_length_le (uint64 (e - 1))
        simp only [List.length_cons]
        omega

theorem encodeBlock_8 (dst : List Nat) (b0 b1 b2 b3 b4 b5 b6 sum : Nat)
    (hs : LeadingZeros8 sum = 8) :
    encodeBlock dst b0 b1 b2 b3 b4 b5 b6 sum = (dst ++ [1]) ++ [b0, b1, b2, b3, b4, b5, b6] := by
  unfold encodeBlock
  rw [hs]

/-- A frame for a block is as long as the width of the block, eight bytes for a fixed
block. -/
theorem encodeBlock_length (b0 b1 b2 b3 b4 b5 b6 sum : Nat) :
    (encodeBlock [] b0 b1 b2 b3 b4 b5 b6 sum).length =
      if LeadingZeros8 sum = 0 ∨ LeadingZeros8 sum = 8 then 8 else 8 - LeadingZeros8 sum := by
  rcases lz_cases sum with h | h | h | h | h | h | h | h | h
  · rw [encodeBlock_0 _ _ _ _ _ _ _ _ _ h, h]; rfl
  · rw [encodeBlock_1 _ _ _ _ _ _ _ _ _ h, h]; rfl
  · rw [encodeBlock_2 _ _ _ _ _ _ _ _ _ h, h]; rfl
  · rw [encodeBlock_3 _ _ _ _ _ _ _ _ _ h, h]; rfl
  · rw [encodeBlock_4 _ _ _ _ _ _ _ _ _ h, h]; rfl
  · rw [encodeBlock_5 _ _ _ _ _ _ _ _ _ h, h]; rfl
  · rw [encodeBlock_6 _ _ _ _ _ _ _ _ _ h, h]; rfl
  · rw [encodeBlock_7 _ _ _ _ _ _ _ _ _ h, h]; rfl
  · rw [encodeBlock_8 _ _ _ _ _ _ _ _ _ h, h]; rfl

theorem encodeBlock_length_le (b0 b1 b2 b3 b4 b5 b6 sum : Nat) :
    (encodeBlock [] b0 b1 b2 b3 b4 b5 b6 sum).length ≤ 8 := by
  rw [encodeBlock_length]
  split_ifs <;> omega

/-- The loop of the encoder always returns: it appends frames, which do not depend on
what the output held before, and which are at most one byte per block longer than the
input they stand for. -/
theorem encodeLoop_frames (n : Nat) :
    ∀ (src : List Nat) (e : Nat), src.length ≤ n →
      ∃ F : List Nat, (∀ acc, encodeLoop acc e src = some (acc ++ F)) ∧
        F.length ≤ 7 * e + src.length + (src.length + 6) / 7 := by
  induction n using Nat.strong_induction_on with
  | _ n ih =>
    intro src e hn
    by_cases h7 : src.length < 7
    · obtain ⟨F1, hF1, hl1⟩ := flushEmpty_frames e
      by_cases hany : src.any (fun b => b != 0) = true
      · refine ⟨F1 ++ 1 :: src, fun acc => ?_, ?_⟩
        · rw [encodeLoop_short _ _ _ h7]
          unfold encodeResidual
          rw [if_pos hany, hF1 acc]
          simp only [Option.map_some', List.append_assoc, List.singleton_append]
        · have hpos : 1 ≤ src.length := by
            rcases src with _ | ⟨a, t⟩
            · simp at hany
            · simp
          simp only [List.length_append, List.length_cons]
          omega
      · refine ⟨[], fun acc => ?_, by simp⟩
        rw [encodeLoop_short _ _ _ h7]
        unfold encodeResidual
        rw [if_neg hany, List.append_nil]
    · obtain ⟨b0, b1, b2, b3, b4, b5, b6, rest, rfl⟩ := exists_cons7 src (by omega)
      have hl7 : (b0 :: b1 :: b2 :: b3 :: b4 :: b5 :: b6 :: rest).length
          = rest.length + 7 := rfl
      rw [hl7] at hn ⊢
      by_cases h : byte (b0 ||| b1 ||| b2 ||| b3 ||| b4 ||| b5 ||| b6) = 0
      · obtain ⟨F, hF, hl⟩ := ih rest.length (by omega) rest (uint64 (e + 1)) (le_refl _)
        refine ⟨F, fun acc => ?_, ?_⟩
        · rw [encodeLoop_empty _ _ _ _ _ _ _ _ _ _ h, hF acc]
        · have : uint64 (e + 1) ≤ e + 1 := Nat.mod_le _ _
          omega
      · obtain ⟨F1, hF1, hl1⟩ := flushEmpty_frames e
        obtain ⟨F, hF, hl⟩ := ih rest.length (by omega) rest 0 (le_refl _)
        have hB := encodeBlock_length_le b0 b1 b2 b3 b4 b5 b6
          (byte (b0 ||| b1 ||| b2 ||| b3 ||| b4 ||| b5 ||| b6))
        refine ⟨F1 ++ encodeBlock [] b0 b1 b2 b3 b4 b5 b6
            (byte (b0 ||| b1 ||| b2 ||| b3 ||| b4 ||| b5 ||| b6)) ++ F, fun acc => ?_, ?_⟩
        · rw [encodeLoop_block _ _ _ _ _ _ _ _ _ _ h, hF1 acc]
          simp only []
          rw [encodeBlock_append, hF]
          simp only [List.append_assoc]
        · simp only [List.length_append]
          omega

theorem any_replicate_zero (k : Nat) :
    ¬ (List.replicate k 0).any (fun b => b != 0) = true := by
  rw [List.any_eq_true]
  rintro ⟨b, hb, hne⟩
  have := (List.mem_replicate.mp hb).2
  subst this
  simp at hne

theorem block_of_zeros : byte (0 ||| 0 ||| 0 ||| 0 ||| 0 ||| 0 ||| 0) = 0 := rfl

/-- Zeros up to the end of the input add nothing to the output. -/
theorem encodeLoop_zeros (k : Nat) :
    ∀ (acc : List Nat) (e : Nat), encodeLoop acc e (List.replicate k 0) = some acc := by
  induction k using Nat.strong_induction_on with
  | _ k ih =>
    intro acc e
    by_cases h7 : k < 7
    · rw [encodeLoop_short _ _ _ (by rw [List.length_replicate]; exact h7)]
      unfold encodeResidual
      rw [if_neg (any_replicate_zero k)]
    · obtain ⟨m, rfl⟩ : ∃ m, k = m + 7 := ⟨k - 7, by omega⟩
      rw [replicate_seven, encodeLoop_empty _ _ _ _ _ _ _ _ _ _ block_of_zeros]
      exact ih m (by omega) acc _

theorem encodeLoop_nil (acc : List Nat) (e : Nat) : encodeLoop acc e [] = some acc := by
  have := encodeLoop_zeros 0 acc e
  simpa using this

/-- Zeros appended to an input of whole blocks leave the output as it is. -/
theorem encodeLoop_append_zeros (n : Nat) :
    ∀ (s acc : List Nat) (e k : Nat), s.length ≤ n → s.length % 7 = 0 →
      encodeLoop acc e (s ++ List.replicate k 0) = encodeLoop acc e s := by
  induction n using Nat.strong_induction_on with
  | _ n ih =>
    intro s acc e k hn hm
    by_cases h7 : s.length < 7
    · have : s = [] := List.length_eq_zero.mp (by omega)
      subst this
      rw [List.nil_append, encodeLoop_zeros, encodeLoop_nil]
    · obtain ⟨b0, b1, b2, b3, b4, b5, b6, rest, rfl⟩ := exists_cons7 s (by omega)
      have hl7 : (b0 :: b1 :: b2 :: b3 :: b4 :: b5 :: b6 :: rest).length
          = rest.length + 7 := rfl
      rw [hl7] at hn hm
      simp only [List.cons_append]
      by_cases h : byte (b0 ||| b1 ||| b2 ||| b3 ||| b4 ||| b5 ||| b6) = 0
      · rw [encodeLoop_empty _ _ _ _ _ _ _ _ _ _ h, encodeLoop_empty _ _ _ _ _ _ _ _ _ _ h]
        exact ih rest.length (by omega) rest acc _ k (le_refl _) (by omega)
      · rw [encodeLoop_block _ _ _ _ _ _ _ _ _ _ h, encodeLoop_block _ _ _ _ _ _ _ _ _ _ h]
        obtain ⟨F1, hF1, _⟩ := flushEmpty_frames e
        rw [hF1 acc]
        simp only []
        exact ih rest.length (by omega) rest _ 0 k (le_refl _) (by omega)

/-- Blocks of zeros at the start of the input are counted and written later. -/
theorem encodeLoop_zero_blocks (e : Nat) :
    ∀ (acc : List Nat) (p : Nat) (r : List Nat), p + e < 2 ^ 64 →
      encodeLoop acc p (List.replicate (7 * e) 0 ++ r) = encodeLoop acc (p + e) r := by
  induction e with
  | zero => intro acc p r _; simp
  | succ e ih =>
    intro acc p r hp
    have h : 7 * (e + 1) = 7 * e + 7 := by ring
    rw [h, replicate_seven]
    simp only [List.cons_append]
    rw [encodeLoop_empty _ _ _ _ _ _ _ _ _ _ block_of_zeros, uint64_of_lt (by omega),
      ih acc (p + 1) r (by omega)]
    congr 1
    omega

/-! ## The length of a LEB128 integer -/

set_option maxRecDepth 100000 in
theorem byte_lor_ne_zero (b : Nat) (h : b < 256) : b ||| 0x80 ≠ 0 := by
  revert b; decide

theorem PutUvarint_head (x : Nat) (hx : x ≠ 0) :
    ∃ b rest, PutUvarint x = b :: rest ∧ b ≠ 0 := by
  unfold PutUvarint
  rw [show (9 : Nat) = 8 + 1 from rfl, putUvarintLoop]
  split_ifs with h
  · exact ⟨_, _, rfl, byte_lor_ne_zero _ (byte_lt _)⟩
  · refine ⟨_, _, rfl, ?_⟩
    rw [byte_of_lt (by omega)]
    exact hx

theorem PutUvarint_length_1 (x : Nat) (h : x < 128) : (PutUvarint x).length = 1 := by
  unfold PutUvarint
  rw [show (9 : Nat) = 8 + 1 from rfl, putUvarintLoop, if_neg (by omega)]
  rfl

theorem PutUvarint_length_2 (x : Nat) (h1 : 128 ≤ x) (h2 : x < 2 ^ 14) :
    (PutUvarint x).length = 2 := by
  unfold PutUvarint
  rw [show (9 : Nat) = 7 + 1 + 1 from rfl, putUvarintLoop, if_pos (by omega), putUvarintLoop,
    if_neg (by rw [Nat.shiftRight_eq_div_pow]; omega)]
  rfl

theorem PutUvarint_length_3 (x : Nat) (h1 : 2 ^ 14 ≤ x) (h2 : x < 2 ^ 21) :
    (PutUvarint x).length = 3 := by
  unfold PutUvarint
  rw [show (9 : Nat) = 6 + 1 + 1 + 1 from rfl, putUvarintLoop, if_pos (by omega),
    putUvarintLoop, if_pos (by rw [Nat.shiftRight_eq_div_pow]; omega), putUvarintLoop,
    if_neg (by rw [Nat.shiftRight_eq_div_pow, Nat.shiftRight_eq_div_pow]; omega)]
  rfl

/-! ## `Encode` followed by `Decode` -/

theorem Encode_nil (dst : List Nat) : Encode dst [] = some [] := by
  simp [Encode]

theorem Encode_ne_nil (dst s : List Nat) (hne : s ≠ []) :
    Encode dst s = encodeLoop (appendPrefix [] s.length) 0 s := by
  have : s.length ≠ 0 := fun h => hne (List.length_eq_zero.mp h)
  simp only [Encode, List.take_zero, if_neg this, encodeBlocks]

theorem appendPrefix_nil (n : Nat) : appendPrefix [] n = PutUvarint (prefixValue n) := by
  simp [appendPrefix]

theorem Decode_nil (dst : List Nat) : Decode dst [] = .ok [] := by
  simp [Decode]

theorem map_zero_take (b : List Nat) (n : Nat) (h : n ≤ b.length) :
    (b.take n).map (fun _ => 0) = List.replicate n 0 := by
  apply List.ext_getElem
  · simp [h]
  · intro i h1 h2
    simp

/-- With the size prefix of a length `n` in front, `Decode` runs the loop over the rest
of the input on a buffer of `n` zeros, whatever buffer it was given. -/
theorem Decode_prefix (b : List Nat) (n : Nat) (h1 : 1 ≤ n) (hn : n < 2 ^ 63)
    (rest : List Nat) :
    Decode b (appendPrefix [] n ++ rest) = decodeFrom (List.replicate n 0) 0 rest := by
  obtain ⟨hp0, hp64, hps⟩ := prefixValue_spec n h1 hn
  have hpos := PutUvarint_length_pos (prefixValue n)
  have hU := Uvarint_PutUvarint (prefixValue n) hp64 rest
  rw [appendPrefix_nil]
  unfold Decode
  rw [if_neg (by rw [List.length_append]; omega), hU]
  simp only []
  rw [if_neg (by omega), hps, if_neg (by omega), Int.toNat_ofNat, List.drop_left' rfl,
    toInt_of_lt _ (by omega) (by exact_mod_cast hn)]
  by_cases hb : (b.length : Int) ≥ (n : Int)
  · have hb2 : n ≤ b.length := by exact_mod_cast hb
    rw [if_pos hb, if_pos hb2, map_zero_take b n hb2]
  · rw [if_neg hb]

theorem endCursor_le (n : Nat) :
    ∀ (src : List Nat) (dn e : Nat), src.length ≤ n →
      endCursor dn e src ≤ dn + 7 * e + src.length := by
  induction n using Nat.strong_induction_on with
  | _ n ih =>
    intro src dn e hn
    by_cases h7 : src.length < 7
    · rw [endCursor_short _ _ _ h7]
      split_ifs <;> omega
    · obtain ⟨b0, b1, b2, b3, b4, b5, b6, rest, rfl⟩ := exists_cons7 src (by omega)
      have hl7 : (b0 :: b1 :: b2 :: b3 :: b4 :: b5 :: b6 :: rest).length
          = rest.length + 7 := rfl
      rw [hl7] at hn ⊢
      by_cases h : byte (b0 ||| b1 ||| b2 ||| b3 ||| b4 ||| b5 ||| b6) = 0
      · rw [endCursor_empty _ _ _ _ _ _ _ _ _ _ h]
        have := ih rest.length (by omega) rest dn (e + 1) (le_refl _)
        omega
      · rw [endCursor_block _ _ _ _ _ _ _ _ _ _ h]
        have := ih rest.length (by omega) rest (dn + 7 * e + 7) 0 (le_refl _)
        omega

/-- What `Decode` makes of the output of `Encode` followed by the bytes `tl`: the buffer
holds the input, and the loop goes on with `tl` at the index `endCursor 0 0 s`. -/
theorem Decode_Encode_tail (b s tl : List Nat) (hs : IsBytes s) (hne : s ≠ [])
    (hlen : s.length < 2 ^ 63) (htl : tl = [] ∨ ∀ x ∈ residual s, x = 0) :
    ∃ e, (∀ dst, Encode dst s = some e) ∧
      Decode b (e ++ tl) = decodeFrom s ((endCursor 0 0 s : Nat) : Int) tl := by
  have hpos : 1 ≤ s.length := List.length_pos.mpr hne
  obtain ⟨F, hF, hD⟩ := encodeLoop_decode s.length s (appendPrefix [] s.length) 0 [] tl
    (le_refl _) hs (by simp only [List.length_nil]; omega) htl
  refine ⟨appendPrefix [] s.length ++ F, fun dst => ?_, ?_⟩
  · rw [Encode_ne_nil dst s hne, hF]
  · simp only [Nat.mul_zero, List.replicate_zero, List.nil_append, List.length_nil,
      Nat.cast_zero] at hD
    rw [List.append_assoc, Decode_prefix b s.length hpos hlen, hD]

/-- Round trip, into any buffer. -/
theorem Decode_Encode (b s : List Nat) (hs : IsBytes s) (hlen : s.length < 2 ^ 63) :
    ∃ e, (∀ dst, Encode dst s = some e) ∧ Decode b e = .ok s := by
  by_cases hne : s = []
  · subst hne
    exact ⟨[], fun dst => Encode_nil dst, Decode_nil b⟩
  · obtain ⟨e, he, hD⟩ := Decode_Encode_tail b s [] hs hne hlen (Or.inl rfl)
    refine ⟨e, he, ?_⟩
    rw [List.append_nil] at hD
    rw [hD, decodeFrom_nil]

/-- One more block at an index less than seven bytes before the end of the buffer is
refused. -/
theorem decodeFrom_overrun (buf : List Nat) (dn : Nat) (t : Nat) (tl : List Nat)
    (ht : 128 ≤ t) (hdn : buf.length < dn + 7) (hlen : dn + 7 < 2 ^ 63) :
    decodeFrom buf dn (t :: tl) = .corrupt := by
  have hh : LeadingZeros8 (at_ (t :: tl) 0) = 0 := by
    simp only [at_, List.getD_cons_zero]
    unfold LeadingZeros8
    rw [if_pos ht]
  apply decodeFrom_halt _ _ _ (by simp)
  rw [decodeFrame_0 _ _ _ hh, if_pos]
  rw [toInt_of_lt _ (by omega) (by omega)]
  omega

/-! ## Where the frames of an encoding end -/

theorem lastBlock_cons7 (b0 b1 b2 b3 b4 b5 b6 : Nat) (rest : List Nat) :
    lastBlock (b0 :: b1 :: b2 :: b3 :: b4 :: b5 :: b6 :: rest)
      = if rest.length < 7 then [b0, b1, b2, b3, b4, b5, b6] else lastBlock rest := by
  rw [lastBlock]

/-- The residual is what follows the last full block. -/
theorem residual_eq_drop (n : Nat) :
    ∀ s : List Nat, s.length ≤ n → residual s = s.drop (s.length - s.length % 7) := by
  induction n using Nat.strong_induction_on with
  | _ n ih =>
    intro s hn
    by_cases h7 : s.length < 7
    · rw [residual_short _ h7, Nat.mod_eq_of_lt h7, Nat.sub_self, List.drop_zero]
    · obtain ⟨b0, b1, b2, b3, b4, b5, b6, rest, rfl⟩ := exists_cons7 s (by omega)
      have hl7 : (b0 :: b1 :: b2 :: b3 :: b4 :: b5 :: b6 :: rest).length
          = rest.length + 7 := rfl
      rw [hl7] at hn ⊢
      rw [residual_cons7, ih rest.length (by omega) rest (le_refl _)]
      have e : rest.length + 7 - (rest.length + 7) % 7
          = (rest.length - rest.length % 7) + 7 := by omega
      rw [e]
      rfl

/-- The last full block is the seven bytes before the residual. -/
theorem lastBlock_eq_take (n : Nat) :
    ∀ s : List Nat, s.length ≤ n → 7 ≤ s.length →
      lastBlock s = (s.drop (s.length - s.length % 7 - 7)).take 7 := by
  induction n using Nat.strong_induction_on with
  | _ n ih =>
    intro s hn h7
    obtain ⟨b0, b1, b2, b3, b4, b5, b6, rest, rfl⟩ := exists_cons7 s h7
    have hl7 : (b0 :: b1 :: b2 :: b3 :: b4 :: b5 :: b6 :: rest).length
        = rest.length + 7 := rfl
    rw [hl7] at hn ⊢
    rw [lastBlock_cons7]
    by_cases hr : rest.length < 7
    · rw [if_pos hr]
      have e : rest.length + 7 - (rest.length + 7) % 7 - 7 = 0 := by omega
      rw [e]
      rfl
    · rw [if_neg hr, ih rest.length (by omega) rest (le_refl _) (by omega)]
      have e : rest.length + 7 - (rest.length + 7) % 7 - 7
          = (rest.length - rest.length % 7 - 7) + 7 := by omega
      rw [e]
      rfl

/-- When the residual is zero and the last full block is not, the frames of the encoding
fill the buffer up to less than seven bytes before its end. -/
theorem endCursor_last (n : Nat) :
    ∀ (src : List Nat) (dn e : Nat), src.length ≤ n → 7 ≤ src.length → IsBytes src →
      (∀ b ∈ residual src, b = 0) → (∃ b ∈ lastBlock src, b ≠ 0) →
      dn + 7 * e + src.length < endCursor dn e src + 7 := by
  induction n using Nat.strong_induction_on with
  | _ n ih =>
    intro src dn e hn h7 hb hres hlast
    obtain ⟨b0, b1, b2, b3, b4, b5, b6, rest, rfl⟩ := exists_cons7 src h7
    have hl7 : (b0 :: b1 :: b2 :: b3 :: b4 :: b5 :: b6 :: rest).length
        = rest.length + 7 := rfl
    have hb0 : b0 < 256 := hb b0 (by simp)
    have hb1 : b1 < 256 := hb b1 (by simp)
    have hb2 : b2 < 256 := hb b2 (by simp)
    have hb3 : b3 < 256 := hb b3 (by simp)
    have hb4 : b4 < 256 := hb b4 (by simp)
    have hb5 : b5 < 256 := hb b5 (by simp)
    have hb6 : b6 < 256 := hb b6 (by simp)
    have hbr : IsBytes rest := fun b hm => hb b (by simp [hm])
    rw [hl7] at hn ⊢
    rw [residual_cons7] at hres
    rw [lastBlock_cons7] at hlast
    by_cases hr : rest.length < 7
    · rw [if_pos hr] at hlast
      have h : byte (b0 ||| b1 ||| b2 ||| b3 ||| b4 ||| b5 ||| b6) ≠ 0 := by
        intro h0
        obtain ⟨rfl, rfl, rfl, rfl, rfl, rfl, rfl⟩ :=
          block_zero b0 b1 b2 b3 b4 b5 b6 hb0 hb1 hb2 hb3 hb4 hb5 hb6 h0
        obtain ⟨b, hm, hne⟩ := hlast
        simp at hm
        exact hne hm
      rw [residual_short _ hr] at hres
      have hany : ¬ rest.any (fun b => b != 0) = true := by
        rw [List.any_eq_true]
        rintro ⟨b, hm, hne⟩
        simp [hres b hm] at hne
      rw [endCursor_block _ _ _ _ _ _ _ _ _ _ h, endCursor_short _ _ _ hr, if_neg hany]
      omega
    · rw [if_neg hr] at hlast
      by_cases h : byte (b0 ||| b1 ||| b2 ||| b3 ||| b4 ||| b5 ||| b6) = 0
      · rw [endCursor_empty _ _ _ _ _ _ _ _ _ _ h]
        have := ih rest.length (by omega) rest dn (e + 1) (le_refl _) (by omega) hbr hres hlast
        omega
      · rw [endCursor_block _ _ _ _ _ _ _ _ _ _ h]
        have := ih rest.length (by omega) rest (dn + 7 * e + 7) 0 (le_refl _) (by omega) hbr
          hres hlast
        omega

theorem endCursor_tail (s : List Nat) (hs : IsBytes s)
    (hres : ∀ b ∈ s.drop (s.length - s.length % 7), b = 0)
    (hlast : 7 ≤ s.length → ∃ b ∈ (s.drop (s.length - s.length % 7 - 7)).take 7, b ≠ 0) :
    (∀ b ∈ residual s, b = 0) ∧ s.length < endCursor 0 0 s + 7 := by
  have hres1 : ∀ b ∈ residual s, b = 0 := by
    rw [residual_eq_drop s.length s (le_refl _)]; exact hres
  refine ⟨hres1, ?_⟩
  by_cases h7 : s.length < 7
  · omega
  · have hl := hlast (by omega)
    rw [← lastBlock_eq_take s.length s (le_refl _) (by omega)] at hl
    have := endCursor_last s.length s 0 0 (le_refl _) (by omega) hs hres1 hl
    omega

theorem prefixSize_eq (p : Nat) :
    prefixSize p = if p &&& 1 = 1 then (1 <<< (p >>> 1)) % 2 ^ 64 else p >>> 1 := by
  unfold prefixSize
  simp only []
  by_cases h : p &&& 1 = 1
  · rw [if_pos h, if_pos h]
    by_cases h64 : p >>> 1 < 64
    · rw [if_pos h64]; rfl
    · rw [if_neg h64, Nat.shiftLeft_eq, Nat.one_mul]
      have hd : 2 ^ 64 ∣ 2 ^ (p >>> 1) := Nat.pow_dvd_pow 2 (by omega)
      exact (Nat.mod_eq_zero_of_dvd hd).symm
  · rw [if_neg h, if_neg h]

/-- The loop of the model never runs out of iterations: `Decode` ends with a buffer, with
`ErrCorrupt` or with a panic. -/
theorem Decode_cases (dst src : List Nat) :
    Decode dst src = .corrupt ∨ Decode dst src = .fault ∨
      ∃ out, Decode dst src = .ok out ∧
        (src ≠ [] → out.length = prefixSize (Uvarint src).1) := by
  by_cases hne : src = []
  · subst hne
    exact Or.inr (Or.inr ⟨[], Decode_nil dst, fun h => absurd rfl h⟩)
  · have hl : src.length ≠ 0 := fun h => hne (List.length_eq_zero.mp h)
    unfold Decode
    rw [if_neg hl]
    rcases hU : Uvarint src with ⟨p, sn⟩
    simp only []
    by_cases h1 : sn ≤ 0
    · rw [if_pos h1]; exact Or.inl rfl
    · rw [if_neg h1]
      by_cases h2 : prefixSize p = 0
      · rw [if_pos h2]
        exact Or.inr (Or.inr ⟨[], rfl, fun _ => by rw [h2]; rfl⟩)
      · rw [if_neg h2]
        by_cases h3 : (dst.length : Int) ≥ toInt (prefixSize p)
        · rw [if_pos h3]
          by_cases h4 : prefixSize p ≤ dst.length
          · rw [if_pos h4]
            rcases decodeFrom_cases _ ((dst.take (prefixSize p)).map (fun _ => 0)) 0
              (src.drop sn.toNat) (le_refl _) with h | h | ⟨out, h, ho⟩
            · exact Or.inl h
            · exact Or.inr (Or.inl h)
            · refine Or.inr (Or.inr ⟨out, h, fun _ => ?_⟩)
              rw [ho, List.length_map, List.length_take]
              omega
          · rw [if_neg h4]; exact Or.inr (Or.inl rfl)
        · rw [if_neg h3]
          rcases decodeFrom_cases _ (List.replicate (prefixSize p) 0) 0
            (src.drop sn.toNat) (le_refl _) with h | h | ⟨out, h, ho⟩
          · exact Or.inl h
          · exact Or.inr (Or.inl h)
          · refine Or.inr (Or.inr ⟨out, h, fun _ => ?_⟩)
            rw [ho, List.length_replicate]

theorem Decode_ne_stuck (dst src : List Nat) : Decode dst src ≠ .stuck := by
  rcases Decode_cases dst src with h | h | ⟨out, h, _⟩ <;> rw [h] <;> simp

/-! ## The claims of the specification -/

/-- C1: round trip. For every byte sequence `s` (shorter than `2^63`, as every slice of
Go is), `Encode(nil, s)` returns an encoding, and `Decode(nil, ·)` of that encoding
returns `s` with no error; the encoding of the empty input is empty, and `Decode` of
the empty encoding returns the empty output with no error. -/
theorem round_trip (s : List Nat) (hs : IsBytes s) (hlen : s.length < 2 ^ 63) :
    (∃ e, Encode [] s = some e ∧ Decode [] e = .ok s) ∧
      Encode [] [] = some [] ∧ Decode [] [] = .ok [] := by
  obtain ⟨e, he, hD⟩ := Decode_Encode [] s hs hlen
  exact ⟨⟨e, he [], hD⟩, Encode_nil [], Decode_nil []⟩

theorem round_trip_witness :
    IsBytes [1, 2, 3, 4, 5, 6, 7, 8] ∧ [1, 2, 3, 4, 5, 6, 7, 8].length < 2 ^ 63 ∧
      ((∃ e, Encode [] [1, 2, 3, 4, 5, 6, 7, 8] = some e ∧
          Decode [] e = .ok [1, 2, 3, 4, 5, 6, 7, 8]) ∧
        Encode [] [] = some [] ∧ Decode [] [] = .ok []) :=
  ⟨by decide, by decide, round_trip [1, 2, 3, 4, 5, 6, 7, 8] (by decide) (by decide)⟩

/-- C2, as the code has it: appending the byte `0x80` to `Encode(nil, s)` makes `Decode`
return `ErrCorrupt` for every byte sequence `s` (shorter than `2^63 - 7`) whose last
`len(s) mod 7` bytes are all zero and whose last full block of seven bytes, when there
is one, holds a non-zero byte; the empty `s` is among them. -/
theorem appended_block_rejected (s : List Nat) (hs : IsBytes s)
    (hlen : s.length + 7 < 2 ^ 63)
    (hres : ∀ b ∈ s.drop (s.length - s.length % 7), b = 0)
    (hlast : 7 ≤ s.length → ∃ b ∈ (s.drop (s.length - s.length % 7 - 7)).take 7, b ≠ 0) :
    ∃ e, Encode [] s = some e ∧ Decode [] (e ++ [0x80]) = .corrupt := by
  by_cases hne : s = []
  · subst hne
    exact ⟨[], Encode_nil [], by decide⟩
  · obtain ⟨hres1, hcur⟩ := endCursor_tail s hs hres hlast
    obtain ⟨e, he, hD⟩ := Decode_Encode_tail [] s [0x80] hs hne (by omega) (Or.inr hres1)
    refine ⟨e, he [], ?_⟩
    have hle := endCursor_le s.length s 0 0 (le_refl _)
    rw [hD]
    exact decodeFrom_overrun s _ 0x80 [] (by decide) hcur (by omega)

theorem appended_block_rejected_witness :
    IsBytes [1, 2, 3, 4, 5, 6, 7] ∧ [1, 2, 3, 4, 5, 6, 7].length + 7 < 2 ^ 63 ∧
      (∃ e, Encode [] [1, 2, 3, 4, 5, 6, 7] = some e ∧
        Decode [] (e ++ [0x80]) = .corrupt) :=
  ⟨by decide, by decide,
    appended_block_rejected [1, 2, 3, 4, 5, 6, 7] (by decide) (by decide) (by decide)
      (by decide)⟩

/-- C2 as the specification has it fails: the encoding of seven zero bytes is the size
prefix `0x0E` alone, and with `0x80` appended `Decode` returns the seven zero bytes and no
error. -/
theorem appended_block_accepted :
    Encode [] [0, 0, 0, 0, 0, 0, 0] = some [0x0E] ∧
      Decode [] ([0x0E] ++ [0x80]) = .ok [0, 0, 0, 0, 0, 0, 0] := by
  decide

/-- C3: buffer reuse. For every byte sequence `s` (shorter than `2^63`) and every
destination buffer `b`, whatever it holds and however long it is, so in particular for
one at least as long as `s`, `Decode(b, Encode(nil, s))` returns `s` with no error. -/
theorem reuse_buffer (s b : List Nat) (hs : IsBytes s) (hlen : s.length < 2 ^ 63) :
    ∃ e, Encode [] s = some e ∧ Decode b e = .ok s := by
  obtain ⟨e, he, hD⟩ := Decode_Encode b s hs hlen
  exact ⟨e, he [], hD⟩

theorem reuse_buffer_witness :
    IsBytes [100, 100, 100, 100, 100, 100, 100, 0, 0, 0, 0, 0] ∧
      [100, 100, 100, 100, 100, 100, 100, 0, 0, 0, 0, 0].length < 2 ^ 63 ∧
      ∃ e, Encode [] [100, 100, 100, 100, 100, 100, 100, 0, 0, 0, 0, 0] = some e ∧
        Decode (List.replicate 100 255) e
          = .ok [100, 100, 100, 100, 100, 100, 100, 0, 0, 0, 0, 0] :=
  ⟨by decide, by decide,
    reuse_buffer [100, 100, 100, 100, 100, 100, 100, 0, 0, 0, 0, 0] (List.replicate 100 255)
      (by decide) (by decide)⟩

/-- C4: for every `s` (shorter than `2^63`) and every `dst`, `Encode(dst, s)` returns an
output that is empty if and only if `s` is empty, and that starts with a non-zero byte
when `s` is not empty. -/
theorem encode_empty_iff (dst s : List Nat) (hlen : s.length < 2 ^ 63) :
    ∃ e, Encode dst s = some e ∧ (e.length = 0 ↔ s.length = 0) ∧
      (s ≠ [] → ∃ b rest, e = b :: rest ∧ b ≠ 0) := by
  by_cases hne : s = []
  · subst hne
    exact ⟨[], Encode_nil dst, by simp, fun h => absurd rfl h⟩
  · have hpos : 1 ≤ s.length := List.length_pos.mpr hne
    obtain ⟨F, hF, _⟩ := encodeLoop_frames s.length s 0 (le_refl _)
    obtain ⟨hp0, _, _⟩ := prefixValue_spec s.length hpos hlen
    obtain ⟨b, rest, hb, hb0⟩ := PutUvarint_head (prefixValue s.length) (by omega)
    refine ⟨b :: (rest ++ F), ?_, ?_, fun _ => ⟨b, rest ++ F, rfl, hb0⟩⟩
    · rw [Encode_ne_nil dst s hne, hF, appendPrefix_nil, hb]
      rfl
    · simp only [List.length_cons]
      omega

theorem encode_empty_iff_witness :
    (List.replicate 192 0).length < 2 ^ 63 ∧
      ∃ e, Encode [] (List.replicate 192 0) = some e ∧
        (e.length = 0 ↔ (List.replicate 192 0).length = 0) ∧
        (List.replicate 192 0 ≠ [] → ∃ b rest, e = b :: rest ∧ b ≠ 0) :=
  ⟨by rw [List.length_replicate]; decide,
    encode_empty_iff [] (List.replicate 192 0) (by rw [List.length_replicate]; decide)⟩

/-- C5: size-prefix compactness. For every `N` below `2^63`, `Encode(nil, N zero bytes)`
is the size prefix alone (nothing for `N = 0`), so its length is 0 for `N = 0`, 1 for
`1 ≤ N ≤ 63` and for every power of two `N ≥ 64`, 2 for every other `N` with
`64 < N < 2^13`, and 3 for every other `N` with `2^13 < N < 2^20`. -/
theorem encode_zeros (N : Nat) (hN : N < 2 ^ 63) :
    ∃ e, Encode [] (List.replicate N 0) = some e ∧
      (N = 0 → e = []) ∧ (1 ≤ N → e = appendPrefix [] N) ∧
      (N = 0 → e.length = 0) ∧
      (1 ≤ N → N ≤ 63 → e.length = 1) ∧
      (64 ≤ N → (∃ k, N = 2 ^ k) → e.length = 1) ∧
      (64 < N → N < 2 ^ 13 → (¬ ∃ k, N = 2 ^ k) → e.length = 2) ∧
      (2 ^ 13 < N → N < 2 ^ 20 → (¬ ∃ k, N = 2 ^ k) → e.length = 3) := by
  by_cases h0 : N = 0
  · subst h0
    refine ⟨[], Encode_nil [], fun _ => rfl, fun h => by omega, fun _ => rfl,
      fun h => by omega, fun h => by omega, fun h => by omega, fun h => by omega⟩
  · have hne : List.replicate N 0 ≠ [] := by
      intro h
      have := congrArg List.length h
      simp at this
      exact h0 this
    refine ⟨appendPrefix [] N, ?_, fun h => absurd h h0, fun _ => rfl, fun h => absurd h h0,
      ?_, ?_, ?_, ?_⟩
    · rw [Encode_ne_nil [] _ hne, List.length_replicate, encodeLoop_zeros]
    · intro h1 h63
      rw [appendPrefix_nil, prefixValue_lit N hN (Or.inl (by omega))]
      exact PutUvarint_length_1 _ (by omega)
    · rintro h64 ⟨k, rfl⟩
      have hk6 : 6 ≤ k := by
        by_contra hc
        have : 2 ^ k ≤ 2 ^ 5 := Nat.pow_le_pow_right (by decide) (by omega)
        omega
      have hk63 : k < 63 := (Nat.pow_lt_pow_iff_right (by decide)).mp hN
      rw [appendPrefix_nil, prefixValue_pow k hk6 (by omega)]
      exact PutUvarint_length_1 _ (by omega)
    · intro h64 h13 hp
      rw [appendPrefix_nil, prefixValue_lit N hN (Or.inr hp)]
      exact PutUvarint_length_2 _ (by omega) (by omega)
    · intro h13 h20 hp
      rw [appendPrefix_nil, prefixValue_lit N hN (Or.inr hp)]
      exact PutUvarint_length_3 _ (by omega) (by omega)

theorem encode_zeros_witness :
    65 < 2 ^ 63 ∧
      ∃ e, Encode [] (List.replicate 65 0) = some e ∧
        (65 = 0 → e = []) ∧ (1 ≤ 65 → e = appendPrefix [] 65) ∧
        (65 = 0 → e.length = 0) ∧
        (1 ≤ 65 → 65 ≤ 63 → e.length = 1) ∧
        (64 ≤ 65 → (∃ k, 65 = 2 ^ k) → e.length = 1) ∧
        (64 < 65 → 65 < 2 ^ 13 → (¬ ∃ k, 65 = 2 ^ k) → e.length = 2) ∧
        (2 ^ 13 < 65 → 65 < 2 ^ 20 → (¬ ∃ k, 65 = 2 ^ k) → e.length = 3) :=
  ⟨by decide, encode_zeros 65 (by decide)⟩

/-- C6: for every non-empty `src` and every `dst`, if `Decode(dst, src)` returns no error
then the length of the returned buffer is the size field of the prefix: with `p` the
first LEB128 integer of `src`, it is `p >> 1`, replaced by `1 << (p >> 1)` in 64-bit
arithmetic when bit 0 of `p` is set. -/
theorem decode_length (dst src out : List Nat) (hne : src ≠ [])
    (h : Decode dst src = .ok out) :
    out.length = (if (Uvarint src).1 &&& 1 = 1 then (1 <<< ((Uvarint src).1 >>> 1)) % 2 ^ 64
      else (Uvarint src).1 >>> 1) := by
  rw [← prefixSize_eq]
  rcases Decode_cases dst src with h1 | h1 | ⟨o, h1, ho⟩
  · rw [h1] at h; exact absurd h (by simp)
  · rw [h1] at h; exact absurd h (by simp)
  · rw [h1] at h
    have : o = out := by simpa using h
    subst this
    exact ho hne

theorem decode_length_witness :
    [0x0E, 0x80] ≠ [] ∧ Decode [] [0x0E, 0x80] = .ok [0, 0, 0, 0, 0, 0, 0] ∧
      [0, 0, 0, 0, 0, 0, 0].length
        = (if (Uvarint [0x0E, 0x80]).1 &&& 1 = 1
            then (1 <<< ((Uvarint [0x0E, 0x80]).1 >>> 1)) % 2 ^ 64
          else (Uvarint [0x0E, 0x80]).1 >>> 1) :=
  ⟨by decide, by decide,
    decode_length [] [0x0E, 0x80] [0, 0, 0, 0, 0, 0, 0] (by decide) (by decide)⟩

/-- C7 fails on the code: `Decode` panics on the prefix `0x7F`, which is in exponent form
with the exponent 63, so that `int(size)` is negative and `dst[:size]` is out of range;
and it panics on an empty-run frame whose run length is `2^63`, for which
`7 + int(v)*7` wraps around to a negative write index, at the next frame. -/
theorem decode_panics :
    Decode [] [0x7F] = .fault ∧
      Decode [] [0x0E, 0x00, 0x80, 0x80, 0x80, 0x80, 0x80, 0x80, 0x80, 0x80, 0x80, 0x01, 0x80]
        = .fault := by
  decide

/-- C8 fails on the code in its last part: the empty-run frame of the run length
`2^64 - 2` would move the write index far past the size 7, but `7 + int(v)*7` wraps
around to `-7`, the check `dn > len(dst)` passes and `Decode` returns a buffer and no
error. -/
theorem decode_accepts_long_run :
    Decode [] [0x0E, 0x00, 0xFE, 0xFF, 0xFF, 0xFF, 0xFF, 0xFF, 0xFF, 0xFF, 0xFF, 0x01]
      = .ok [0, 0, 0, 0, 0, 0, 0] := by
  decide

/-- C9, as the code has it: for every non-empty `src` whose first LEB128 integer fails to
parse or is zero, `Decode(dst, src)` returns `ErrCorrupt` when the parse fails, and the
empty output with no error when the integer is zero. -/
theorem decode_reserved_prefix (dst src : List Nat) (hne : src ≠ [])
    (h : (Uvarint src).2 ≤ 0 ∨ (Uvarint src).1 = 0) :
    Decode dst src = if (Uvarint src).2 ≤ 0 then .corrupt else .ok [] := by
  have hl : src.length ≠ 0 := fun h => hne (List.length_eq_zero.mp h)
  unfold Decode
  rw [if_neg hl]
  rcases hU : Uvarint src with ⟨p, sn⟩
  rw [hU] at h
  simp only [] at h ⊢
  by_cases h1 : sn ≤ 0
  · rw [if_pos h1, if_pos h1]
  · rw [if_neg h1, if_neg h1]
    rcases h with h | h
    · exact absurd h h1
    · subst h
      rfl

theorem decode_reserved_prefix_witness :
    [0x00, 0x80] ≠ [] ∧ ((Uvarint [0x00, 0x80]).2 ≤ 0 ∨ (Uvarint [0x00, 0x80]).1 = 0) ∧
      Decode [] [0x00, 0x80] = if (Uvarint [0x00, 0x80]).2 ≤ 0 then .corrupt else .ok [] :=
  ⟨by decide, by decide, decode_reserved_prefix [] [0x00, 0x80] (by decide) (by decide)⟩

/-- C9 as the specification has it fails: `Decode` accepts the prefix zero, returning
the empty output with no error, for `[0x00]` and for `[0x00, 0x80]`. -/
theorem decode_accepts_zero_prefix :
    Decode [] [0x00] = .ok [] ∧ Decode [] [0x00, 0x80] = .ok [] := by
  decide

/-- C10, as the code has it: at an empty-run frame (tag `0x00`) whose LEB128 payload
fails to parse the loop of `Decode` ends with `ErrCorrupt`; a payload of zero is taken
as a run of one empty block, which moves the write index by seven bytes and is refused
only when that passes the end of the buffer. -/
theorem empty_run_payload (dst : List Nat) (dn : Int) (rest : List Nat) :
    ((Uvarint rest).2 ≤ 0 → decodeFrom dst dn (0 :: rest) = .corrupt) ∧
      decodeFrame dst dn (0 :: 0 :: rest)
        = if toInt (dn + 7) > dst.length then .halt .corrupt
          else .next dst (toInt (dn + 7)) rest := by
  have hh : ∀ r : List Nat, LeadingZeros8 (at_ (0 :: r) 0) = 8 := fun r => by
    simp only [at_, List.getD_cons_zero]; decide
  constructor
  · intro h
    apply decodeFrom_halt _ _ _ (by simp)
    rw [decodeFrame_8 _ _ _ (hh rest)]
    simp only [List.drop_succ_cons, List.drop_zero]
    rcases hU : Uvarint rest with ⟨v, n⟩
    rw [hU] at h
    simp only [] at h ⊢
    rw [if_pos h]
  · rw [decodeFrame_8 _ _ _ (hh _)]
    simp only [List.drop_succ_cons, List.drop_zero]
    have hU : Uvarint (0 :: rest) = (0, 1) := by
      simp [Uvarint, uvarintLoop, uint64]
    rw [hU]
    simp only []
    have e : toInt (7 + toInt (toInt ((0 : Nat) : Int) * 7)) = 7 := by decide
    rw [if_neg (by decide), e]
    rfl

/-- C10 as the specification has it fails: after the prefix of the size 7, the
empty-run frame `0x00 0x00` with the payload zero is accepted, and `Decode` returns
seven zero bytes and no error. -/
theorem decode_accepts_zero_run :
    Decode [] [0x0E, 0x00, 0x00] = .ok [0, 0, 0, 0, 0, 0, 0] := by
  decide

/-! ## The layout of the frames -/

theorem bigEndian_length (n v : Nat) : (bigEndian n v).length = n := by
  induction n with
  | zero => rfl
  | succ n ih => rw [bigEndian, List.length_cons, ih]

set_option maxHeartbeats 1000000 in
theorem packed_w1 (b0 b1 b2 b3 b4 b5 b6 sum : Nat)
    (h0 : b0 < 2) (h1 : b1 < 2) (h2 : b2 < 2) (h3 : b3 < 2)
    (h4 : b4 < 2) (h5 : b5 < 2) (h6 : b6 < 2) (hs : LeadingZeros8 sum = 7) :
    encodeBlock [] b0 b1 b2 b3 b4 b5 b6 sum
        = bigEndian 1 ((1 <<< 7) ||| b0 ||| (b1 <<< 1) ||| (b2 <<< 2) ||| (b3 <<< 3) ||| (b4 <<< 4) ||| (b5 <<< 5) ||| (b6 <<< 6)) ∧
      LeadingZeros8 (at_ (encodeBlock [] b0 b1 b2 b3 b4 b5 b6 sum) 0) = 0 := by
  have hv := pack_eq 1 b0 b1 b2 b3 b4 b5 b6 h0 h1 h2 h3 h4 h5 h6
  have hV : packValue 1 b0 b1 b2 b3 b4 b5 b6 =
      b0 + b1 * 2 + b2 * 4 + b3 * 8 + b4 * 16 + b5 * 32 + b6 * 64 + 128 := by
    simp [packValue]
  rw [encodeBlock_7 _ _ _ _ _ _ _ _ _ hs]
  rw [show byte (b1 <<< 1) = b1 <<< 1 from trunc_shl0 8 1 b1 1 h1 (by decide),
    show byte (b2 <<< 2) = b2 <<< 2 from trunc_shl0 8 1 b2 2 h2 (by decide),
    show byte (b3 <<< 3) = b3 <<< 3 from trunc_shl0 8 1 b3 3 h3 (by decide),
    show byte (b4 <<< 4) = b4 <<< 4 from trunc_shl0 8 1 b4 4 h4 (by decide),
    show byte (b5 <<< 5) = b5 <<< 5 from trunc_shl0 8 1 b5 5 h5 (by decide),
    show byte (b6 <<< 6) = b6 <<< 6 from trunc_shl0 8 1 b6 6 h6 (by decide)]
  refine ⟨?_, ?_⟩
  · simp only [bigEndian, List.nil_append, Nat.reduceMul, Nat.shiftRight_zero]
  · simp only [List.nil_append, at_, List.getD_cons_zero]
    rw [hv, hV]
    obtain ⟨V, hX⟩ : ∃ V, b0 + b1 * 2 + b2 * 4 + b3 * 8 + b4 * 16 + b5 * 32 + b6 * 64 + 128 = V := ⟨_, rfl⟩
    rw [hX]
    simp only [LeadingZeros8, byte]
    split_ifs <;> omega

set_option maxHeartbeats 1000000 in
theorem packed_w2 (b0 b1 b2 b3 b4 b5 b6 sum : Nat)
    (h0 : b0 < 4) (h1 : b1 < 4) (h2 : b2 < 4) (h3 : b3 < 4)
    (h4 : b4 < 4) (h5 : b5 < 4) (h6 : b6 < 4) (hs : LeadingZeros8 sum = 6) :
    encodeBlock [] b0 b1 b2 b3 b4 b5 b6 sum
        = bigEndian 2 ((1 <<< 14) ||| b0 ||| (b1 <<< 2) ||| (b2 <<< 4) ||| (b3 <<< 6) ||| (b4 <<< 8) ||| (b5 <<< 10) ||| (b6 <<< 12)) ∧
      LeadingZeros8 (at_ (encodeBlock [] b0 b1 b2 b3 b4 b5 b6 sum) 0) = 1 := by
  have hv := pack_eq 2 b0 b1 b2 b3 b4 b5 b6 h0 h1 h2 h3 h4 h5 h6
  have hV : packValue 2 b0 b1 b2 b3 b4 b5 b6 =
      b0 + b1 * 4 + b2 * 16 + b3 * 64 + b4 * 256 + b5 * 1024 + b6 * 4096 + 16384 := by
    simp [packValue]
  rw [encodeBlock_6 _ _ _ _ _ _ _ _ _ hs]
  rw [show uint16 b0 = b0 from Nat.mod_eq_of_lt (by omega),
    show uint16 (uint16 b1 <<< 2) = b1 <<< 2 from trunc_shl 16 2 b1 2 h1 (by decide),
    show uint16 (uint16 b2 <<< 4) = b2 <<< 4 from trunc_shl 16 2 b2 4 h2 (by decide),
    show uint16 (uint16 b3 <<< 6) = b3 <<< 6 from trunc_shl 16 2 b3 6 h3 (by decide),
    show uint16 (uint16 b4 <<< 8) = b4 <<< 8 from trunc_shl 16 2 b4 8 h4 (by decide),
    show uint16 (uint16 b5 <<< 10) = b5 <<< 10 from trunc_shl 16 2 b5 10 h5 (by decide),
    show uint16 (uint16 b6 <<< 12) = b6 <<< 12 from trunc_shl 16 2 b6 12 h6 (by decide)]
  refine ⟨?_, ?_⟩
  · simp only [bigEndian, List.nil_append, Nat.reduceMul, Nat.shiftRight_zero]
  · simp only [List.nil_append, at_, List.getD_cons_zero]
    rw [hv, hV]
    obtain ⟨V, hX⟩ : ∃ V, b0 + b1 * 4 + b2 * 16 + b3 * 64 + b4 * 256 + b5 * 1024 + b6 * 4096 + 16384 = V := ⟨_, rfl⟩
    rw [hX]
    simp only [LeadingZeros8, byte, Nat.shiftRight_eq_div_pow, Nat.reducePow]
    split_ifs <;> omega

set_option maxHeartbeats 1000000 in
theorem packed_w3 (b0 b1 b2 b3 b4 b5 b6 sum : Nat)
    (h0 : b0 < 8) (h1 : b1 < 8) (h2 : b2 < 8) (h3 : b3 < 8)
    (h4 : b4 < 8) (h5 : b5 < 8) (h6 : b6 < 8) (hs : LeadingZeros8 sum = 5) :
    encodeBlock [] b0 b1 b2 b3 b4 b5 b6 sum
        = bigEndian 3 ((1 <<< 21) ||| b0 ||| (b1 <<< 3) ||| (b2 <<< 6) ||| (b3 <<< 9) ||| (b4 <<< 12) ||| (b5 <<< 15) ||| (b6 <<< 18)) ∧
      LeadingZeros8 (at_ (encodeBlock [] b0 b1 b2 b3 b4 b5 b6 sum) 0) = 2 := by
  have hv := pack_eq 3 b0 b1 b2 b3 b4 b5 b6 h0 h1 h2 h3 h4 h5 h6
  have hV : packValue 3 b0 b1 b2 b3 b4 b5 b6 =
      b0 + b1 * 8 + b2 * 64 + b3 * 512 + b4 * 4096 + b5 * 32768 + b6 * 262144 + 2097152 := by
    simp [packValue]
  rw [encodeBlock_5 _ _ _ _ _ _ _ _ _ hs]
  rw [show uint32 b0 = b0 from Nat.mod_eq_of_lt (by omega),
    show uint32 (uint32 b1 <<< 3) = b1 <<< 3 from trunc_shl 32 3 b1 3 h1 (by decide),
    show uint32 (uint32 b2 <<< 6) = b2 <<< 6 from trunc_shl 32 3 b2 6 h2 (by decide),
    show uint32 (uint32 b3 <<< 9) = b3 <<< 9 from trunc_shl 32 3 b3 9 h3 (by decide),
    show uint32 (uint32 b4 <<< 12) = b4 <<< 12 from trunc_shl 32 3 b4 12 h4 (by decide),
    show uint32 (uint32 b5 <<< 15) = b5 <<< 15 from trunc_shl 32 3 b5 15 h5 (by decide),
    show uint32 (uint32 b6 <<< 18) = b6 <<< 18 from trunc_shl 32 3 b6 18 h6 (by decide)]
  refine ⟨?_, ?_⟩
  · simp only [bigEndian, List.nil_append, Nat.reduceMul, Nat.shiftRight_zero]
  · simp only [List.nil_append, at_, List.getD_cons_zero]
    rw [hv, hV]
    obtain ⟨V, hX⟩ : ∃ V, b0 + b1 * 8 + b2 * 64 + b3 * 512 + b4 * 4096 + b5 * 32768 + b6 * 262144 + 2097152 = V := ⟨_, rfl⟩
    rw [hX]
    simp only [LeadingZeros8, byte, Nat.shiftRight_eq_div_pow, Nat.reducePow]
    split_ifs <;> omega

set_option maxHeartbeats 1000000 in
theorem packed_w4 (b0 b1 b2 b3 b4 b5 b6 sum : Nat)
    (h0 : b0 < 16) (h1 : b1 < 16) (h2 : b2 < 16) (h3 : b3 < 16)
    (h4 : b4 < 16) (h5 : b5 < 16) (h6 : b6 < 16) (hs : LeadingZeros8 sum = 4) :
    encodeBlock [] b0 b1 b2 b3 b4 b5 b6 sum
        = bigEndian 4 ((1 <<< 28) ||| b0 ||| (b1 <<< 4) ||| (b2 <<< 8) ||| (b3 <<< 12) ||| (b4 <<< 16) ||| (b5 <<< 20) ||| (b6 <<< 24)) ∧
      LeadingZeros8 (at_ (encodeBlock [] b0 b1 b2 b3 b4 b5 b6 sum) 0) = 3 := by
  have hv := pack_eq 4 b0 b1 b2 b3 b4 b5 b6 h0 h1 h2 h3 h4 h5 h6
  have hV : packValue 4 b0 b1 b2 b3 b4 b5 b6 =
      b0 + b1 * 16 + b2 * 256 + b3 * 4096 + b4 * 65536 + b5 * 1048576 + b6 * 16777216 + 268435456 := by
    simp [packValue]
  rw [encodeBlock_4 _ _ _ _ _ _ _ _ _ hs]
  rw [show uint32 b0 = b0 from Nat.mod_eq_of_lt (by omega),
    show uint32 (uint32 b1 <<< 4) = b1 <<< 4 from trunc_shl 32 4 b1 4 h1 (by decide),
    show uint32 (uint32 b2 <<< 8) = b2 <<< 8 from trunc_shl 32 4 b2 8 h2 (by decide),
    show uint32 (uint32 b3 <<< 12) = b3 <<< 12 from trunc_shl 32 4 b3 12 h3 (by decide),
    show uint32 (uint32 b4 <<< 16) = b4 <<< 16 from trunc_shl 32 4 b4 16 h4 (by decide),
    show uint32 (uint32 b5 <<< 20) = b5 <<< 20 from trunc_shl 32 4 b5 20 h5 (by decide),
    show uint32 (uint32 b6 <<< 24) = b6 <<< 24 from trunc_shl 32 4 b6 24 h6 (by decide)]
  refine ⟨?_, ?_⟩
  · simp only [bigEndian, List.nil_append, Nat.reduceMul, Nat.shiftRight_zero]
  · simp only [List.nil_append, at_, List.getD_cons_zero]
    rw [hv, hV]
    obtain ⟨V, hX⟩ : ∃ V, b0 + b1 * 16 + b2 * 256 + b3 * 4096 + b4 * 65536 + b5 * 1048576 + b6 * 16777216 + 268435456 = V := ⟨_, rfl⟩
    rw [hX]
    simp only [LeadingZeros8, byte, Nat.shiftRight_eq_div_pow, Nat.reducePow]
    split_ifs <;> omega

set_option maxHeartbeats 1000000 in
theorem packed_w5 (b0 b1 b2 b3 b4 b5 b6 sum : Nat)
    (h0 : b0 < 32) (h1 : b1 < 32) (h2 : b2 < 32) (h3 : b3 < 32)
    (h4 : b4 < 32) (h5 : b5 < 32) (h6 : b6 < 32) (hs : LeadingZeros8 sum = 3) :
    encodeBlock [] b0 b1 b2 b3 b4 b5 b6 sum
        = bigEndian 5 ((1 <<< 35) ||| b0 ||| (b1 <<< 5) ||| (b2 <<< 10) ||| (b3 <<< 15) ||| (b4 <<< 20) ||| (b5 <<< 25) ||| (b6 <<< 30)) ∧
      LeadingZeros8 (at_ (encodeBlock [] b0 b1 b2 b3 b4 b5 b6 sum) 0) = 4 := by
  have hv := pack_eq 5 b0 b1 b2 b3 b4 b5 b6 h0 h1 h2 h3 h4 h5 h6
  have hV : packValue 5 b0 b1 b2 b3 b4 b5 b6 =
      b0 + b1 * 32 + b2 * 1024 + b3 * 32768 + b4 * 1048576 + b5 * 33554432 + b6 * 1073741824 + 34359738368 := by
    simp [packValue]
  rw [encodeBlock_3 _ _ _ _ _ _ _ _ _ hs]
  rw [show uint64 b0 = b0 from Nat.mod_eq_of_lt (by omega),
    show uint64 (uint64 b1 <<< 5) = b1 <<< 5 from trunc_shl 64 5 b1 5 h1 (by decide),
    show uint64 (uint64 b2 <<< 10) = b2 <<< 10 from trunc_shl 64 5 b2 10 h2 (by decide),
    show uint64 (uint64 b3 <<< 15) = b3 <<< 15 from trunc_shl 64 5 b3 15 h3 (by decide),
    show uint64 (uint64 b4 <<< 20) = b4 <<< 20 from trunc_shl 64 5 b4 20 h4 (by decide),
    show uint64 (uint64 b5 <<< 25) = b5 <<< 25 from trunc_shl 64 5 b5 25 h5 (by decide),
    show uint64 (uint64 b6 <<< 30) = b6 <<< 30 from trunc_shl 64 5 b6 30 h6 (by decide)]
  refine ⟨?_, ?_⟩
  · simp only [bigEndian, List.nil_append, Nat.reduceMul, Nat.shiftRight_zero]
  · simp only [List.nil_append, at_, List.getD_cons_zero]
    rw [hv, hV]
    obtain ⟨V, hX⟩ : ∃ V, b0 + b1 * 32 + b2 * 1024 + b3 * 32768 + b4 * 1048576 + b5 * 33554432 + b6 * 1073741824 + 34359738368 = V := ⟨_, rfl⟩
    rw [hX]
    simp only [LeadingZeros8, byte, Nat.shiftRight_eq_div_pow, Nat.reducePow]
    split_ifs <;> omega

set_option maxHeartbeats 1000000 in
theorem packed_w6 (b0 b1 b2 b3 b4 b5 b6 sum : Nat)
    (h0 : b0 < 64) (h1 : b1 < 64) (h2 : b2 < 64) (h3 : b3 < 64)
    (h4 : b4 < 64) (h5 : b5 < 64) (h6 : b6 < 64) (hs : LeadingZeros8 sum = 2) :
    encodeBlock [] b0 b1 b2 b3 b4 b5 b6 sum
        = bigEndian 6 ((1 <<< 42) ||| b0 ||| (b1 <<< 6) ||| (b2 <<< 12) ||| (b3 <<< 18) ||| (b4 <<< 24) ||| (b5 <<< 30) ||| (b6 <<< 36)) ∧
      LeadingZeros8 (at_ (encodeBlock [] b0 b1 b2 b3 b4 b5 b6 sum) 0) = 5 := by
  have hv := pack_eq 6 b0 b1 b2 b3 b4 b5 b6 h0 h1 h2 h3 h4 h5 h6
  have hV : packValue 6 b0 b1 b2 b3 b4 b5 b6 =
      b0 + b1 * 64 + b2 * 4096 + b3 * 262144 + b4 * 16777216 + b5 * 1073741824 + b6 * 68719476736 + 4398046511104 := by
    simp [packValue]
  rw [encodeBlock_2 _ _ _ _ _ _ _ _ _ hs]
  rw [show uint64 b0 = b0 from Nat.mod_eq_of_lt (by omega),
    show uint64 (uint64 b1 <<< 6) = b1 <<< 6 from trunc_shl 64 6 b1 6 h1 (by decide),
    show uint64 (uint64 b2 <<< 12) = b2 <<< 12 from trunc_shl 64 6 b2 12 h2 (by decide),
    show uint64 (uint64 b3 <<< 18) = b3 <<< 18 from trunc_shl 64 6 b3 18 h3 (by decide),
    show uint64 (uint64 b4 <<< 24) = b4 <<< 24 from trunc_shl 64 6 b4 24 h4 (by decide),
    show uint64 (uint64 b5 <<< 30) = b5 <<< 30 from trunc_shl 64 6 b5 30 h5 (by decide),
    show uint64 (uint64 b6 <<< 36) = b6 <<< 36 from trunc_shl 64 6 b6 36 h6 (by decide)]
  refine ⟨?_, ?_⟩
  · simp only [bigEndian, List.nil_append, Nat.reduceMul, Nat.shiftRight_zero]
  · simp only [List.nil_append, at_, List.getD_cons_zero]
    rw [hv, hV]
    obtain ⟨V, hX⟩ : ∃ V, b0 + b1 * 64 + b2 * 4096 + b3 * 262144 + b4 * 16777216 + b5 * 1073741824 + b6 * 68719476736 + 4398046511104 = V := ⟨_, rfl⟩
    rw [hX]
    simp only [LeadingZeros8, byte, Nat.shiftRight_eq_div_pow, Nat.reducePow]
    split_ifs <;> omega

set_option maxHeartbeats 1000000 in
theorem packed_w7 (b0 b1 b2 b3 b4 b5 b6 sum : Nat)
    (h0 : b0 < 128) (h1 : b1 < 128) (h2 : b2 < 128) (h3 : b3 < 128)
    (h4 : b4 < 128) (h5 : b5 < 128) (h6 : b6 < 128) (hs : LeadingZeros8 sum = 1) :
    encodeBlock [] b0 b1 b2 b3 b4 b5 b6 sum
        = bigEndian 7 ((1 <<< 49) ||| b0 ||| (b1 <<< 7) ||| (b2 <<< 14) ||| (b3 <<< 21) ||| (b4 <<< 28) ||| (b5 <<< 35) ||| (b6 <<< 42)) ∧
      LeadingZeros8 (at_ (encodeBlock [] b0 b1 b2 b3 b4 b5 b6 sum) 0) = 6 := by
  have hv := pack_eq 7 b0 b1 b2 b3 b4 b5 b6 h0 h1 h2 h3 h4 h5 h6
  have hV : packValue 7 b0 b1 b2 b3 b4 b5 b6 =
      b0 + b1 * 128 + b2 * 16384 + b3 * 2097152 + b4 * 268435456 + b5 * 34359738368 + b6 * 4398046511104 + 562949953421312 := by
    simp [packValue]
  rw [encodeBlock_1 _ _ _ _ _ _ _ _ _ hs]
  rw [show uint64 b0 = b0 from Nat.mod_eq_of_lt (by omega),
    show uint64 (uint64 b1 <<< 7) = b1 <<< 7 from trunc_shl 64 7 b1 7 h1 (by decide),
    show uint64 (uint64 b2 <<< 14) = b2 <<< 14 from trunc_shl 64 7 b2 14 h2 (by decide),
    show uint64 (uint64 b3 <<< 21) = b3 <<< 21 from trunc_shl 64 7 b3 21 h3 (by decide),
    show uint64 (uint64 b4 <<< 28) = b4 <<< 28 from trunc_shl 64 7 b4 28 h4 (by decide),
    show uint64 (uint64 b5 <<< 35) = b5 <<< 35 from trunc_shl 64 7 b5 35 h5 (by decide),
    show uint64 (uint64 b6 <<< 42) = b6 <<< 42 from trunc_shl 64 7 b6 42 h6 (by decide)]
  refine ⟨?_, ?_⟩
  · simp only [bigEndian, List.nil_append, Nat.reduceMul, Nat.shiftRight_zero]
  · simp only [List.nil_append, at_, List.getD_cons_zero]
    rw [hv, hV]
    obtain ⟨V, hX⟩ : ∃ V, b0 + b1 * 128 + b2 * 16384 + b3 * 2097152 + b4 * 268435456 + b5 * 34359738368 + b6 * 4398046511104 + 562949953421312 = V := ⟨_, rfl⟩
    rw [hX]
    simp only [LeadingZeros8, byte, Nat.shiftRight_eq_div_pow, Nat.reducePow]
    split_ifs <;> omega

/-! ## The shape of a frame and of a step of the decoder -/

theorem byte_land_lt (y w : Nat) : byte (y &&& (2 ^ w - 1)) < 2 ^ w := by
  rw [Nat.and_pow_two_sub_one_eq_mod]
  exact lt_of_le_of_lt (Nat.mod_le _ _) (Nat.mod_lt _ (Nat.two_pow_pos w))

theorem unpack_lt (v w : Nat) : ∀ x ∈ unpack v w (2 ^ w - 1), x < 2 ^ w := by
  intro x hx
  simp only [unpack, List.mem_cons, List.mem_singleton, List.not_mem_nil, or_false] at hx
  rcases hx with rfl | rfl | rfl | rfl | rfl | rfl | rfl <;> exact byte_land_lt _ _

theorem length_pos_of_tag (src : List Nat) (k : Nat) (hk : LeadingZeros8 (at_ src 0) = k)
    (h : k ≤ 7) : 1 ≤ src.length := by
  rcases src with _ | ⟨a, t⟩
  · exfalso
    have : LeadingZeros8 (at_ [] 0) = 8 := by decide
    omega
  · simp

/-- A step of the decoder at a tag byte with `k ≤ 6` leading zeros: it needs `k + 1`
bytes of input and seven bytes of room, and writes a block of seven values below
`2^(k+1)`. -/
theorem decodeFrame_packed (dst : List Nat) (dn : Int) (src : List Nat) (k : Nat)
    (hk : LeadingZeros8 (at_ src 0) = k) (h6 : k ≤ 6) :
    ∃ blk : List Nat, blk.length = 7 ∧ (∀ x ∈ blk, x < 2 ^ (k + 1)) ∧
      decodeFrame dst dn src =
        if src.length < k + 1 ∨ toInt (dn + 7) > dst.length then .halt .corrupt
        else writeBlock dst dn blk src (k + 1) := by
  have hpos := length_pos_of_tag src k hk (by omega)
  interval_cases k
  · refine ⟨unpack (at_ src 0) 1 1, unpack_length _ _ _, unpack_lt _ 1, ?_⟩
    rw [decodeFrame_0 _ _ _ hk]
    by_cases h : toInt (dn + 7) > dst.length
    · rw [if_pos h, if_pos (Or.inr h)]
    · rw [if_neg h, if_neg]
      rintro (h1 | h1)
      · omega
      · exact h h1
  · exact ⟨_, unpack_length _ _ _, unpack_lt _ 2, decodeFrame_1 _ _ _ hk⟩
  · exact ⟨_, unpack_length _ _ _, unpack_lt _ 3, decodeFrame_2 _ _ _ hk⟩
  · exact ⟨_, unpack_length _ _ _, unpack_lt _ 4, decodeFrame_3 _ _ _ hk⟩
  · exact ⟨_, unpack_length _ _ _, unpack_lt _ 5, decodeFrame_4 _ _ _ hk⟩
  · exact ⟨_, unpack_length _ _ _, unpack_lt _ 6, decodeFrame_5 _ _ _ hk⟩
  · exact ⟨_, unpack_length _ _ _, unpack_lt _ 7, decodeFrame_6 _ _ _ hk⟩

/-- A frame for a block that is not empty: the width `w` of the block decides its
layout and the leading zeros of its first byte. -/
theorem encodeBlock_shape (b0 b1 b2 b3 b4 b5 b6 w : Nat)
    (h0 : b0 < 256) (h1 : b1 < 256) (h2 : b2 < 256) (h3 : b3 < 256)
    (h4 : b4 < 256) (h5 : b5 < 256) (h6 : b6 < 256)
    (hsum : byte (b0 ||| b1 ||| b2 ||| b3 ||| b4 ||| b5 ||| b6) ≠ 0)
    (hw : w = 8 - LeadingZeros8 (byte (b0 ||| b1 ||| b2 ||| b3 ||| b4 ||| b5 ||| b6))) :
    (w ≤ 7 →
      encodeBlock [] b0 b1 b2 b3 b4 b5 b6 (byte (b0 ||| b1 ||| b2 ||| b3 ||| b4 ||| b5 ||| b6))
          = bigEndian w ((1 <<< (7 * w)) ||| b0 ||| (b1 <<< w) ||| (b2 <<< (2 * w)) |||
              (b3 <<< (3 * w)) ||| (b4 <<< (4 * w)) ||| (b5 <<< (5 * w)) ||| (b6 <<< (6 * w))) ∧
        LeadingZeros8 (at_ (encodeBlock [] b0 b1 b2 b3 b4 b5 b6
          (byte (b0 ||| b1 ||| b2 ||| b3 ||| b4 ||| b5 ||| b6))) 0) = w - 1) ∧
      (w = 8 →
        encodeBlock [] b0 b1 b2 b3 b4 b5 b6 (byte (b0 ||| b1 ||| b2 ||| b3 ||| b4 ||| b5 ||| b6))
          = 1 :: [b0, b1, b2, b3, b4, b5, b6]) ∧
      1 ≤ w ∧ w ≤ 8 := by
  have hS := lor7_lt_256 b0 b1 b2 b3 b4 b5 b6 h0 h1 h2 h3 h4 h5 h6
  rw [byte_of_lt hS] at hsum hw ⊢
  obtain ⟨S, hSe⟩ : ∃ S, b0 ||| b1 ||| b2 ||| b3 ||| b4 ||| b5 ||| b6 = S := ⟨_, rfl⟩
  rw [hSe] at hsum hS hw ⊢
  rcases lz_cases S with h | h | h | h | h | h | h | h | h
  · have hw8 : w = 8 := by omega
    subst hw8
    refine ⟨fun hc => absurd hc (by decide), fun _ => ?_, by decide, by decide⟩
    rw [encodeBlock_0 _ _ _ _ _ _ _ _ _ h]
    rfl
  · have hb : S < 2 ^ 7 := by
      have := lz_bound S (by rw [h]; decide)
      rw [h] at this
      exact this
    rw [← hSe] at hb
    obtain ⟨a0, a1, a2, a3, a4, a5, a6⟩ := lor7_lt 7 _ _ _ _ _ _ _ hb
    have hw7 : w = 7 := by omega
    subst hw7
    exact ⟨fun _ => packed_w7 _ _ _ _ _ _ _ _ a0 a1 a2 a3 a4 a5 a6 h,
      fun hc => absurd hc (by decide), by decide, by decide⟩
  · have hb : S < 2 ^ 6 := by
      have := lz_bound S (by rw [h]; decide)
      rw [h] at this
      exact this
    rw [← hSe] at hb
    obtain ⟨a0, a1, a2, a3, a4, a5, a6⟩ := lor7_lt 6 _ _ _ _ _ _ _ hb
    have hw6 : w = 6 := by omega
    subst hw6
    exact ⟨fun _ => packed_w6 _ _ _ _ _ _ _ _ a0 a1 a2 a3 a4 a5 a6 h,
      fun hc => absurd hc (by decide), by decide, by decide⟩
  · have hb : S < 2 ^ 5 := by
      have := lz_bound S (by rw [h]; decide)
      rw [h] at this
      exact this
    rw [← hSe] at hb
    obtain ⟨a0, a1, a2, a3, a4, a5, a6⟩ := lor7_lt 5 _ _ _ _ _ _ _ hb
    have hw5 : w = 5 := by omega
    subst hw5
    exact ⟨fun _ => packed_w5 _ _ _ _ _ _ _ _ a0 a1 a2 a3 a4 a5 a6 h,
      fun hc => absurd hc (by decide), by decide, by decide⟩
  · have hb : S < 2 ^ 4 := by
      have := lz_bound S (by rw [h]; decide)
      rw [h] at this
      exact this
    rw [← hSe] at hb
    obtain ⟨a0, a1, a2, a3, a4, a5, a6⟩ := lor7_lt 4 _ _ _ _ _ _ _ hb
    have hw4 : w = 4 := by omega
    subst hw4
    exact ⟨fun _ => packed_w4 _ _ _ _ _ _ _ _ a0 a1 a2 a3 a4 a5 a6 h,
      fun hc => absurd hc (by decide), by decide, by decide⟩
  · have hb : S < 2 ^ 3 := by
      have := lz_bound S (by rw [h]; decide)
      rw [h] at this
      exact this
    rw [← hSe] at hb
    obtain ⟨a0, a1, a2, a3, a4, a5, a6⟩ := lor7_lt 3 _ _ _ _ _ _ _ hb
    have hw3 : w = 3 := by omega
    subst hw3
    exact ⟨fun _ => packed_w3 _ _ _ _ _ _ _ _ a0 a1 a2 a3 a4 a5 a6 h,
      fun hc => absurd hc (by decide), by decide, by decide⟩
  · have hb : S < 2 ^ 2 := by
      have := lz_bound S (by rw [h]; decide)
      rw [h] at this
      exact this
    rw [← hSe] at hb
    obtain ⟨a0, a1, a2, a3, a4, a5, a6⟩ := lor7_lt 2 _ _ _ _ _ _ _ hb
    have hw2 : w = 2 := by omega
    subst hw2
    exact ⟨fun _ => packed_w2 _ _ _ _ _ _ _ _ a0 a1 a2 a3 a4 a5 a6 h,
      fun hc => absurd hc (by decide), by decide, by decide⟩
  · have hb : S < 2 ^ 1 := by
      have := lz_bound S (by rw [h]; decide)
      rw [h] at this
      exact this
    rw [← hSe] at hb
    obtain ⟨a0, a1, a2, a3, a4, a5, a6⟩ := lor7_lt 1 _ _ _ _ _ _ _ hb
    have hw1 : w = 1 := by omega
    subst hw1
    exact ⟨fun _ => packed_w1 _ _ _ _ _ _ _ _ a0 a1 a2 a3 a4 a5 a6 h,
      fun hc => absurd hc (by decide), by decide, by decide⟩
  · exfalso
    have := lz_bound S (by rw [h]; decide)
    rw [h] at this
    simp at this
    exact hsum this

/-! ## The claims of the specification, continued -/

theorem shl_lt (x s w n : Nat) (hx : x < 2 ^ w) (hs : s + w ≤ n) : x <<< s < 2 ^ n := by
  have h2 : x * 2 ^ s < 2 ^ w * 2 ^ s := Nat.mul_lt_mul_of_pos_right hx (Nat.two_pow_pos _)
  have h3 : 2 ^ w * 2 ^ s ≤ 2 ^ n := by
    rw [← pow_add]; exact Nat.pow_le_pow_right (by decide) (by omega)
  rw [Nat.shiftLeft_eq]
  omega

/-- The integer of a packed frame of width `w` fits in `w` bytes. -/
theorem pack_lt (w b0 b1 b2 b3 b4 b5 b6 : Nat)
    (h0 : b0 < 2 ^ w) (h1 : b1 < 2 ^ w) (h2 : b2 < 2 ^ w) (h3 : b3 < 2 ^ w)
    (h4 : b4 < 2 ^ w) (h5 : b5 < 2 ^ w) (h6 : b6 < 2 ^ w) (hw : 1 ≤ w) :
    (1 <<< (7 * w)) ||| b0 ||| (b1 <<< w) ||| (b2 <<< (2 * w)) ||| (b3 <<< (3 * w)) |||
      (b4 <<< (4 * w)) ||| (b5 <<< (5 * w)) ||| (b6 <<< (6 * w)) < 2 ^ (8 * w) := by
  have t : 1 <<< (7 * w) < 2 ^ (8 * w) := shl_lt 1 (7 * w) 1 (8 * w) (by decide) (by omega)
  have t0 : b0 < 2 ^ (8 * w) :=
    lt_of_lt_of_le h0 (Nat.pow_le_pow_right (by decide) (by omega))
  have t1 := shl_lt b1 w w (8 * w) h1 (by omega)
  have t2 := shl_lt b2 (2 * w) w (8 * w) h2 (by omega)
  have t3 := shl_lt b3 (3 * w) w (8 * w) h3 (by omega)
  have t4 := shl_lt b4 (4 * w) w (8 * w) h4 (by omega)
  have t5 := shl_lt b5 (5 * w) w (8 * w) h5 (by omega)
  have t6 := shl_lt b6 (6 * w) w (8 * w) h6 (by omega)
  exact Nat.or_lt_two_pow (Nat.or_lt_two_pow (Nat.or_lt_two_pow (Nat.or_lt_two_pow
    (Nat.or_lt_two_pow (Nat.or_lt_two_pow (Nat.or_lt_two_pow t t0) t1) t2) t3) t4) t5) t6

/-- The frame of a pending run of empty blocks: at most eleven bytes, and at most as
long as the blocks it stands for. -/
theorem flushEmpty_frames_le (e : Nat) :
    ∃ F : List Nat, (∀ acc, flushEmpty acc e = some (acc ++ F)) ∧ F.length ≤ 7 * e ∧
      F.length ≤ 11 := by
  by_cases h0 : e = 0
  · subst h0
    exact ⟨[], fun acc => by rw [flushEmpty_zero, List.append_nil], by simp, by simp⟩
  · by_cases h1 : e = 1
    · subst h1
      exact ⟨[128], fun acc => flushEmpty_one acc, by simp, by simp⟩
    · refine ⟨0 :: PutUvarint (uint64 (e - 1)), fun acc => ?_, ?_, ?_⟩
      · unfold flushEmpty encodeEmptyBlocks
        rw [if_pos (by omega), if_neg h1, if_neg h0]
      · have := PutUvarint_length_le (uint64 (e - 1))
        simp only [List.length_cons]
        omega
      · have := PutUvarint_length_le (uint64 (e - 1))
        simp only [List.length_cons]
        omega

/-- C11: the encoder is infallible. For every `src` and `dst`, `Encode(dst, src)` returns
an output; the branch `panic("n is zero")` of `encodeEmptyBlocks` is never taken, as the
encoder calls it under the guard `empty > 0` only, and with a count of at least one it
returns. The blocks of seven bytes are read by pattern matching in the model, as the
loop reads them under `len(src) >= 7`. -/
theorem encode_total (dst src : List Nat) :
    (∃ e, Encode dst src = some e) ∧
      (∀ acc n, flushEmpty acc n ≠ none) ∧
      (∀ acc n, 1 ≤ n → encodeEmptyBlocks acc n ≠ none) := by
  refine ⟨?_, ?_, ?_⟩
  · by_cases hne : src = []
    · subst hne
      exact ⟨[], Encode_nil dst⟩
    · obtain ⟨F, hF, _⟩ := encodeLoop_frames src.length src 0 (le_refl _)
      exact ⟨_, by rw [Encode_ne_nil dst src hne, hF]⟩
  · intro acc n
    obtain ⟨F, hF, _⟩ := flushEmpty_frames n
    rw [hF acc]
    simp
  · intro acc n hn
    unfold encodeEmptyBlocks
    split_ifs <;> first | (exfalso; omega) | simp

/-- C12: the layout of a block frame. For a block `b0..b6` of bytes whose bitwise OR
`sum` is not zero, with `w = 8 - leading_zero_count(sum)`: when `w ≤ 7` the frame is the
big-endian serialisation, in exactly `w = ⌈(1 + 7w)/8⌉` bytes, of
`(1 << 7w) | b0 | b1 << w | ... | b6 << 6w`, an integer below `2^(8w)`; when `w = 8` it
is `0x01` followed by the seven bytes; and this frame is what the loop of `encodeBlocks`
appends for the block. -/
theorem packed_frame (b0 b1 b2 b3 b4 b5 b6 w : Nat)
    (h0 : b0 < 256) (h1 : b1 < 256) (h2 : b2 < 256) (h3 : b3 < 256)
    (h4 : b4 < 256) (h5 : b5 < 256) (h6 : b6 < 256)
    (hsum : byte (b0 ||| b1 ||| b2 ||| b3 ||| b4 ||| b5 ||| b6) ≠ 0)
    (hw : w = 8 - LeadingZeros8 (byte (b0 ||| b1 ||| b2 ||| b3 ||| b4 ||| b5 ||| b6))) :
    (w ≤ 7 →
      encodeBlock [] b0 b1 b2 b3 b4 b5 b6 (byte (b0 ||| b1 ||| b2 ||| b3 ||| b4 ||| b5 ||| b6))
          = bigEndian w ((1 <<< (7 * w)) ||| b0 ||| (b1 <<< w) ||| (b2 <<< (2 * w)) |||
              (b3 <<< (3 * w)) ||| (b4 <<< (4 * w)) ||| (b5 <<< (5 * w)) ||| (b6 <<< (6 * w))) ∧
        (encodeBlock [] b0 b1 b2 b3 b4 b5 b6
          (byte (b0 ||| b1 ||| b2 ||| b3 ||| b4 ||| b5 ||| b6))).length = w ∧
        (1 + 7 * w + 7) / 8 = w ∧
        (1 <<< (7 * w)) ||| b0 ||| (b1 <<< w) ||| (b2 <<< (2 * w)) ||| (b3 <<< (3 * w)) |||
          (b4 <<< (4 * w)) ||| (b5 <<< (5 * w)) ||| (b6 <<< (6 * w)) < 2 ^ (8 * w)) ∧
      (w = 8 →
        encodeBlock [] b0 b1 b2 b3 b4 b5 b6 (byte (b0 ||| b1 ||| b2 ||| b3 ||| b4 ||| b5 ||| b6))
          = 1 :: [b0, b1, b2, b3, b4, b5, b6]) ∧
      (∀ acc rest, encodeLoop acc 0 (b0 :: b1 :: b2 :: b3 :: b4 :: b5 :: b6 :: rest)
        = encodeLoop (acc ++ encodeBlock [] b0 b1 b2 b3 b4 b5 b6
            (byte (b0 ||| b1 ||| b2 ||| b3 ||| b4 ||| b5 ||| b6))) 0 rest) := by
  obtain ⟨hp, hl, hw1, hw8⟩ :=
    encodeBlock_shape b0 b1 b2 b3 b4 b5 b6 w h0 h1 h2 h3 h4 h5 h6 hsum hw
  have hS := lor7_lt_256 b0 b1 b2 b3 b4 b5 b6 h0 h1 h2 h3 h4 h5 h6
  refine ⟨fun h7 => ⟨(hp h7).1, ?_, by omega, ?_⟩, hl, fun acc rest => ?_⟩
  · rw [(hp h7).1, bigEndian_length]
  · have hb := lz_bound _ (show LeadingZeros8
        (byte (b0 ||| b1 ||| b2 ||| b3 ||| b4 ||| b5 ||| b6)) ≠ 0 by omega)
    rw [← hw, byte_of_lt hS] at hb
    obtain ⟨a0, a1, a2, a3, a4, a5, a6⟩ := lor7_lt w _ _ _ _ _ _ _ hb
    exact pack_lt w _ _ _ _ _ _ _ a0 a1 a2 a3 a4 a5 a6 hw1
  · rw [encodeLoop_block _ _ _ _ _ _ _ _ _ _ hsum, flushEmpty_zero]
    simp only []
    rw [encodeBlock_append]

theorem packed_frame_witness :
    (1 : Nat) < 256 ∧ (2 : Nat) < 256 ∧ (3 : Nat) < 256 ∧ (4 : Nat) < 256 ∧ (5 : Nat) < 256 ∧
      (6 : Nat) < 256 ∧ (7 : Nat) < 256 ∧
      byte (1 ||| 2 ||| 3 ||| 4 ||| 5 ||| 6 ||| 7) ≠ 0 ∧
      3 = 8 - LeadingZeros8 (byte (1 ||| 2 ||| 3 ||| 4 ||| 5 ||| 6 ||| 7)) ∧
      encodeBlock [] 1 2 3 4 5 6 7 (byte (1 ||| 2 ||| 3 ||| 4 ||| 5 ||| 6 ||| 7))
        = bigEndian 3 ((1 <<< (7 * 3)) ||| 1 ||| (2 <<< 3) ||| (3 <<< (2 * 3)) |||
            (4 <<< (3 * 3)) ||| (5 <<< (4 * 3)) ||| (6 <<< (5 * 3)) ||| (7 <<< (6 * 3))) :=
  ⟨by decide, by decide, by decide, by decide, by decide, by decide, by decide, by decide,
    by decide,
    ((packed_frame 1 2 3 4 5 6 7 3 (by decide) (by decide) (by decide) (by decide) (by decide)
      (by decide) (by decide) (by decide) (by decide)).1 (by decide)).1⟩

/-- C13: the table of the tag bytes. The frame of a block of width `w ≤ 7` is `w` bytes
long and its first byte has `w - 1` leading zeros; the frame of a block of width 8 and
the frame of a residual start with `0x01`, which has 7 leading zeros; the frame of a run
of two or more empty blocks starts with `0x00`, which has 8, and a single empty block is
written as the byte `0x80`, the frame of a block of width 1. A step of `Decode` at a tag
byte with `k ≤ 6` leading zeros, with `k + 1` bytes of input and seven bytes of room at
hand, takes `k + 1` bytes of input and writes seven values below `2^(k+1)` at the write
index. -/
theorem tag_dispatch :
    (∀ b0 b1 b2 b3 b4 b5 b6 w : Nat, b0 < 256 → b1 < 256 → b2 < 256 → b3 < 256 → b4 < 256 →
      b5 < 256 → b6 < 256 → byte (b0 ||| b1 ||| b2 ||| b3 ||| b4 ||| b5 ||| b6) ≠ 0 →
      w = 8 - LeadingZeros8 (byte (b0 ||| b1 ||| b2 ||| b3 ||| b4 ||| b5 ||| b6)) →
      (w ≤ 7 →
        (encodeBlock [] b0 b1 b2 b3 b4 b5 b6
          (byte (b0 ||| b1 ||| b2 ||| b3 ||| b4 ||| b5 ||| b6))).length = w ∧
        LeadingZeros8 (at_ (encodeBlock [] b0 b1 b2 b3 b4 b5 b6
          (byte (b0 ||| b1 ||| b2 ||| b3 ||| b4 ||| b5 ||| b6))) 0) = w - 1) ∧
      (w = 8 →
        encodeBlock [] b0 b1 b2 b3 b4 b5 b6 (byte (b0 ||| b1 ||| b2 ||| b3 ||| b4 ||| b5 ||| b6))
          = 1 :: [b0, b1, b2, b3, b4, b5, b6])) ∧
    (∀ acc e src, src.any (fun b => b != 0) = true →
      ∃ F, encodeResidual acc e src = some ((acc ++ F) ++ 1 :: src)) ∧
    LeadingZeros8 1 = 7 ∧
    (∀ acc n, 2 ≤ n →
      encodeEmptyBlocks acc n = some (acc ++ 0 :: PutUvarint (uint64 (n - 1)))) ∧
    LeadingZeros8 0 = 8 ∧
    (∀ acc, encodeEmptyBlocks acc 1 = some (acc ++ [0x80])) ∧
    LeadingZeros8 0x80 = 0 ∧
    (∀ (dst : List Nat) (dn : Nat) (src : List Nat) (k : Nat),
      LeadingZeros8 (at_ src 0) = k → k ≤ 6 →
      k + 1 ≤ src.length → dn + 7 ≤ dst.length → dst.length < 2 ^ 63 →
      ∃ blk : List Nat, blk.length = 7 ∧ (∀ x ∈ blk, x < 2 ^ (k + 1)) ∧
        decodeFrame dst dn src
          = .next (dst.take dn ++ blk ++ dst.drop (dn + 7)) ((dn : Int) + 7)
              (src.drop (k + 1))) := by
  refine ⟨?_, ?_, by decide, ?_, by decide, fun acc => rfl, by decide, ?_⟩
  · intro b0 b1 b2 b3 b4 b5 b6 w h0 h1 h2 h3 h4 h5 h6 hsum hw
    obtain ⟨hp, hl, _, _⟩ :=
      encodeBlock_shape b0 b1 b2 b3 b4 b5 b6 w h0 h1 h2 h3 h4 h5 h6 hsum hw
    refine ⟨fun h7 => ⟨?_, (hp h7).2⟩, hl⟩
    rw [(hp h7).1, bigEndian_length]
  · intro acc e src hany
    obtain ⟨F, hF, _⟩ := flushEmpty_frames e
    refine ⟨F, ?_⟩
    unfold encodeResidual
    rw [if_pos hany, hF acc]
    simp only [Option.map_some', List.append_assoc, List.singleton_append]
  · intro acc n hn
    unfold encodeEmptyBlocks
    rw [if_neg (by omega), if_neg (by omega)]
  · intro dst dn src k hk h6 hsrc hdn hlen
    obtain ⟨blk, hb7, hblt, hstep⟩ := decodeFrame_packed dst dn src k hk h6
    refine ⟨blk, hb7, hblt, ?_⟩
    rw [hstep, if_neg, writeBlock_ok dst dn blk src (k + 1) hdn hlen]
    · rfl
    · rw [toInt_of_lt _ (by omega) (by omega)]
      omega

theorem toInt_add7 (dn : Int) (h0 : 0 ≤ dn) (h : dn ≤ toInt (dn + 7)) :
    toInt (dn + 7) = dn + 7 := by
  unfold toInt at h ⊢
  omega

theorem toInt_of_range (x : Int) (h0 : -2 ^ 63 ≤ x) (h : x < 2 ^ 63) : toInt x = x := by
  unfold toInt
  omega

/-- C14, as the code has it: at a tag byte with `lz ≤ 6` leading zeros `Decode` decodes a
block of width `w = lz + 1`. The step returns `ErrCorrupt` when fewer than `w = lz + 1`
bytes of input remain or when `dn + 7` (as an `int`) passes the size; otherwise, when the
write index `dn` is not negative and `dn + 7` does not wrap, it takes exactly `w` bytes of
input and writes seven values below `2^w` at the write index, which moves by seven; and
otherwise, the write index being negative or `dn + 7` wrapping, the slice expression
panics. So with `w` bytes of input and room for seven bytes at an index that is not
negative the step goes on, and at a negative index with `w` bytes of input and `dn + 7`
within the size it panics. Likewise the frame the encoder writes for a block of width
`w ≤ 7` is `w` bytes long, and its tag byte has `w - 1` leading zeros. -/
theorem packed_dispatch (dst : List Nat) (dn : Int) (src : List Nat) (lz : Nat)
    (hk : LeadingZeros8 (at_ src 0) = lz) (h6 : lz ≤ 6) :
    (∃ blk : List Nat, blk.length = 7 ∧ (∀ x ∈ blk, x < 2 ^ (lz + 1)) ∧
      (decodeFrame dst dn src =
        if src.length < lz + 1 ∨ toInt (dn + 7) > dst.length then .halt .corrupt
        else if 0 ≤ dn ∧ dn ≤ toInt (dn + 7) then
          .next (dst.take dn.toNat ++ blk ++ dst.drop (dn.toNat + 7)) (dn + 7)
            (src.drop (lz + 1))
        else .halt .fault) ∧
      (lz + 1 ≤ src.length → 0 ≤ dn → dn + 7 ≤ dst.length → dst.length < 2 ^ 63 →
        decodeFrame dst dn src =
          .next (dst.take dn.toNat ++ blk ++ dst.drop (dn.toNat + 7)) (dn + 7)
            (src.drop (lz + 1))) ∧
      (lz + 1 ≤ src.length → dn < 0 → -2 ^ 63 ≤ dn → dn + 7 ≤ dst.length →
        decodeFrame dst dn src = .halt .fault)) ∧
    (∀ b0 b1 b2 b3 b4 b5 b6 w : Nat, b0 < 256 → b1 < 256 → b2 < 256 → b3 < 256 → b4 < 256 →
      b5 < 256 → b6 < 256 →
      w = 8 - LeadingZeros8 (byte (b0 ||| b1 ||| b2 ||| b3 ||| b4 ||| b5 ||| b6)) →
      1 ≤ w → w ≤ 7 →
      (encodeBlock [] b0 b1 b2 b3 b4 b5 b6
        (byte (b0 ||| b1 ||| b2 ||| b3 ||| b4 ||| b5 ||| b6))).length = w ∧
      LeadingZeros8 (at_ (encodeBlock [] b0 b1 b2 b3 b4 b5 b6
        (byte (b0 ||| b1 ||| b2 ||| b3 ||| b4 ||| b5 ||| b6))) 0) = w - 1) := by
  obtain ⟨blk, hb7, hblt, hstep⟩ := decodeFrame_packed dst dn src lz hk h6
  have heq : decodeFrame dst dn src =
      if src.length < lz + 1 ∨ toInt (dn + 7) > dst.length then .halt .corrupt
      else if 0 ≤ dn ∧ dn ≤ toInt (dn + 7) then
        .next (dst.take dn.toNat ++ blk ++ dst.drop (dn.toNat + 7)) (dn + 7)
          (src.drop (lz + 1))
      else .halt .fault := by
    rw [hstep]
    by_cases hc : src.length < lz + 1 ∨ toInt (dn + 7) > dst.length
    · rw [if_pos hc, if_pos hc]
    · rw [if_neg hc, if_neg hc]
      have hle : toInt (dn + 7) ≤ dst.length := not_lt.mp (fun h => hc (Or.inr h))
      unfold writeBlock
      by_cases h2 : 0 ≤ dn ∧ dn ≤ toInt (dn + 7)
      · rw [if_pos h2, if_pos ⟨h2.1, h2.2, hle⟩, toInt_add7 dn h2.1 h2.2]
      · rw [if_neg h2, if_neg (fun h => h2 ⟨h.1, h.2.1⟩)]
  refine ⟨⟨blk, hb7, hblt, heq, ?_, ?_⟩, ?_⟩
  · intro hsrc h0 hroom hlen
    have e : toInt (dn + 7) = dn + 7 := toInt_of_lt _ (by omega) (by omega)
    rw [heq, e, if_neg (by omega), if_pos (by omega)]
  · intro hsrc hneg hmin hroom
    have e : toInt (dn + 7) = dn + 7 := toInt_of_range _ (by omega) (by omega)
    rw [heq, e, if_neg (by omega), if_neg (by omega)]
  · intro b0 b1 b2 b3 b4 b5 b6 w h0 h1 h2 h3 h4 h5 h6 hw hw1 hw7
    have hsum : byte (b0 ||| b1 ||| b2 ||| b3 ||| b4 ||| b5 ||| b6) ≠ 0 := by
      intro hz
      rw [hz] at hw
      have : LeadingZeros8 0 = 8 := by decide
      omega
    obtain ⟨hp, _, _, _⟩ :=
      encodeBlock_shape b0 b1 b2 b3 b4 b5 b6 w h0 h1 h2 h3 h4 h5 h6 hsum hw
    refine ⟨?_, (hp hw7).2⟩
    rw [(hp hw7).1, bigEndian_length]

theorem packed_dispatch_witness :
    LeadingZeros8 (at_ [0xFF] 0) = 0 ∧ 0 ≤ 6 ∧
      decodeFrame [0, 0, 0, 0, 0, 0, 0] 0 [0xFF] = .next [1, 1, 1, 1, 1, 1, 1] 7 [] ∧
      decodeFrame [0, 0, 0, 0, 0, 0, 0] 0 [] = .halt .corrupt ∧
      decodeFrame [0, 0, 0, 0, 0, 0, 0] 1 [0xFF] = .halt .corrupt ∧
      decodeFrame [0, 0, 0, 0, 0, 0, 0] (-7) [0xFF] = .halt .fault ∧
      ∃ blk : List Nat, blk.length = 7 ∧ (∀ x ∈ blk, x < 2 ^ (0 + 1)) ∧
        (decodeFrame [0, 0, 0, 0, 0, 0, 0] 0 [0xFF] =
          if [0xFF].length < 0 + 1 ∨ toInt (0 + 7) > ([0, 0, 0, 0, 0, 0, 0] : List Nat).length
          then .halt .corrupt
          else if (0 : Int) ≤ 0 ∧ (0 : Int) ≤ toInt (0 + 7) then
            .next (List.take (0 : Int).toNat [0, 0, 0, 0, 0, 0, 0] ++ blk
              ++ List.drop ((0 : Int).toNat + 7) [0, 0, 0, 0, 0, 0, 0]) (0 + 7)
              (List.drop (0 + 1) [0xFF])
          else .halt .fault) :=
  ⟨by decide, by decide, by decide, by decide, by decide, by decide,
    (packed_dispatch [0, 0, 0, 0, 0, 0, 0] 0 [0xFF] 0 (by decide) (by decide)).1.imp
      (fun _ h => ⟨h.1, h.2.1, h.2.2.1⟩)⟩

/-- C14 as the specification has it fails: the tag byte `0xFF` has no leading zero, and
`Decode` decodes it as a block of width 1 that takes one byte of input, not as a block of
width 7 that takes eight, also when eight bytes are there; and the frame of the block
`[1,1,1,1,1,1,1]` of width 1 is one byte long, not two, with no leading zero in its tag
byte, not six. -/
theorem packed_dispatch_counterexample :
    LeadingZeros8 0xFF = 0 ∧
      decodeFrame [0, 0, 0, 0, 0, 0, 0] 0 [0xFF, 1, 2, 3, 4, 5, 6, 7, 9]
        = .next [1, 1, 1, 1, 1, 1, 1] 7 [1, 2, 3, 4, 5, 6, 7, 9] ∧
      Decode [] [0x0E, 0xFF] = .ok [1, 1, 1, 1, 1, 1, 1] ∧
      Encode [] [1, 1, 1, 1, 1, 1, 1] = some [0x0E, 0xFF] := by
  decide

/-- C15 fails on the code: after the prefix of the size 1, the literal frame
`0x01 0x05 0x06` carries two bytes where one byte of room is left; `Decode` copies the
first, drops the second, and returns `[5]` with no error. In the same way the byte
`0x80` after the encoding of `[1,2,3,4,5,6,7,8]`, which ends with the literal frame
`0x01 0x08`, is dropped, and `Decode` returns the eight bytes with no error. -/
theorem literal_truncated :
    Decode [] [0x02, 0x01, 0x05, 0x06] = .ok [5] ∧
      Encode [] [1, 2, 3, 4, 5, 6, 7, 8] = some [0x10, 0x3F, 0x58, 0xD1, 0x01, 0x08] ∧
      Decode [] ([0x10, 0x3F, 0x58, 0xD1, 0x01, 0x08] ++ [0x80])
        = .ok [1, 2, 3, 4, 5, 6, 7, 8] := by
  decide

/-- C16: the prefix layer. For `1 ≤ N < 2^63`, `appendPrefix(nil, N)` is the LEB128
encoding of `p`, where `p = (k << 1) | 1` when `N = 2^k ≥ 64` and `p = N << 1` otherwise;
`p` is not zero; reading the first LEB128 integer of the prefix followed by any bytes
gives `p` and consumes the whole prefix; and the size computed from `p`, which is
`p >> 1`, replaced by `1 << (p >> 1)` when bit 0 of `p` is set, is `N`. -/
theorem prefix_round_trip (N : Nat) (h1 : 1 ≤ N) (hN : N < 2 ^ 63) (rest : List Nat) :
    appendPrefix [] N = PutUvarint (prefixValue N) ∧
      (∀ k, N = 2 ^ k → 64 ≤ N → prefixValue N = (k <<< 1) ||| 1) ∧
      ((N < 64 ∨ ¬ ∃ k, N = 2 ^ k) → prefixValue N = N <<< 1) ∧
      prefixValue N ≠ 0 ∧
      Uvarint (appendPrefix [] N ++ rest)
        = (prefixValue N, ((appendPrefix [] N).length : Int)) ∧
      (if prefixValue N &&& 1 = 1 then (1 <<< (prefixValue N >>> 1)) % 2 ^ 64
        else prefixValue N >>> 1) = N := by
  obtain ⟨hp0, hp64, hps⟩ := prefixValue_spec N h1 hN
  refine ⟨appendPrefix_nil N, ?_, ?_, by omega, ?_, ?_⟩
  · rintro k rfl h64
    have hk6 : 6 ≤ k := by
      by_contra hc
      have : 2 ^ k ≤ 2 ^ 5 := Nat.pow_le_pow_right (by decide) (by omega)
      omega
    have hk63 : k < 63 := (Nat.pow_lt_pow_iff_right (by decide)).mp hN
    rw [prefixValue_pow k hk6 (by omega), Nat.shiftLeft_eq,
      lor_add_of_dvd (k * 2 ^ 1) 1 1 (by omega) (by decide)]
    omega
  · intro h
    rw [prefixValue_lit N hN h, Nat.shiftLeft_eq]
    omega
  · rw [appendPrefix_nil]
    exact Uvarint_PutUvarint (prefixValue N) hp64 rest
  · rw [← prefixSize_eq]
    exact hps

theorem prefix_round_trip_witness :
    1 ≤ 64 ∧ 64 < 2 ^ 63 ∧
      (appendPrefix [] 64 = PutUvarint (prefixValue 64) ∧
      (∀ k, 64 = 2 ^ k → 64 ≤ 64 → prefixValue 64 = (k <<< 1) ||| 1) ∧
      ((64 < 64 ∨ ¬ ∃ k, 64 = 2 ^ k) → prefixValue 64 = 64 <<< 1) ∧
      prefixValue 64 ≠ 0 ∧
      Uvarint (appendPrefix [] 64 ++ [])
        = (prefixValue 64, ((appendPrefix [] 64).length : Int)) ∧
      (if prefixValue 64 &&& 1 = 1 then (1 <<< (prefixValue 64 >>> 1)) % 2 ^ 64
        else prefixValue 64 >>> 1) = 64) :=
  ⟨by decide, by decide, prefix_round_trip 64 (by decide) (by decide) []⟩

/-- C17: the pending run of empty blocks is written before a residual. For `e` blocks
of zeros followed by a residual `r` of one to six bytes, not all zero (the whole shorter
than `2^63`), the output of `Encode` is the size prefix, then nothing for `e = 0`, `0x80`
for `e = 1` and `0x00` with the LEB128 encoding of `e - 1` for `e ≥ 2`, then `0x01`, then
the bytes of `r`. -/
theorem flush_before_residual (e : Nat) (r : List Nat) (h1 : 1 ≤ r.length)
    (h6 : r.length ≤ 6) (hnz : ∃ b ∈ r, b ≠ 0) (hlen : 7 * e + r.length < 2 ^ 63) :
    Encode [] (List.replicate (7 * e) 0 ++ r)
      = some (appendPrefix [] (7 * e + r.length)
          ++ (if e = 0 then [] else if e = 1 then [0x80] else 0x00 :: PutUvarint (e - 1))
          ++ [0x01] ++ r) := by
  have hne : List.replicate (7 * e) 0 ++ r ≠ [] := by
    intro h
    have := congrArg List.length h
    simp only [List.length_append, List.length_replicate, List.length_nil] at this
    omega
  have hany : r.any (fun b => b != 0) = true := by
    rw [List.any_eq_true]
    obtain ⟨b, hb, hb0⟩ := hnz
    exact ⟨b, hb, by simpa using hb0⟩
  rw [Encode_ne_nil [] _ hne, List.length_append, List.length_replicate,
    encodeLoop_zero_blocks e _ 0 r (by omega), Nat.zero_add,
    encodeLoop_short _ _ _ (by omega)]
  unfold encodeResidual
  rw [if_pos hany, flushEmpty_eq _ _ (by omega)]
  rfl

theorem flush_before_residual_witness :
    1 ≤ [0, 9].length ∧ [0, 9].length ≤ 6 ∧ (∃ b ∈ [0, 9], b ≠ 0) ∧
      7 * 3 + [0, 9].length < 2 ^ 63 ∧
      Encode [] (List.replicate (7 * 3) 0 ++ [0, 9]) = some [0x2E, 0x00, 0x02, 0x01, 0, 9] :=
  ⟨by decide, by decide, by decide, by decide,
    (flush_before_residual 3 [0, 9] (by decide) (by decide) (by decide) (by decide)).trans
      (by decide)⟩

/-- C18, as the code has it: the encoding of 14 zero bytes is the size prefix alone, the
one byte `0x1C`; the two empty blocks at the end of the input are not written, and
`Decode` gives the 14 zero bytes back. -/
theorem encode_two_empty_blocks :
    Encode [] (List.replicate 14 0) = some (appendPrefix [] 14) ∧
      appendPrefix [] 14 = [0x1C] ∧
      Decode [] [0x1C] = .ok (List.replicate 14 0) := by
  decide

/-- C18 as the specification has it fails: the encoding of 14 zero bytes is not
`[0x1C, 0x00, 0x01]`, it is `[0x1C]`. -/
theorem encode_two_empty_blocks_counterexample :
    Encode [] [0, 0, 0, 0, 0, 0, 0, 0, 0, 0, 0, 0, 0, 0] = some [0x1C] ∧
      Encode [] [0, 0, 0, 0, 0, 0, 0, 0, 0, 0, 0, 0, 0, 0] ≠ some [0x1C, 0x00, 0x01] := by
  decide

/-- C19: zeros at the end cost no frame. For `s` of whole blocks (a length that is a
multiple of 7), `k` zero bytes after it and any `dst`, `encodeBlocks` returns the same
for `s` followed by the zeros as for `s`; for `s` it returns the same as for `s` without
the empty blocks at its end; the frames it appends do not depend on `dst`, so that
`Encode` of the two inputs differs in the size prefix only. -/
theorem trailing_zeros_free (s : List Nat) (k : Nat) (hm : s.length % 7 = 0) :
    (∀ dst, encodeBlocks dst (s ++ List.replicate k 0) = encodeBlocks dst s) ∧
      (∀ s0 m dst, s = s0 ++ List.replicate (7 * m) 0 →
        encodeBlocks dst s = encodeBlocks dst s0) ∧
      ∃ F, (∀ dst, encodeBlocks dst s = some (dst ++ F)) ∧
        (∀ dst, encodeBlocks dst (s ++ List.replicate k 0) = some (dst ++ F)) ∧
        (s ≠ [] → Encode [] s = some (appendPrefix [] s.length ++ F) ∧
          Encode [] (s ++ List.replicate k 0) = some (appendPrefix [] (s.length + k) ++ F)) := by
  have h0 : ∀ s0 m dst, s = s0 ++ List.replicate (7 * m) 0 →
      encodeBlocks dst s = encodeBlocks dst s0 := by
    intro s0 m dst hs
    have hl := congrArg List.length hs
    rw [List.length_append, List.length_replicate] at hl
    rw [hs]
    exact encodeLoop_append_zeros s0.length s0 dst 0 (7 * m) (le_refl _) (by omega)
  have hz : ∀ dst, encodeBlocks dst (s ++ List.replicate k 0) = encodeBlocks dst s :=
    fun dst => encodeLoop_append_zeros s.length s dst 0 k (le_refl _) hm
  obtain ⟨F, hF, _⟩ := encodeLoop_frames s.length s 0 (le_refl _)
  refine ⟨hz, h0, F, hF, fun dst => by rw [hz dst]; exact hF dst, fun hne => ⟨?_, ?_⟩⟩
  · rw [Encode_ne_nil [] s hne, hF]
  · have hne2 : s ++ List.replicate k 0 ≠ [] := by
      intro h
      exact hne (List.append_eq_nil.mp h).1
    have h := hz (appendPrefix [] (s.length + k))
    unfold encodeBlocks at h
    rw [Encode_ne_nil [] _ hne2, List.length_append, List.length_replicate, h, hF]

theorem trailing_zeros_free_witness :
    [1, 1, 1, 1, 1, 1, 1].length % 7 = 0 ∧
      ((∀ dst, encodeBlocks dst ([1, 1, 1, 1, 1, 1, 1] ++ List.replicate 3 0)
          = encodeBlocks dst [1, 1, 1, 1, 1, 1, 1]) ∧
      (∀ s0 m dst, [1, 1, 1, 1, 1, 1, 1] = s0 ++ List.replicate (7 * m) 0 →
        encodeBlocks dst [1, 1, 1, 1, 1, 1, 1] = encodeBlocks dst s0) ∧
      ∃ F, (∀ dst, encodeBlocks dst [1, 1, 1, 1, 1, 1, 1] = some (dst ++ F)) ∧
        (∀ dst, encodeBlocks dst ([1, 1, 1, 1, 1, 1, 1] ++ List.replicate 3 0)
          = some (dst ++ F)) ∧
        ([1, 1, 1, 1, 1, 1, 1] ≠ [] →
          Encode [] [1, 1, 1, 1, 1, 1, 1]
            = some (appendPrefix [] [1, 1, 1, 1, 1, 1, 1].length ++ F) ∧
          Encode [] ([1, 1, 1, 1, 1, 1, 1] ++ List.replicate 3 0)
            = some (appendPrefix [] ([1, 1, 1, 1, 1, 1, 1].length + 3) ++ F))) :=
  ⟨by decide, trailing_zeros_free [1, 1, 1, 1, 1, 1, 1] 3 (by decide)⟩

/-- C20: the bound on the growth. For every `s` of length `N`, `Encode(nil, s)` returns
an output of at most `N + ⌈N/7⌉ + 10` bytes: the size prefix takes at most 10 bytes, the
frame of a block at most 8, the frame of a residual of `r` bytes `r + 1`, the frame of a
pending run of `e` empty blocks at most 11 and at most `7e`, and the frames of the loop
at most one byte more per block, full or not, than the input they stand for. -/
theorem expansion_bound (s : List Nat) :
    (∃ out, Encode [] s = some out ∧ out.length ≤ s.length + (s.length + 6) / 7 + 10) ∧
      (∀ N, (appendPrefix [] N).length ≤ 10) ∧
      (∀ b0 b1 b2 b3 b4 b5 b6 sum,
        (encodeBlock [] b0 b1 b2 b3 b4 b5 b6 sum).length ≤ 8) ∧
      (∀ acc src, src.any (fun b => b != 0) = true →
        encodeResidual acc 0 src = some (acc ++ 1 :: src)) ∧
      (∀ e, ∃ F : List Nat, (∀ acc, flushEmpty acc e = some (acc ++ F)) ∧ F.length ≤ 7 * e ∧
        F.length ≤ 11) ∧
      (∀ src e, ∃ F : List Nat, (∀ acc, encodeLoop acc e src = some (acc ++ F)) ∧
        F.length ≤ 7 * e + src.length + (src.length + 6) / 7) := by
  have hpre : ∀ N, (appendPrefix [] N).length ≤ 10 := fun N => by
    rw [appendPrefix_nil]; exact PutUvarint_length_le _
  refine ⟨?_, hpre, encodeBlock_length_le, ?_, flushEmpty_frames_le,
    fun src e => encodeLoop_frames src.length src e (le_refl _)⟩
  swap
  · intro acc src hany
    unfold encodeResidual
    rw [if_pos hany, flushEmpty_zero]
    simp
  by_cases hne : s = []
  · subst hne
    exact ⟨[], Encode_nil [], by simp⟩
  · obtain ⟨F, hF, hl⟩ := encodeLoop_frames s.length s 0 (le_refl _)
    refine ⟨_, by rw [Encode_ne_nil [] s hne, hF], ?_⟩
    have := hpre s.length
    rw [List.length_append]
    omega

end Tipsy
